import Mathlib

/-!
The n-gram language model of `lab3/lang_model.C`.

A shallow embedding of `LangModel` (counting of n-grams per sentence, plus-delta
and Witten-Bell smoothing, the dispatching `get_prob`) together with the parts
of `lab1/util.H` it relies on (`SymbolTable`, the parameter look-ups).

Conventions of the embedding:

* C++ `int` values that are sizes, loop counters or counts are natural numbers;
  word indices and values read from a symbol table are integers.
* a `vector<int>` is a `List Int`; reading `v[i]` is `v.getD i 0` (a read outside
  the vector is undefined in the source and yields `0` here);
* a `double` is an exact rational, and `none` stands for a value that is not a
  finite number (an infinity or a NaN), which in this code can only come from
  a division by zero and is absorbing under the operations that follow it;
  the operations `fdiv`, `fmul`, `fadd` do not round, so that the estimators
  written with them give the exact value of the formula that the code
  evaluates; the rounding of the machine is `round_double`, and the estimators
  are written a second time (`..._rounded`) with every operation rounded;
* a `const` member function returns its result and the unchanged object;
* a member function guarded by an `assert` yields `none` when the assertion
  fails; where the index checked by the assertion is computed by `int`
  arithmetic that can overflow, the wrap-around is written out (`int_wrap`)
  and the outcome says whether the element accessed exists (`Access`);
* the size of a container is below `2^31`, so that its cast to `int` is exact.
-/

namespace LM

/-! ## `NGramCounter` -/

/-- Modelled from the spec: the class `NGramCounter` is declared in `lang_model.H`,
which is not among the sources.  The spec describes it as a mapping from integer
sequences (compared element-wise, sequences of different lengths being different
keys) to counts, in which an unseen key has count 0. -/
structure NGramCounter where
  /-- The count stored for a key. -/
  count : List Int → Nat

/-- The counter a freshly constructed `LangModel` holds: every count is 0. -/
def NGramCounter.empty : NGramCounter := ⟨fun _ => 0⟩

/-- Modelled from the spec: `getCount(key) -> count`, 0 for unseen keys. -/
def NGramCounter.get_count (c : NGramCounter) (key : List Int) : Nat := c.count key

/-- Modelled from the spec: `incrementCount(key) -> newCount` increments the
count stored for `key` and returns the updated value. -/
def NGramCounter.incr_count (c : NGramCounter) (key : List Int) : NGramCounter × Nat :=
  (⟨fun k => if k = key then c.count k + 1 else c.count k⟩, c.count key + 1)

/-! ## `SymbolTable` (util.H) -/

/-- The two `std::map`s of `SymbolTable`. -/
structure SymbolTable where
  m_strToIdxMap : AList (fun _ : String => Int)
  m_idxToStrMap : AList (fun _ : Int => String)

/-- `SymbolTable::size`: the number of entries of `m_strToIdxMap`. -/
def SymbolTable.size (t : SymbolTable) : Int := (t.m_strToIdxMap.entries.length : Int)

/-- `SymbolTable::get_index`: the stored index, `-1` if the string is not in the table. -/
def SymbolTable.get_index (t : SymbolTable) (theStr : String) : Int :=
  match t.m_strToIdxMap.lookup theStr with
  | some idx => idx
  | none => -1

/-- `SymbolTable::get_str`: the stored string, the empty string if the index is
not in the table. -/
def SymbolTable.get_str (t : SymbolTable) (theIdx : Int) : String :=
  match t.m_idxToStrMap.lookup theIdx with
  | some s => s
  | none => ""

/-! ## Parameter look-ups (util.H, declarations only) -/

/-- Modelled from the spec: `get_string_param` is only declared in `util.H`; its
comment says it returns the value of parameter `name`, and `defaultVal` if the
parameter is not present. -/
def get_string_param (params : AList (fun _ : String => String)) (name : String)
    (defaultVal : String) : String :=
  match params.lookup name with
  | some v => v
  | none => defaultVal

/-- Modelled from the spec: `get_int_param`, like `get_string_param` for integer
parameters.  The conversion of the stored string to a number is `parse`. -/
def get_int_param (parse : String → Int) (params : AList (fun _ : String => String))
    (name : String) (defaultVal : Int) : Int :=
  match params.lookup name with
  | some v => parse v
  | none => defaultVal

/-- Modelled from the spec: `get_float_param`, like `get_string_param` for
floating-point parameters.  The conversion of the stored string is `parse`. -/
def get_float_param (parse : String → ℚ) (params : AList (fun _ : String => String))
    (name : String) (defaultVal : ℚ) : ℚ :=
  match params.lookup name with
  | some v => parse v
  | none => defaultVal

/-! ## `LangModel` -/

/-- The data members of `LangModel`. -/
structure LangModel where
  m_params : AList (fun _ : String => String)
  m_symTable : SymbolTable
  m_bosIdx : Int
  m_eosIdx : Int
  m_unkIdx : Int
  m_n : Nat
  m_delta : ℚ
  m_predCounts : NGramCounter
  m_histCounts : NGramCounter
  m_histOnePlusCounts : NGramCounter

/-- The vector `temp_eps` of the source: one element, set to 0.  It is the key
under which the statistics of the empty history are kept. -/
def temp_eps : List Int := [0]

/-- The vector `temp` built by the innermost loop of `count_sentence_ngrams`:
`temp[j] = wordList[i-(m_n_t-1)+j]` for `j = 0 .. m_n_t-1`. -/
def count_temp (wordList : List Int) (m_n_t i : Nat) : List Int :=
  (List.range m_n_t).map fun j => wordList.getD (i - (m_n_t - 1) + j) 0

/-- The vector `temp_hist` built by the innermost loop of `count_sentence_ngrams`:
`temp_hist[j] = wordList[i-(m_n_t-1)+j]` for `j = 0 .. m_n_t-2` (the guard
`m_n_t > 1` of the source holds whenever there is such a `j`). -/
def count_temp_hist (wordList : List Int) (m_n_t i : Nat) : List Int :=
  (List.range (m_n_t - 1)).map fun j => wordList.getD (i - (m_n_t - 1) + j) 0

/-- The five updates at the end of the body of the `i` loop of
`count_sentence_ngrams`, for the n-gram `temp` of order `m_n_t` and its history
`temp_hist`. -/
def count_update (m_n_t : Nat) (temp temp_hist : List Int) (lm : LangModel) : LangModel :=
  let lm1 := { lm with m_predCounts := (lm.m_predCounts.incr_count temp).1 }
  let lm2 := if m_n_t > 1 then
      { lm1 with m_histCounts := (lm1.m_histCounts.incr_count temp_hist).1 } else lm1
  let lm3 := if m_n_t = 1 then
      { lm2 with m_histCounts := (lm2.m_histCounts.incr_count temp_eps).1 } else lm2
  let lm4 := if m_n_t > 1 ∧ lm3.m_predCounts.get_count temp = 1 then
      { lm3 with m_histOnePlusCounts := (lm3.m_histOnePlusCounts.incr_count temp_hist).1 }
    else lm3
  let lm5 := if m_n_t = 1 ∧ lm4.m_predCounts.get_count temp = 1 then
      { lm4 with m_histOnePlusCounts := (lm4.m_histOnePlusCounts.incr_count temp_eps).1 }
    else lm4
  lm5

/-- One pass of the body of the `i` loop of `count_sentence_ngrams`. -/
def count_body (wordList : List Int) (m_n_t : Nat) (lm : LangModel) (i : Nat) : LangModel :=
  count_update m_n_t (count_temp wordList m_n_t i) (count_temp_hist wordList m_n_t i) lm

/-- `LangModel::count_sentence_ngrams`: for `m_n_t = 1 .. m_n` and
`i = m_n-1 .. wordCnt-1`, run the loop body.  (The start `m_n - 1` of the inner
loop is only evaluated when `m_n >= 1`.) -/
def count_sentence_ngrams (lm : LangModel) (wordList : List Int) : LangModel :=
  let wordCnt := wordList.length
  let m_n := lm.m_n
  (List.range' 1 m_n).foldl
    (fun lm1 m_n_t =>
      (List.range' (m_n - 1) (wordCnt - (m_n - 1))).foldl (count_body wordList m_n_t) lm1)
    lm

/-- The training loop of the constructor: `count_sentence_ngrams` is called once
for each sentence, in order. -/
def count_sentences (lm : LangModel) (sentences : List (List Int)) : LangModel :=
  sentences.foldl count_sentence_ngrams lm

/-- The state of a `LangModel` whose members have been initialised and whose
three counters are still empty (the state in which the training loop starts). -/
def LangModel.fresh (params : AList (fun _ : String => String)) (symTable : SymbolTable)
    (bosIdx eosIdx unkIdx : Int) (n : Nat) (delta : ℚ) : LangModel :=
  { m_params := params, m_symTable := symTable, m_bosIdx := bosIdx, m_eosIdx := eosIdx,
    m_unkIdx := unkIdx, m_n := n, m_delta := delta,
    m_predCounts := NGramCounter.empty, m_histCounts := NGramCounter.empty,
    m_histOnePlusCounts := NGramCounter.empty }

/-! ## Floating-point values -/

/-- Division of two `double`s, without the rounding of the quotient; a zero
divisor gives a non-finite value. -/
def fdiv (a b : Option ℚ) : Option ℚ :=
  match a, b with
  | some x, some y => if y = 0 then none else some (x / y)
  | _, _ => none

/-- Product of two `double`s, without rounding. -/
def fmul (a b : Option ℚ) : Option ℚ :=
  match a, b with
  | some x, some y => some (x * y)
  | _, _ => none

/-- Sum of two `double`s, without rounding. -/
def fadd (a b : Option ℚ) : Option ℚ :=
  match a, b with
  | some x, some y => some (x + y)
  | _, _ => none

/-! ## The probability estimators -/

/-- `LangModel::get_prob_plus_delta`. -/
def get_prob_plus_delta (lm : LangModel) (ngram : List Int) : Option ℚ :=
  let vocSize : Int := lm.m_symTable.size - 1
  if lm.m_n > 1 then
    let temp : List Int := (List.range (lm.m_n - 1)).map fun i => ngram.getD i 0
    fdiv (some ((lm.m_predCounts.get_count ngram : ℚ) + lm.m_delta))
      (some ((lm.m_histCounts.get_count temp : ℚ) + lm.m_delta * (vocSize : ℚ) * 1))
  else
    fdiv (some ((lm.m_predCounts.get_count ngram : ℚ) + lm.m_delta))
      (some ((lm.m_histCounts.get_count temp_eps : ℚ) + lm.m_delta * (vocSize : ℚ) * 1))

/-- The value stored in `p_WB[0]` by the branch `i == 1` of the loop of
`get_prob_witten_bell`. -/
def witten_bell_first (lm : LangModel) (ngram : List Int) : Option ℚ :=
  let vocSize : Int := lm.m_symTable.size - 1
  let eps_hist : Nat := lm.m_histCounts.get_count temp_eps
  let eps_plus : Nat := lm.m_histOnePlusCounts.get_count temp_eps
  let temp : List Int := [ngram.getD (lm.m_n - 1) 0]
  fadd
    (fmul (fdiv (some (1 * (eps_hist : ℚ))) (some ((eps_hist + eps_plus : Nat) : ℚ)))
      (fdiv (some (1 * (lm.m_predCounts.get_count temp : ℚ)))
        (some (lm.m_histCounts.get_count temp_eps : ℚ))))
    (fdiv (fdiv (some (1 * (eps_plus : ℚ))) (some ((eps_plus + eps_hist : Nat) : ℚ)))
      (some (vocSize : ℚ)))

/-- One pass of the body of the loop of `get_prob_witten_bell`, on the vector
`p_WB`.  (The vector `p_MLE` is written and read back in the same pass only,
so its entry is the local value `p_MLE` here.) -/
def witten_bell_body (lm : LangModel) (ngram : List Int) (p_WB : List (Option ℚ)) (i : Nat) :
    List (Option ℚ) :=
  if i = 1 then
    p_WB.set (i - 1) (witten_bell_first lm ngram)
  else
    let temp : List Int := (List.range i).map fun j => ngram.getD (lm.m_n - i + j) 0
    let last_temp : List Int := (List.range (i - 1)).map fun j => temp.getD j 0
    let temp_hist : Nat := lm.m_histCounts.get_count last_temp
    let temp_plus : Nat := lm.m_histOnePlusCounts.get_count last_temp
    if temp_hist = 0 then
      p_WB.set (i - 1) (p_WB.getD (i - 2) none)
    else
      let p_MLE : Option ℚ :=
        fdiv (some (1 * (lm.m_predCounts.get_count temp : ℚ)))
          (some (lm.m_histCounts.get_count last_temp : ℚ))
      p_WB.set (i - 1)
        (fadd
          (fmul (fdiv (some (1 * (temp_hist : ℚ))) (some ((temp_hist + temp_plus : Nat) : ℚ)))
            p_MLE)
          (fmul (fdiv (some (1 * (temp_plus : ℚ))) (some ((temp_hist + temp_plus : Nat) : ℚ)))
            (p_WB.getD (i - 2) none)))

/-- `LangModel::get_prob_witten_bell`: the vector `p_WB` has `m_n` entries, the
loop runs for `i = 1 .. m_n`, and the result is `p_WB[m_n-1]`.  (For `m_n = 0`
the source has no entry to return; the embedding yields `none`.) -/
def get_prob_witten_bell (lm : LangModel) (ngram : List Int) : Option ℚ :=
  let p_WB : List (Option ℚ) := List.replicate lm.m_n (some 0)
  ((List.range' 1 lm.m_n).foldl (witten_bell_body lm ngram) p_WB).getD (lm.m_n - 1) none

/-- What a member function of `LangModel` can throw. -/
inductive LMException where
  /-- A `runtime_error` with its message. -/
  | runtime_error (what : String)
  /-- The exception of `get_required_string_param` for an absent parameter. -/
  | required_param_absent (name : String)
  deriving DecidableEq

/-- `LangModel::get_prob`, a `const` member: its result (the probability or the
exception thrown) and the model after the call. -/
def get_prob (lm : LangModel) (ngram : List Int) : Except LMException (Option ℚ) × LangModel :=
  if ngram.length < 1 ∨ ngram.length > lm.m_n then
    (Except.error (LMException.runtime_error "Invalid n-gram size."), lm)
  else
    (Except.ok (if lm.m_delta ≥ 0 then get_prob_plus_delta lm ngram
      else get_prob_witten_bell lm ngram), lm)

/-! ## The constructor -/

/-- Modelled from the spec: `get_required_string_param` is only declared in
`util.H`; like `get_string_param`, but throws if the parameter is absent. -/
def get_required_string_param (params : AList (fun _ : String => String)) (name : String) :
    Except LMException String :=
  match params.lookup name with
  | some v => Except.ok v
  | none => Except.error (LMException.required_param_absent name)

/-- Modelled from the spec: `convert_words_to_indices` is defined outside the
sources.  The spec: every token is mapped through the vocabulary, a token absent
from it to the unknown index; the result is `N-1` copies of the
beginning-of-sentence index, the mapped tokens, and one end-of-sentence index. -/
def convert_words_to_indices (wordList : List String) (symTable : SymbolTable) (n : Nat)
    (bosIdx eosIdx unkIdx : Int) : List Int :=
  List.replicate (n - 1) bosIdx
    ++ wordList.map (fun w => if symTable.get_index w = -1 then unkIdx else symTable.get_index w)
    ++ [eosIdx]

/-- `LangModel::LangModel`.  The file system is given by `readVocab` (the symbol
table read from a vocabulary file) and `readTrain` (the lines of a training
file, each already split into tokens by `split_string`); `parseInt` and
`parseFloat` convert parameter strings.  A negative `n` behaves like `0` in
every loop and test of this class.  Writing the count file changes no member. -/
def LangModel.ctor (readVocab : String → SymbolTable) (readTrain : String → List (List String))
    (parseInt : String → Int) (parseFloat : String → ℚ)
    (params : AList (fun _ : String => String)) : Except LMException LangModel :=
  match get_required_string_param params "vocab" with
  | Except.error e => Except.error e
  | Except.ok vocabFile =>
    let symTable := readVocab vocabFile
    let lm0 := LangModel.fresh params symTable
      (symTable.get_index (get_string_param params "bos" "<s>"))
      (symTable.get_index (get_string_param params "eos" "</s>"))
      (symTable.get_index (get_string_param params "unk" "<UNK>"))
      (get_int_param parseInt params "n" 3).toNat
      (get_float_param parseFloat params "delta" (-1))
    if lm0.m_bosIdx = -1 ∨ lm0.m_eosIdx = -1 ∨ lm0.m_unkIdx = -1 then
      Except.error (LMException.runtime_error "Vocabulary missing BOS/EOS/UNK token.")
    else
      match get_required_string_param params "train" with
      | Except.error e => Except.error e
      | Except.ok trainFile =>
        Except.ok (count_sentences lm0
          ((readTrain trainFile).map fun wordList =>
            convert_words_to_indices wordList symTable lm0.m_n lm0.m_bosIdx lm0.m_eosIdx
              lm0.m_unkIdx))

/-! ## Notions used to state and prove the properties of the counts -/

/-- The key under which `count_sentence_ngrams` counts the history of the n-gram
`g`: its first `length - 1` words if it has at least two words, and `temp_eps`
otherwise. -/
def hist_key (g : List Int) : List Int :=
  if g.length > 1 then g.dropLast else temp_eps

/-- The n-grams `temp` met by `count_sentence_ngrams` in a sentence, in the
order of the two loops. -/
def sentence_ngrams (m_n : Nat) (wordList : List Int) : List (List Int) :=
  (List.range' 1 m_n).flatMap fun m_n_t =>
    (List.range' (m_n - 1) (wordList.length - (m_n - 1))).map (count_temp wordList m_n_t)

/-- The n-grams met while counting a list of sentences. -/
def corpus_ngrams (m_n : Nat) (sentences : List (List Int)) : List (List Int) :=
  sentences.flatMap (sentence_ngrams m_n)

/-- The loop body as a function of the n-gram alone. -/
def count_ngram (lm : LangModel) (g : List Int) : LangModel :=
  count_update g.length g g.dropLast lm

/-- The number of positions `i` with `N-1 <= i < length(sentence)` at which the
`length(g)` consecutive words ending at position `i` are `g`. -/
def occurrences (N : Nat) (sentence g : List Int) : Nat :=
  ((List.range sentence.length).filter fun i =>
    N - 1 ≤ i ∧ (sentence.drop (i + 1 - g.length)).take g.length = g).length

/-- The sum, over the sentences, of the occurrences of `g`. -/
def total_occurrences (N : Nat) (sentences : List (List Int)) (g : List Int) : Nat :=
  (sentences.map fun s => occurrences N s g).sum

/-- The key under which the statistics of the history `h` are looked up: the
history itself, and `temp_eps` for the history of length 0. -/
def history_key (h : List Int) : List Int :=
  if h = [] then temp_eps else h

/-- The three tables hold the counts of the list `E` of n-grams: the predictive
count of a key is its number of occurrences in `E`, its history count the number
of n-grams of `E` whose history is counted under it, and its diversity count the
number of different such n-grams. -/
def counts_of (lm : LangModel) (E : List (List Int)) : Prop :=
  ∀ k : List Int,
    lm.m_predCounts.get_count k = E.count k ∧
    lm.m_histCounts.get_count k = E.countP (fun g => hist_key g = k) ∧
    lm.m_histOnePlusCounts.get_count k = (E.toFinset.filter (fun g => hist_key g = k)).card

/-- The `i` last words of an n-gram. -/
def last_words (i : Nat) (ngram : List Int) : List Int :=
  ngram.drop (ngram.length - i)

/-- The interpolation of the spec, level by level.  `P[1]` is
`(C/(C+D)) * (pred([w])/C) + (D/(C+D)) * (1/V)` with `w` the last word and `C`,
`D` the history and diversity counts of the key of the empty history; for
`i >= 2`, with `h` the `i-1` words that precede the last word and `C`, `D` its
history and diversity counts, `P[i]` is `P[i-1]` if `C = 0` and otherwise
`(C/(C+D)) * (pred(last i words)/C) + (D/(C+D)) * P[i-1]`.  (There is no level 0.) -/
def witten_bell_P (lm : LangModel) (ngram : List Int) : Nat → Option ℚ
  | 0 => none
  | 1 =>
    let V : ℚ := ((lm.m_symTable.size - 1 : Int) : ℚ)
    let C : ℚ := (lm.m_histCounts.get_count temp_eps : ℚ)
    let D : ℚ := (lm.m_histOnePlusCounts.get_count temp_eps : ℚ)
    fadd
      (fmul (fdiv (some C) (some (C + D)))
        (fdiv (some (lm.m_predCounts.get_count (last_words 1 ngram) : ℚ)) (some C)))
      (fmul (fdiv (some D) (some (C + D))) (fdiv (some 1) (some V)))
  | (i + 1) + 1 =>
    let h : List Int := last_words (i + 1) ngram.dropLast
    let C : ℚ := (lm.m_histCounts.get_count h : ℚ)
    let D : ℚ := (lm.m_histOnePlusCounts.get_count h : ℚ)
    if C = 0 then witten_bell_P lm ngram (i + 1)
    else
      fadd
        (fmul (fdiv (some C) (some (C + D)))
          (fdiv (some (lm.m_predCounts.get_count (last_words (i + 2) ngram) : ℚ)) (some C)))
        (fmul (fdiv (some D) (some (C + D))) (witten_bell_P lm ngram (i + 1)))

/-! ## The end-to-end scenario -/

/-- The vocabulary of the end-to-end scenario. -/
def scenario_vocab : SymbolTable :=
  { m_strToIdxMap :=
      (((((∅ : AList (fun _ : String => Int)).insert "<s>" 0).insert "</s>" 1).insert
        "<UNK>" 2).insert "the" 3).insert "cat" 4
    m_idxToStrMap :=
      (((((∅ : AList (fun _ : Int => String)).insert 0 "<s>").insert 1 "</s>").insert
        2 "<UNK>").insert 3 "the").insert 4 "cat" }

/-- The parameters of the end-to-end scenario: the two files and the order 2. -/
def scenario_params : AList (fun _ : String => String) :=
  (((∅ : AList (fun _ : String => String)).insert "vocab" "vocab.txt").insert
    "train" "train.txt").insert "n" "2"

/-- The model of the end-to-end scenario: order 2, the sentence `the cat`, padded
to `[<s>, the, cat, </s>]`, counted from empty tables. -/
def scenario_model (delta : ℚ) : LangModel :=
  count_sentences (LangModel.fresh scenario_params scenario_vocab 0 1 2 2 delta)
    [[0, 3, 4, 1]]

/-- The end-to-end scenario run through the constructor: the vocabulary file
holds `scenario_vocab`, the training file the one line `the cat`, and no
parameter `delta` is given. -/
def scenario_ctor : Except LMException LangModel :=
  LangModel.ctor (fun _ => scenario_vocab) (fun _ => [["the", "cat"]]) (fun _ => 2)
    (fun _ => 0) scenario_params

/-- A vocabulary in which index 0 is kept for the empty word, as `vocSize`
("Don't count epsilon") assumes. -/
def epsilon_vocab : SymbolTable :=
  { m_strToIdxMap :=
      ((((((∅ : AList (fun _ : String => Int)).insert "<epsilon>" 0).insert "<s>" 1).insert
        "</s>" 2).insert "<UNK>" 3).insert "the" 4).insert "cat" 5
    m_idxToStrMap :=
      ((((((∅ : AList (fun _ : Int => String)).insert 0 "<epsilon>").insert 1 "<s>").insert
        2 "</s>").insert 3 "<UNK>").insert 4 "the").insert 5 "cat" }

/-- The model obtained over `epsilon_vocab` for order 2 from the sentence
`the cat`, padded to `[1, 4, 5, 2]`: the symbol 0 does not occur in it. -/
def zero_free_model : LangModel :=
  count_sentences (LangModel.fresh scenario_params epsilon_vocab 1 2 3 2 1) [[1, 4, 5, 2]]

/-! ## The indices at which the word vectors are read -/

/-- The indices `i-(m_n_t-1)+j` at which `count_sentence_ngrams` reads
`wordList`, computed with the integer arithmetic of the source, in the order of
the three loops.  (For `j < m_n_t-1` the same index is read a second time, for
`temp_hist`.) -/
def count_reads (m_n : Nat) (wordList : List Int) : List Int :=
  (List.range' 1 m_n).flatMap fun m_n_t =>
    (List.range' (m_n - 1) (wordList.length - (m_n - 1))).flatMap fun i =>
      (List.range m_n_t).map fun (j : Nat) => (i : Int) - ((m_n_t : Int) - 1) + (j : Int)

/-- The indices at which `get_prob_plus_delta` reads `ngram`: `ngram[i]` for
`i = 0 .. m_n-2` when `m_n > 1`, none otherwise. -/
def plus_delta_reads (m_n : Nat) : List Int :=
  if m_n > 1 then (List.range (m_n - 1)).map fun (i : Nat) => (i : Int) else []

/-- The indices at which pass `i` of the loop of `get_prob_witten_bell` reads
`ngram`: `ngram[m_n-i]` for `i == 1`, and `ngram[m_n-i+j]`, `j = 0 .. i-1`,
otherwise. -/
def witten_bell_pass_reads (m_n i : Nat) : List Int :=
  if i = 1 then [(m_n : Int) - (i : Int)]
  else (List.range i).map fun (j : Nat) => (m_n : Int) - (i : Int) + (j : Int)

/-- The indices at which `get_prob_witten_bell` reads `ngram`, for `i = 1 .. m_n`. -/
def witten_bell_reads (m_n : Nat) : List Int :=
  (List.range' 1 m_n).flatMap (witten_bell_pass_reads m_n)

/-- The denominator of the quotient computed by `get_prob_plus_delta`. -/
def plus_delta_denominator (lm : LangModel) (ngram : List Int) : ℚ :=
  let vocSize : Int := lm.m_symTable.size - 1
  if lm.m_n > 1 then
    let temp : List Int := (List.range (lm.m_n - 1)).map fun i => ngram.getD i 0
    (lm.m_histCounts.get_count temp : ℚ) + lm.m_delta * (vocSize : ℚ) * 1
  else
    (lm.m_histCounts.get_count temp_eps : ℚ) + lm.m_delta * (vocSize : ℚ) * 1

/-! ## Reading a symbol table -/

/-- Modelled from the spec: `SymbolTable::read` is only declared in `util.H`.
The spec: the table is populated from an ordered token list, the index of a
token being its 0-based line number; a token met again keeps its first index. -/
def SymbolTable.read_lines (strList : List String) : SymbolTable :=
  strList.enum.foldl
    (fun t p =>
      if p.2 ∈ t.m_strToIdxMap then t
      else
        { m_strToIdxMap := t.m_strToIdxMap.insert p.2 (p.1 : Int)
          m_idxToStrMap := t.m_idxToStrMap.insert (p.1 : Int) p.2 })
    { m_strToIdxMap := ∅, m_idxToStrMap := ∅ }

/-! ## `GmmSet` (util.H) -/

/-- A `matrix<double>`: its two sizes and its elements. -/
structure DMatrix where
  size1 : Nat
  size2 : Nat
  elem : Nat → Nat → Option ℚ

/-- Assignment `mat(i, j) = val`. -/
def DMatrix.set (mat : DMatrix) (i j : Nat) (val : Option ℚ) : DMatrix :=
  { mat with elem := fun i1 j1 => if i1 = i ∧ j1 = j then val else mat.elem i1 j1 }

/-- The data members of `GmmSet`. -/
structure GmmSet where
  m_gmmMap : List Int
  m_gaussWeights : List (Option ℚ)
  m_gaussParams : DMatrix
  m_logNorms : List (Option ℚ)

/-- `GmmSet::get_gaussian_weight`; `none` when the assertion fails. -/
def GmmSet.get_gaussian_weight (g : GmmSet) (gaussIdx : Int) : Option (Option ℚ) :=
  if gaussIdx ≥ 0 ∧ gaussIdx < (g.m_gaussWeights.length : Int) then
    some (g.m_gaussWeights.getD gaussIdx.toNat none)
  else none

/-- `GmmSet::set_gaussian_weight`; `none` when the assertion fails. -/
def GmmSet.set_gaussian_weight (g : GmmSet) (gaussIdx : Int) (wgt : Option ℚ) : Option GmmSet :=
  if gaussIdx ≥ 0 ∧ gaussIdx < (g.m_gaussWeights.length : Int) then
    some { g with m_gaussWeights := g.m_gaussWeights.set gaussIdx.toNat wgt }
  else none

/-- The value that the 32-bit type `int` gives to an arithmetic expression whose
mathematical value is `x`: the number of `[-2^31, 2^31)` that differs from `x`
by a multiple of `2^32`.  (An overflow of `int` is undefined in C++; on the usual
targets the result wraps around in this way.) -/
def int_wrap (x : Int) : Int := (x + 2 ^ 31) % 2 ^ 32 - 2 ^ 31

/-- The outcome of a member function of `GmmSet` that checks its indices with an
`assert` and then accesses one element of the matrix `m_gaussParams`. -/
inductive Access (α : Type) where
  /-- The assertion fails and the program is aborted. -/
  | assert_failed : Access α
  /-- The assertion holds and the element accessed lies outside the matrix, which
  is undefined behaviour. -/
  | out_of_range : Access α
  /-- The call returns. -/
  | done (a : α) : Access α

/-- The matrix has an element `mat(i, j)`: the two indices, `int` values
converted to the unsigned index type of the matrix, are below its sizes. -/
def DMatrix.has_element (mat : DMatrix) (i j : Int) : Prop :=
  0 ≤ i ∧ i < (mat.size1 : Int) ∧ 0 ≤ j ∧ j < (mat.size2 : Int)

instance (mat : DMatrix) (i j : Int) : Decidable (mat.has_element i j) := by
  unfold DMatrix.has_element
  exact inferInstance

/-- `GmmSet::get_gaussian_mean`: the assertion, with `2 * dimIdx` computed in
`int`, and then the read of `m_gaussParams(gaussIdx, 2 * dimIdx)`. -/
def GmmSet.get_gaussian_mean (g : GmmSet) (gaussIdx dimIdx : Int) : Access (Option ℚ) :=
  if gaussIdx ≥ 0 ∧ gaussIdx < (g.m_gaussParams.size1 : Int) ∧ dimIdx ≥ 0
      ∧ int_wrap (2 * dimIdx) < (g.m_gaussParams.size2 : Int) then
    if g.m_gaussParams.has_element gaussIdx (int_wrap (2 * dimIdx)) then
      Access.done (g.m_gaussParams.elem gaussIdx.toNat (int_wrap (2 * dimIdx)).toNat)
    else Access.out_of_range
  else Access.assert_failed

/-- `GmmSet::get_gaussian_var`: the assertion, with `2 * dimIdx + 1` computed in
`int`, and then the read of `m_gaussParams(gaussIdx, 2 * dimIdx + 1)`. -/
def GmmSet.get_gaussian_var (g : GmmSet) (gaussIdx dimIdx : Int) : Access (Option ℚ) :=
  if gaussIdx ≥ 0 ∧ gaussIdx < (g.m_gaussParams.size1 : Int) ∧ dimIdx ≥ 0
      ∧ int_wrap (2 * dimIdx + 1) < (g.m_gaussParams.size2 : Int) then
    if g.m_gaussParams.has_element gaussIdx (int_wrap (2 * dimIdx + 1)) then
      Access.done (g.m_gaussParams.elem gaussIdx.toNat (int_wrap (2 * dimIdx + 1)).toNat)
    else Access.out_of_range
  else Access.assert_failed

/-- `GmmSet::set_gaussian_mean`: the assertion, with `2 * dimIdx` computed in
`int`, and then the assignment to `m_gaussParams(gaussIdx, 2 * dimIdx)`. -/
def GmmSet.set_gaussian_mean (g : GmmSet) (gaussIdx dimIdx : Int) (val : Option ℚ) :
    Access GmmSet :=
  if gaussIdx ≥ 0 ∧ gaussIdx < (g.m_gaussParams.size1 : Int) ∧ dimIdx ≥ 0
      ∧ int_wrap (2 * dimIdx) < (g.m_gaussParams.size2 : Int) then
    if g.m_gaussParams.has_element gaussIdx (int_wrap (2 * dimIdx)) then
      Access.done { g with m_gaussParams :=
        g.m_gaussParams.set gaussIdx.toNat (int_wrap (2 * dimIdx)).toNat val }
    else Access.out_of_range
  else Access.assert_failed

/-- `GmmSet::set_gaussian_var`: the assertion, with `2 * dimIdx + 1` computed in
`int`, and then the assignment to `m_gaussParams(gaussIdx, 2 * dimIdx + 1)`. -/
def GmmSet.set_gaussian_var (g : GmmSet) (gaussIdx dimIdx : Int) (val : Option ℚ) :
    Access GmmSet :=
  if gaussIdx ≥ 0 ∧ gaussIdx < (g.m_gaussParams.size1 : Int) ∧ dimIdx ≥ 0
      ∧ int_wrap (2 * dimIdx + 1) < (g.m_gaussParams.size2 : Int) then
    if g.m_gaussParams.has_element gaussIdx (int_wrap (2 * dimIdx + 1)) then
      Access.done { g with m_gaussParams :=
        g.m_gaussParams.set gaussIdx.toNat (int_wrap (2 * dimIdx + 1)).toNat val }
    else Access.out_of_range
  else Access.assert_failed

/-- `GmmSet::get_gaussian_norm`; `none` when the assertion fails. -/
def GmmSet.get_gaussian_norm (g : GmmSet) (gaussIdx : Int) : Option (Option ℚ) :=
  if gaussIdx ≥ 0 ∧ gaussIdx < (g.m_logNorms.length : Int) then
    some (g.m_logNorms.getD gaussIdx.toNat none)
  else none

/-! ## Further models used as examples -/

/-- The end-to-end scenario with an empty training file: no sentence is counted. -/
def untrained_model : LangModel :=
  LangModel.fresh scenario_params scenario_vocab 0 1 2 2 (-1)

/-- A vocabulary with the single token `a`. -/
def one_token_vocab : SymbolTable :=
  { m_strToIdxMap := (∅ : AList (fun _ : String => Int)).insert "a" 0
    m_idxToStrMap := (∅ : AList (fun _ : Int => String)).insert 0 "a" }

/-- Parameters naming the token `a` as beginning-of-sentence, end-of-sentence
and unknown token, with order 2 and a value for `delta`. -/
def one_token_params : AList (fun _ : String => String) :=
  (((((((∅ : AList (fun _ : String => String)).insert "vocab" "vocab.txt").insert
    "train" "train.txt").insert "n" "2").insert "delta" "1").insert "bos" "a").insert
    "eos" "a").insert "unk" "a"

/-- The model the constructor builds from `one_token_params`, the vocabulary
`one_token_vocab` and the training line `a`: the padded sentence is `[0,0,0]`. -/
def one_token_model : LangModel :=
  count_sentences (LangModel.fresh one_token_params one_token_vocab 0 0 0 2 1) [[0, 0, 0]]

/-- Parameters of a model of order 3. -/
def trigram_params : AList (fun _ : String => String) :=
  (((∅ : AList (fun _ : String => String)).insert "vocab" "vocab.txt").insert
    "train" "train.txt").insert "n" "3"

/-- The model of order 3 over the vocabulary of the scenario, trained on the
sentence `the cat`, padded to `[0,0,3,4,1]`. -/
def trigram_model (delta : ℚ) : LangModel :=
  count_sentences (LangModel.fresh trigram_params scenario_vocab 0 1 2 3 delta)
    [[0, 0, 3, 4, 1]]

/-- The vocabulary of the scenario without the token `<UNK>`. -/
def vocab_without_unk : SymbolTable :=
  { m_strToIdxMap :=
      ((((∅ : AList (fun _ : String => Int)).insert "<s>" 0).insert "</s>" 1).insert
        "the" 2).insert "cat" 3
    m_idxToStrMap :=
      ((((∅ : AList (fun _ : Int => String)).insert 0 "<s>").insert 1 "</s>").insert
        2 "the").insert 3 "cat" }

/-- A set with one mixture of two Gaussians of dimension 1 (mean 0, variance 1,
weights 1/2), with some cached normalizers. -/
def example_gmm : GmmSet :=
  { m_gmmMap := [0]
    m_gaussWeights := [some (1 / 2), some (1 / 2)]
    m_gaussParams := { size1 := 2, size2 := 2, elem := fun _ j => if j = 0 then some 0 else some 1 }
    m_logNorms := [some (-8 / 5), some (-8 / 5)] }

/-- `GmmSet::get_gmm_count`. -/
def GmmSet.get_gmm_count (g : GmmSet) : Int := (g.m_gmmMap.length : Int)

/-- `GmmSet::get_gaussian_count`. -/
def GmmSet.get_gaussian_count (g : GmmSet) : Int := (g.m_gaussParams.size1 : Int)

/-- `GmmSet::get_min_gaussian_index`; `none` when the assertion fails. -/
def GmmSet.get_min_gaussian_index (g : GmmSet) (gmmIdx : Int) : Option Int :=
  if gmmIdx ≥ 0 ∧ gmmIdx < (g.m_gmmMap.length : Int) then
    some (g.m_gmmMap.getD gmmIdx.toNat 0)
  else none

/-- `GmmSet::get_max_gaussian_index`; `none` when the assertion fails. -/
def GmmSet.get_max_gaussian_index (g : GmmSet) (gmmIdx : Int) : Option Int :=
  if gmmIdx ≥ 0 ∧ gmmIdx < (g.m_gmmMap.length : Int) then
    some (if gmmIdx + 1 < (g.m_gmmMap.length : Int) then g.m_gmmMap.getD (gmmIdx + 1).toNat 0
      else (g.m_gaussParams.size1 : Int))
  else none

/-- A set of five Gaussians of dimension 1 in three mixtures, the second of
which is empty: the mixtures start at the Gaussians 0, 2 and 2. -/
def example_gmm_three : GmmSet :=
  { m_gmmMap := [0, 2, 2]
    m_gaussWeights := [some (1 / 2), some (1 / 2), some (1 / 3), some (1 / 3), some (1 / 3)]
    m_gaussParams := { size1 := 5, size2 := 2, elem := fun _ j => if j = 0 then some 0 else some 1 }
    m_logNorms := [some (-8 / 5), some (-8 / 5), some (-2), some (-2), some (-2)] }

/-- The model of order 1 over the vocabulary of the scenario, trained on the two
sentences `[3,4,1]` and `[3,1]`. -/
def unigram_model : LangModel :=
  count_sentences (LangModel.fresh scenario_params scenario_vocab 0 1 2 1 (-1))
    [[3, 4, 1], [3, 1]]

/-! ## The rounding of `double` arithmetic

The estimators above are written with exact operations.  Here they are written
once more with every operation rounded to the nearest `double`. -/

/-- The least `k` from `k0` on with `n < 2^(2^k)`, looked for in at most `fuel`
steps. -/
def bit_length_bound (n : Nat) : Nat → Nat → Nat
  | 0, k0 => k0
  | fuel + 1, k0 => if n < 2 ^ 2 ^ k0 then k0 else bit_length_bound n fuel (k0 + 1)

/-- Bisection for the greatest `l` with `2^l <= n`, among `acc, ..., acc + 2^k - 1`. -/
def bit_length_search (n : Nat) : Nat → Nat → Nat
  | 0, acc => acc
  | k + 1, acc =>
    if n < 2 ^ (acc + 2 ^ k) then bit_length_search n k acc
    else bit_length_search n k (acc + 2 ^ k)

/-- The number of binary digits of `n`. -/
def bit_length (n : Nat) : Nat :=
  if n = 0 then 0 else bit_length_search n (bit_length_bound n n 0) 0 + 1

/-- The exponent of the leading binary digit of the positive quotient `n / d`:
the integer `ex` with `2^ex <= n / d < 2^(ex + 1)`. -/
def quotient_exponent (n d : Nat) : Int :=
  let t : Int := (bit_length n : Int) - (bit_length d : Int)
  let below : Bool :=
    if 0 ≤ t then decide (n < d * 2 ^ t.toNat) else decide (n * 2 ^ (-t).toNat < d)
  if below then t - 1 else t

/-- The integer nearest to `(n / d) / 2^u`, the even one of the two when
`(n / d) / 2^u` lies half-way between two integers. -/
def round_quotient (n d : Nat) (u : Int) : Nat :=
  let num : Nat := if u ≤ 0 then n * 2 ^ (-u).toNat else n
  let den : Nat := if u ≤ 0 then d else d * 2 ^ u.toNat
  let q : Nat := num / den
  let r : Nat := num % den
  if 2 * r > den then q + 1 else if 2 * r = den then q + q % 2 else q

/-- Rounding of the positive quotient `n / d` to the format of a `double`: the
exponent `u` of the last binary digit kept (53 significant digits, and `u` not
below -1074) and the integer nearest to `(n / d) / 2^u`. -/
def round_significand (n d : Nat) : Nat × Int :=
  let u : Int := max (quotient_exponent n d - 52) (-1074)
  (round_quotient n d u, u)

/-- The `double` nearest to the rational number `x`, as the arithmetic of the
machine rounds (IEEE 754 binary64: 53 significant binary digits, round to
nearest, ties to even, gradual underflow down to `2^-1074`); `none` when the
result is an infinity, that is, when the rounded magnitude reaches `2^1024`. -/
def round_double (x : ℚ) : Option ℚ :=
  let r := round_significand x.num.natAbs x.den
  if 0 ≤ r.2 ∧ r.1 * 2 ^ r.2.toNat ≥ 2 ^ 1024 then none
  else
    let mag : ℚ := if 0 ≤ r.2 then ((r.1 * 2 ^ r.2.toNat : Nat) : ℚ)
      else (r.1 : ℚ) / ((2 ^ (-r.2).toNat : Nat) : ℚ)
    some (if x.num < 0 then -mag else mag)

/-- Division of two `double`s, rounded; a zero divisor gives a value that is not
a finite number.  Here `none` is a value that is not a finite number, or one
computed from such a value. -/
def double_div (a b : Option ℚ) : Option ℚ :=
  match a, b with
  | some x, some y => if y = 0 then none else round_double (x / y)
  | _, _ => none

/-- Product of two `double`s, rounded. -/
def double_mul (a b : Option ℚ) : Option ℚ :=
  match a, b with
  | some x, some y => round_double (x * y)
  | _, _ => none

/-- Sum of two `double`s, rounded. -/
def double_add (a b : Option ℚ) : Option ℚ :=
  match a, b with
  | some x, some y => round_double (x + y)
  | _, _ => none

/-- Conversion of an `int` to `double`. -/
def double_of_int (n : Int) : Option ℚ := round_double (n : ℚ)

/-- `LangModel::get_prob_plus_delta`, each operation on `double`s rounded as the
machine rounds it (the member `m_delta` holds the `double` nearest to its value
in the embedding). -/
def get_prob_plus_delta_rounded (lm : LangModel) (ngram : List Int) : Option ℚ :=
  let vocSize : Int := lm.m_symTable.size - 1
  if lm.m_n > 1 then
    let temp : List Int := (List.range (lm.m_n - 1)).map fun i => ngram.getD i 0
    double_div
      (double_add (double_of_int (lm.m_predCounts.get_count ngram)) (round_double lm.m_delta))
      (double_add (double_of_int (lm.m_histCounts.get_count temp))
        (double_mul (double_mul (round_double lm.m_delta) (double_of_int vocSize)) (some 1)))
  else
    double_div
      (double_add (double_of_int (lm.m_predCounts.get_count ngram)) (round_double lm.m_delta))
      (double_add (double_of_int (lm.m_histCounts.get_count temp_eps))
        (double_mul (double_mul (round_double lm.m_delta) (double_of_int vocSize)) (some 1)))

/-- The value stored in `p_WB[0]` by the branch `i == 1` of the loop of
`get_prob_witten_bell`, each operation on `double`s rounded. -/
def witten_bell_first_rounded (lm : LangModel) (ngram : List Int) : Option ℚ :=
  let vocSize : Int := lm.m_symTable.size - 1
  let eps_hist : Nat := lm.m_histCounts.get_count temp_eps
  let eps_plus : Nat := lm.m_histOnePlusCounts.get_count temp_eps
  let temp : List Int := [ngram.getD (lm.m_n - 1) 0]
  double_add
    (double_mul
      (double_div (double_mul (some 1) (double_of_int eps_hist))
        (double_of_int ((eps_hist + eps_plus : Nat) : Int)))
      (double_div (double_mul (some 1) (double_of_int (lm.m_predCounts.get_count temp)))
        (double_of_int (lm.m_histCounts.get_count temp_eps))))
    (double_div
      (double_div (double_mul (some 1) (double_of_int eps_plus))
        (double_of_int ((eps_plus + eps_hist : Nat) : Int)))
      (double_of_int vocSize))

/-- One pass of the body of the loop of `get_prob_witten_bell`, on the vector
`p_WB`, each operation on `double`s rounded. -/
def witten_bell_body_rounded (lm : LangModel) (ngram : List Int) (p_WB : List (Option ℚ))
    (i : Nat) : List (Option ℚ) :=
  if i = 1 then
    p_WB.set (i - 1) (witten_bell_first_rounded lm ngram)
  else
    let temp : List Int := (List.range i).map fun j => ngram.getD (lm.m_n - i + j) 0
    let last_temp : List Int := (List.range (i - 1)).map fun j => temp.getD j 0
    let temp_hist : Nat := lm.m_histCounts.get_count last_temp
    let temp_plus : Nat := lm.m_histOnePlusCounts.get_count last_temp
    if temp_hist = 0 then
      p_WB.set (i - 1) (p_WB.getD (i - 2) none)
    else
      let p_MLE : Option ℚ :=
        double_div (double_mul (some 1) (double_of_int (lm.m_predCounts.get_count temp)))
          (double_of_int (lm.m_histCounts.get_count last_temp))
      p_WB.set (i - 1)
        (double_add
          (double_mul
            (double_div (double_mul (some 1) (double_of_int temp_hist))
              (double_of_int ((temp_hist + temp_plus : Nat) : Int)))
            p_MLE)
          (double_mul
            (double_div (double_mul (some 1) (double_of_int temp_plus))
              (double_of_int ((temp_hist + temp_plus : Nat) : Int)))
            (p_WB.getD (i - 2) none)))

/-- `LangModel::get_prob_witten_bell`, each operation on `double`s rounded. -/
def get_prob_witten_bell_rounded (lm : LangModel) (ngram : List Int) : Option ℚ :=
  let p_WB : List (Option ℚ) := List.replicate lm.m_n (some 0)
  ((List.range' 1 lm.m_n).foldl (witten_bell_body_rounded lm ngram) p_WB).getD (lm.m_n - 1) none

/-- The model of order 2 over `epsilon_vocab` trained on the sentence `the`,
padded to `[1, 4, 2]`. -/
def one_word_model (delta : ℚ) : LangModel :=
  count_sentences (LangModel.fresh scenario_params epsilon_vocab 1 2 3 2 delta) [[1, 4, 2]]

/-- The arithmetic of the branch `i == 1` of the loop of `get_prob_witten_bell`,
rounded, on the counts `eps_hist`, `eps_plus` and the predictive count `c` of
the last word. -/
def witten_bell_first_value (eps_hist eps_plus c : Nat) (vocSize : Int) : Option ℚ :=
  double_add
    (double_mul
      (double_div (double_mul (some 1) (double_of_int eps_hist))
        (double_of_int ((eps_hist + eps_plus : Nat) : Int)))
      (double_div (double_mul (some 1) (double_of_int c)) (double_of_int eps_hist)))
    (double_div
      (double_div (double_mul (some 1) (double_of_int eps_plus))
        (double_of_int ((eps_plus + eps_hist : Nat) : Int)))
      (double_of_int vocSize))

/-- The arithmetic of a pass `i > 1` of the loop of `get_prob_witten_bell`,
rounded, on the counts `temp_hist`, `temp_plus`, the predictive count `c` of the
last `i` words and the value `prev` of `p_WB[i-2]`. -/
def witten_bell_level_value (temp_hist temp_plus c : Nat) (prev : Option ℚ) : Option ℚ :=
  if temp_hist = 0 then prev
  else
    double_add
      (double_mul
        (double_div (double_mul (some 1) (double_of_int temp_hist))
          (double_of_int ((temp_hist + temp_plus : Nat) : Int)))
        (double_div (double_mul (some 1) (double_of_int c)) (double_of_int temp_hist)))
      (double_mul
        (double_div (double_mul (some 1) (double_of_int temp_plus))
          (double_of_int ((temp_hist + temp_plus : Nat) : Int)))
        prev)

/-- Parameters of a model of order 200. -/
def deep_params : AList (fun _ : String => String) :=
  (((∅ : AList (fun _ : String => String)).insert "vocab" "vocab.txt").insert
    "train" "train.txt").insert "n" "200"

/-- The sentence made of `b` times the word `the` over `epsilon_vocab`, padded
for the order `a + 1`: `a` times `<s>`, `b` times `the`, and `</s>`. -/
def padded_sentence (a b : Nat) : List Int :=
  List.replicate a 1 ++ List.replicate b 4 ++ [2]

/-- The sentence made of 250 times the word `the`, padded for the order 200. -/
def deep_sentence : List Int := padded_sentence 199 250

/-- The model of order 200 over `epsilon_vocab` trained on `deep_sentence`, in
Witten-Bell mode. -/
def deep_model : LangModel :=
  count_sentences (LangModel.fresh deep_params epsilon_vocab 1 2 3 200 (-1)) [deep_sentence]

/-- The n-gram of length 200 made of 199 times `the` and then `cat`, which does
not occur in `deep_sentence`. -/
def deep_ngram : List Int := List.replicate 199 4 ++ [5]

/-! ## The counting loops as a fold over the n-grams met -/

theorem count_temp_length (wordList : List Int) (m_n_t i : Nat) :
    (count_temp wordList m_n_t i).length = m_n_t := by
  simp [count_temp]

theorem count_temp_hist_eq (wordList : List Int) (m_n_t i : Nat) :
    count_temp_hist wordList m_n_t i = (count_temp wordList m_n_t i).dropLast := by
  unfold count_temp_hist count_temp
  cases m_n_t with
  | zero => simp
  | succ k =>
    rw [List.range_succ, List.map_append]
    simp

theorem count_body_eq (wordList : List Int) (m_n_t i : Nat) (lm : LangModel) :
    count_body wordList m_n_t lm i = count_ngram lm (count_temp wordList m_n_t i) := by
  unfold count_body count_ngram
  rw [count_temp_hist_eq, count_temp_length]

/-- The fields of the model that counting leaves alone. -/
theorem count_update_m_n (k : Nat) (t h : List Int) (lm : LangModel) :
    (count_update k t h lm).m_n = lm.m_n := by
  unfold count_update
  simp only []
  split_ifs <;> rfl

theorem foldl_flatMap_eq {α β γ : Type} (f : γ → β → γ) (g : α → List β) (l : List α) (c : γ) :
    (l.flatMap g).foldl f c = l.foldl (fun c a => (g a).foldl f c) c := by
  induction l generalizing c with
  | nil => rfl
  | cons a l ih => simp [List.flatMap_cons, List.foldl_append, ih]

theorem count_sentence_ngrams_eq (lm : LangModel) (wordList : List Int) :
    count_sentence_ngrams lm wordList
      = (sentence_ngrams lm.m_n wordList).foldl count_ngram lm := by
  unfold count_sentence_ngrams sentence_ngrams
  simp only [foldl_flatMap_eq, List.foldl_map]
  congr 1
  funext lm1 m_n_t
  congr 1
  funext a i
  exact count_body_eq _ _ _ _

theorem foldl_count_ngram_m_n (E : List (List Int)) (lm : LangModel) :
    (E.foldl count_ngram lm).m_n = lm.m_n := by
  induction E generalizing lm with
  | nil => rfl
  | cons g E ih => simp only [List.foldl_cons]; rw [ih]; exact count_update_m_n _ _ _ _

theorem count_sentences_eq (lm : LangModel) (sentences : List (List Int)) :
    count_sentences lm sentences
      = (corpus_ngrams lm.m_n sentences).foldl count_ngram lm := by
  unfold count_sentences corpus_ngrams
  induction sentences generalizing lm with
  | nil => rfl
  | cons s ss ih =>
    simp only [List.foldl_cons, List.flatMap_cons, List.foldl_append]
    rw [ih, count_sentence_ngrams_eq, foldl_count_ngram_m_n]

/-! ## The effect of one pass of the loop body -/

theorem incr_count_self (c : NGramCounter) (t : List Int) :
    (c.incr_count t).1.get_count t = 1 ↔ c.get_count t = 0 := by
  simp [NGramCounter.incr_count, NGramCounter.get_count]

theorem incr_count_get (c : NGramCounter) (t k : List Int) :
    (c.incr_count t).1.get_count k = c.get_count k + (if k = t then 1 else 0) := by
  simp only [NGramCounter.incr_count, NGramCounter.get_count]
  split_ifs <;> simp

theorem count_update_gt (k : Nat) (t h : List Int) (lm : LangModel) (hk : 1 < k) :
    count_update k t h lm =
      { lm with
        m_predCounts := (lm.m_predCounts.incr_count t).1
        m_histCounts := (lm.m_histCounts.incr_count h).1
        m_histOnePlusCounts :=
          if lm.m_predCounts.get_count t = 0 then (lm.m_histOnePlusCounts.incr_count h).1
          else lm.m_histOnePlusCounts } := by
  have h1 : ¬ k = 1 := by omega
  unfold count_update
  simp only [gt_iff_lt, hk, h1, if_true, if_false, true_and, false_and, incr_count_self]
  split_ifs <;> rfl

theorem count_update_one (t h : List Int) (lm : LangModel) :
    count_update 1 t h lm =
      { lm with
        m_predCounts := (lm.m_predCounts.incr_count t).1
        m_histCounts := (lm.m_histCounts.incr_count temp_eps).1
        m_histOnePlusCounts :=
          if lm.m_predCounts.get_count t = 0 then (lm.m_histOnePlusCounts.incr_count temp_eps).1
          else lm.m_histOnePlusCounts } := by
  unfold count_update
  simp only [gt_iff_lt, lt_irrefl, if_true, if_false, true_and, false_and, incr_count_self]
  split_ifs <;> rfl

theorem count_ngram_eq (lm : LangModel) (g : List Int) (hg : g ≠ []) :
    count_ngram lm g =
      { lm with
        m_predCounts := (lm.m_predCounts.incr_count g).1
        m_histCounts := (lm.m_histCounts.incr_count (hist_key g)).1
        m_histOnePlusCounts :=
          if lm.m_predCounts.get_count g = 0 then
            (lm.m_histOnePlusCounts.incr_count (hist_key g)).1
          else lm.m_histOnePlusCounts } := by
  have hlen : 1 ≤ g.length := List.length_pos.mpr hg
  unfold count_ngram hist_key
  by_cases h1 : 1 < g.length
  · rw [count_update_gt _ _ _ _ h1]; simp only [gt_iff_lt, h1, if_true]
  · have h2 : g.length = 1 := by omega
    rw [h2, count_update_one]; simp only [gt_iff_lt, lt_irrefl, if_false]

theorem count_ngram_pred (lm : LangModel) (g k : List Int) (hg : g ≠ []) :
    (count_ngram lm g).m_predCounts.get_count k
      = lm.m_predCounts.get_count k + (if k = g then 1 else 0) := by
  rw [count_ngram_eq lm g hg]; exact incr_count_get _ _ _

theorem count_ngram_hist (lm : LangModel) (g k : List Int) (hg : g ≠ []) :
    (count_ngram lm g).m_histCounts.get_count k
      = lm.m_histCounts.get_count k + (if k = hist_key g then 1 else 0) := by
  rw [count_ngram_eq lm g hg]; exact incr_count_get _ _ _

theorem count_ngram_onePlus (lm : LangModel) (g k : List Int) (hg : g ≠ []) :
    (count_ngram lm g).m_histOnePlusCounts.get_count k
      = lm.m_histOnePlusCounts.get_count k
        + (if k = hist_key g ∧ lm.m_predCounts.get_count g = 0 then 1 else 0) := by
  rw [count_ngram_eq lm g hg]
  by_cases h0 : lm.m_predCounts.get_count g = 0
  · simp only [h0, if_true, and_true]; exact incr_count_get _ _ _
  · simp only [h0, if_false, and_false, add_zero]

/-! ## The tables after a run of passes -/

theorem counts_of_fresh (params : AList (fun _ : String => String)) (symTable : SymbolTable)
    (b e u : Int) (n : Nat) (d : ℚ) : counts_of (LangModel.fresh params symTable b e u n d) [] := by
  intro k
  simp [LangModel.fresh, NGramCounter.empty, NGramCounter.get_count]

theorem counts_of_step (lm : LangModel) (E : List (List Int)) (g : List Int) (hg : g ≠ [])
    (h : counts_of lm E) : counts_of (count_ngram lm g) (E ++ [g]) := by
  intro k
  obtain ⟨hp, hh, ho⟩ := h k
  refine ⟨?_, ?_, ?_⟩
  · rw [count_ngram_pred lm g k hg, hp, List.count_append, List.count_singleton]
    by_cases hkg : k = g
    · subst hkg; simp
    · have : ¬ g = k := fun h => hkg h.symm
      simp [hkg, this]
  · rw [count_ngram_hist lm g k hg, hh, List.countP_append]
    by_cases hkg : k = hist_key g
    · subst hkg; simp [List.countP_cons]
    · have : ¬ hist_key g = k := fun h => hkg h.symm
      simp [hkg, this, List.countP_cons]
  · rw [count_ngram_onePlus lm g k hg, ho, (h g).1]
    have hfin : (E ++ [g]).toFinset = insert g E.toFinset := by
      ext x; simp [or_comm]
    rw [hfin]
    by_cases hmem : g ∈ E
    · have hc : ¬ List.count g E = 0 := by
        rw [List.count_eq_zero]; exact fun h => h hmem
      have hins : insert g E.toFinset = E.toFinset :=
        Finset.insert_eq_of_mem (List.mem_toFinset.mpr hmem)
      simp [hc, hins]
    · have hc : List.count g E = 0 := List.count_eq_zero.mpr hmem
      have hnm : g ∉ E.toFinset := fun h => hmem (List.mem_toFinset.mp h)
      rw [Finset.filter_insert]
      by_cases hkg : k = hist_key g
      · subst hkg
        simp [hc, Finset.card_insert_of_not_mem, hnm]
      · have : ¬ hist_key g = k := fun h => hkg h.symm
        simp [hc, hkg, this]

theorem counts_of_foldl (E : List (List Int)) (hE : ∀ g ∈ E, g ≠ []) (E0 : List (List Int))
    (lm : LangModel) (h : counts_of lm E0) : counts_of (E.foldl count_ngram lm) (E0 ++ E) := by
  induction E generalizing E0 lm with
  | nil => simpa using h
  | cons g E ih =>
    have hg : g ≠ [] := hE g (List.mem_cons_self _ _)
    have := ih (fun x hx => hE x (List.mem_cons_of_mem _ hx)) (E0 ++ [g]) (count_ngram lm g)
      (counts_of_step lm E0 g hg h)
    simpa using this

/-! ## The n-grams met, by position -/

theorem count_temp_eq_take_drop (s : List Int) (k i : Nat) (hki : k ≤ i + 1)
    (hi : i < s.length) : count_temp s k i = (s.drop (i + 1 - k)).take k := by
  unfold count_temp
  apply List.ext_getElem
  · simp; omega
  · intro j h1 h2
    simp at h1
    have hd : i - (k - 1) = i + 1 - k := by omega
    have hidx : i + 1 - k + j < s.length := by omega
    simp [hd, List.getD_eq_getElem?_getD, List.getElem?_eq_getElem hidx]

theorem filter_le_range (a n : Nat) :
    (List.range n).filter (fun i => a ≤ i) = List.range' a (n - a) := by
  by_cases h : a ≤ n
  · have hsplit : List.range n = List.range' 0 a ++ List.range' a (n - a) := by
      have h1 := List.range'_append_1 0 a (n - a)
      rw [Nat.zero_add, Nat.sub_add_cancel h] at h1
      rw [List.range_eq_range', h1]
    rw [hsplit, List.filter_append]
    have h1 : (List.range' 0 a).filter (fun i => a ≤ i) = [] := by
      rw [List.filter_eq_nil_iff]
      intro x hx
      simp [List.mem_range'_1] at hx
      simp; exact hx
    have h2 : (List.range' a (n - a)).filter (fun i => a ≤ i) = List.range' a (n - a) := by
      rw [List.filter_eq_self]
      intro x hx
      simp [List.mem_range'_1] at hx
      simp; exact hx.1
    rw [h1, h2]; rfl
  · have h0 : n - a = 0 := by omega
    rw [h0]
    simp only [List.range'_zero]
    rw [List.filter_eq_nil_iff]
    intro x hx
    simp at hx
    simp; omega

theorem count_flatMap_of_length (F : Nat → List (List Int))
    (hF : ∀ k, ∀ x ∈ F k, x.length = k) (L : List Nat) (hL : L.Nodup) (g : List Int) :
    List.count g (L.flatMap F) = if g.length ∈ L then List.count g (F g.length) else 0 := by
  induction L with
  | nil => simp
  | cons a L ih =>
    rw [List.flatMap_cons, List.count_append, ih (List.nodup_cons.mp hL).2]
    have ha : a ∉ L := (List.nodup_cons.mp hL).1
    by_cases hga : g.length = a
    · have hnot : g.length ∉ L := hga ▸ ha
      simp [hga, ha]
    · have h0 : List.count g (F a) = 0 := by
        rw [List.count_eq_zero]
        intro hmem
        exact hga (hF a g hmem)
      have : (g.length ∈ a :: L) ↔ g.length ∈ L := by simp [hga]
      simp [h0, this]

theorem count_sentence_ngrams_occ (N : Nat) (s g : List Int) :
    List.count g (sentence_ngrams N s)
      = if 1 ≤ g.length ∧ g.length ≤ N then occurrences N s g else 0 := by
  unfold sentence_ngrams
  rw [count_flatMap_of_length _ _ _ (List.nodup_range' 1 N) g]
  · have hmem : g.length ∈ List.range' 1 N ↔ (1 ≤ g.length ∧ g.length ≤ N) := by
      simp [List.mem_range'_1]; omega
    by_cases hk : 1 ≤ g.length ∧ g.length ≤ N
    · rw [if_pos (hmem.mpr hk), if_pos hk]
      unfold occurrences
      rw [List.count_eq_countP, List.countP_map, ← List.countP_eq_length_filter]
      have hf : (List.range s.length).countP
            (fun i => decide (N - 1 ≤ i ∧ (s.drop (i + 1 - g.length)).take g.length = g))
          = ((List.range s.length).filter (fun i => N - 1 ≤ i)).countP
            (fun i => decide ((s.drop (i + 1 - g.length)).take g.length = g)) := by
        rw [List.countP_filter]
        apply List.countP_congr
        intro x _
        simp [and_comm]
      rw [hf, filter_le_range]
      apply List.countP_congr
      intro i hi
      simp [List.mem_range'_1] at hi
      have := count_temp_eq_take_drop s g.length i (by omega) (by omega)
      simp [this]
    · rw [if_neg (fun h => hk (hmem.mp h)), if_neg hk]
  · intro k x hx
    simp at hx
    obtain ⟨i, _, rfl⟩ := hx
    exact count_temp_length _ _ _

theorem count_corpus_ngrams (N : Nat) (sentences : List (List Int)) (g : List Int) :
    List.count g (corpus_ngrams N sentences)
      = if 1 ≤ g.length ∧ g.length ≤ N then total_occurrences N sentences g else 0 := by
  unfold corpus_ngrams total_occurrences
  induction sentences with
  | nil => simp
  | cons s ss ih =>
    rw [List.flatMap_cons, List.count_append, ih, count_sentence_ngrams_occ]
    by_cases hk : 1 ≤ g.length ∧ g.length ≤ N
    · simp [hk]
    · simp [hk]

theorem sentence_ngrams_ne_nil (N : Nat) (s : List Int) :
    ∀ g ∈ sentence_ngrams N s, g ≠ [] := by
  intro g hg
  unfold sentence_ngrams at hg
  simp only [List.mem_flatMap, List.mem_map] at hg
  obtain ⟨k, hk, i, _, rfl⟩ := hg
  intro h
  have := count_temp_length s k i
  rw [h] at this
  simp [List.mem_range'_1] at hk
  simp at this
  omega

theorem corpus_ngrams_ne_nil (N : Nat) (sentences : List (List Int)) :
    ∀ g ∈ corpus_ngrams N sentences, g ≠ [] := by
  intro g hg
  unfold corpus_ngrams at hg
  simp only [List.mem_flatMap] at hg
  obtain ⟨s, _, hs⟩ := hg
  exact sentence_ngrams_ne_nil N s g hs

theorem counts_of_trained (params : AList (fun _ : String => String)) (symTable : SymbolTable)
    (b e u : Int) (N : Nat) (d : ℚ) (sentences : List (List Int)) :
    counts_of (count_sentences (LangModel.fresh params symTable b e u N d) sentences)
      (corpus_ngrams N sentences) := by
  rw [count_sentences_eq]
  have := counts_of_foldl (corpus_ngrams N sentences) (corpus_ngrams_ne_nil N sentences) []
    (LangModel.fresh params symTable b e u N d) (counts_of_fresh _ _ _ _ _ _ _)
  simpa [LangModel.fresh] using this

/-! ## Sums over the word that follows a history -/

theorem snoc_indicator_finsum (K g : List Int) :
    (∑ᶠ w : Int, (if g = K ++ [w] then 1 else 0 : Nat))
      = if g ≠ [] ∧ g.dropLast = K then 1 else 0 := by
  by_cases h : g ≠ [] ∧ g.dropLast = K
  · rw [if_pos h]
    obtain ⟨hg, hK⟩ := h
    have hsplit : g = K ++ [g.getLast hg] := by
      rw [← hK]; exact (List.dropLast_append_getLast hg).symm
    rw [finsum_eq_single _ (g.getLast hg)]
    · rw [if_pos hsplit]
    · intro x hx
      rw [if_neg]
      intro hgx
      apply hx
      have := hsplit.symm.trans hgx
      simpa using this.symm
  · rw [if_neg h]
    have : (fun w : Int => (if g = K ++ [w] then 1 else 0 : Nat)) = fun _ => 0 := by
      funext w
      rw [if_neg]
      intro hgw
      apply h
      subst hgw
      simp
    rw [this]
    exact finsum_zero

theorem support_count_snoc_finite (K : List Int) (E : List (List Int)) :
    (Function.support fun w : Int => List.count (K ++ [w]) E).Finite := by
  apply Set.Finite.subset (E.map fun g => g.getLastD 0).toFinset.finite_toSet
  intro w hw
  simp only [Function.mem_support, ne_eq, List.count_eq_zero, not_not] at hw
  simp only [List.coe_toFinset, List.mem_map, Set.mem_setOf_eq]
  exact ⟨K ++ [w], hw, by simp⟩

theorem finsum_count_snoc (K : List Int) (E : List (List Int)) :
    (∑ᶠ w : Int, List.count (K ++ [w]) E)
      = E.countP (fun g => g ≠ [] ∧ g.dropLast = K) := by
  induction E with
  | nil => simp
  | cons g E ih =>
    have hcons : (fun w : Int => List.count (K ++ [w]) (g :: E))
        = fun w => List.count (K ++ [w]) E + (if g = K ++ [w] then 1 else 0 : Nat) := by
      funext w
      rw [List.count_cons]
      simp
    rw [hcons, finsum_add_distrib (support_count_snoc_finite K E), ih, snoc_indicator_finsum,
      List.countP_cons]
    · simp
    · apply Set.Finite.subset (Set.finite_singleton (g.getLastD 0))
      intro w hw
      simp only [Function.mem_support, ne_eq, ite_eq_right_iff, one_ne_zero, imp_false,
        not_not] at hw
      subst hw
      simp

theorem hist_key_indicator (K g : List Int) (hg : g ≠ []) :
    (if hist_key g = K then 1 else 0 : Nat)
      = (if K = temp_eps then (if g ≠ [] ∧ g.dropLast = [] then 1 else 0) else 0)
        + (if 1 ≤ K.length then (if g ≠ [] ∧ g.dropLast = K then 1 else 0) else 0) := by
  unfold hist_key temp_eps
  by_cases h1 : g.length > 1
  · have hd : g.dropLast ≠ [] := by
      intro h
      have := congrArg List.length h
      simp at this; omega
    simp only [h1, if_true, hg, ne_eq, not_false_eq_true, true_and, hd, if_false, ite_self,
      zero_add]
    by_cases hK : g.dropLast = K
    · have : 1 ≤ K.length := by
        rw [← hK]; simp; omega
      simp [hK, this]
    · simp [hK]
  · have hl : g.length = 1 := by
      have := List.length_pos.mpr hg
      omega
    obtain ⟨a, rfl⟩ := List.length_eq_one.mp hl
    simp only [gt_iff_lt, List.length_singleton, lt_irrefl, if_false, ne_eq,
      List.cons_ne_self, not_false_eq_true, List.dropLast_single, and_self, if_true]
    by_cases hK : K = [0]
    · subst hK; simp
    · have : ¬ [0] = K := fun h => hK h.symm
      have h2 : ¬ ([] : List Int) = K ∨ ¬ 1 ≤ K.length := by
        by_cases hn : ([] : List Int) = K
        · right; subst hn; simp
        · left; exact hn
      rcases h2 with h2 | h2 <;> simp [hK, this, h2]

theorem countP_hist_key (K : List Int) (E : List (List Int)) (hE : ∀ g ∈ E, g ≠ []) :
    E.countP (fun g => hist_key g = K)
      = (if K = temp_eps then E.countP (fun g => g ≠ [] ∧ g.dropLast = []) else 0)
        + (if 1 ≤ K.length then E.countP (fun g => g ≠ [] ∧ g.dropLast = K) else 0) := by
  induction E with
  | nil => simp
  | cons g E ih =>
    have hg : g ≠ [] := hE g (List.mem_cons_self _ _)
    have ih1 := ih (fun x hx => hE x (List.mem_cons_of_mem _ hx))
    have hi := hist_key_indicator K g hg
    simp only [List.countP_cons, ih1, decide_eq_true_eq]
    rw [hi]
    generalize (if g ≠ [] ∧ g.dropLast = [] then 1 else 0 : Nat) = x
    generalize (if g ≠ [] ∧ g.dropLast = K then 1 else 0 : Nat) = y
    split_ifs <;> omega

/-! ## Predictive and history counts (C1, C2) -/

theorem scenario_ngrams :
    corpus_ngrams 2 [[0, 3, 4, 1]] = [[3], [4], [1], [0, 3], [3, 4], [4, 1]] := by
  decide

theorem scenario_counts (delta : ℚ) :
    counts_of (scenario_model delta) [[3], [4], [1], [0, 3], [3, 4], [4, 1]] := by
  have := counts_of_trained scenario_params scenario_vocab 0 1 2 2 delta [[0, 3, 4, 1]]
  rw [scenario_ngrams] at this
  exact this

/-- C1. Counting any list of padded sentences from empty tables, with order
`N >= 1`: a key `g` of length `k` with `1 <= k <= N` has as predictive count the
sum over the sentences of the number of positions `i`, `N-1 <= i < length`, at
which the `k` words ending at `i` are `g`; a key of length 0 or of length
greater than `N` has predictive count 0. -/
theorem C1_predictive_counts (params : AList (fun _ : String => String))
    (symTable : SymbolTable) (bosIdx eosIdx unkIdx : Int) (N : Nat) (delta : ℚ)
    (sentences : List (List Int)) (g : List Int) (_hN : 1 ≤ N) :
    (1 ≤ g.length ∧ g.length ≤ N →
      (count_sentences (LangModel.fresh params symTable bosIdx eosIdx unkIdx N delta)
        sentences).m_predCounts.get_count g = total_occurrences N sentences g) ∧
    (g.length = 0 ∨ N < g.length →
      (count_sentences (LangModel.fresh params symTable bosIdx eosIdx unkIdx N delta)
        sentences).m_predCounts.get_count g = 0) := by
  have hc := (counts_of_trained params symTable bosIdx eosIdx unkIdx N delta sentences g).1
  rw [count_corpus_ngrams] at hc
  constructor
  · intro h
    rw [hc, if_pos h]
  · intro h
    rw [hc, if_neg]
    omega

/-- C1, at `N = 2` and the sentence `[0,3,4,1]`: the unigrams `(3)`, `(4)`, `(1)`
and the bigrams `(0,3)`, `(3,4)`, `(4,1)` have predictive count 1, the unigram
`(0)` and the trigram `(0,3,4)` have predictive count 0. -/
theorem C1_predictive_counts_witness :
    (scenario_model 1).m_predCounts.get_count [3] = 1 ∧
    (scenario_model 1).m_predCounts.get_count [4] = 1 ∧
    (scenario_model 1).m_predCounts.get_count [1] = 1 ∧
    (scenario_model 1).m_predCounts.get_count [0] = 0 ∧
    (scenario_model 1).m_predCounts.get_count [0, 3] = 1 ∧
    (scenario_model 1).m_predCounts.get_count [3, 4] = 1 ∧
    (scenario_model 1).m_predCounts.get_count [4, 1] = 1 ∧
    (scenario_model 1).m_predCounts.get_count [0, 3, 4] = 0 := by
  have h := fun g => C1_predictive_counts scenario_params scenario_vocab 0 1 2 2 1 [[0, 3, 4, 1]] g
    (by decide)
  refine ⟨?_, ?_, ?_, ?_, ?_, ?_, ?_, ?_⟩
  · exact ((h [3]).1 (by decide)).trans (by decide)
  · exact ((h [4]).1 (by decide)).trans (by decide)
  · exact ((h [1]).1 (by decide)).trans (by decide)
  · exact ((h [0]).1 (by decide)).trans (by decide)
  · exact ((h [0, 3]).1 (by decide)).trans (by decide)
  · exact ((h [3, 4]).1 (by decide)).trans (by decide)
  · exact ((h [4, 1]).1 (by decide)).trans (by decide)
  · exact (h [0, 3, 4]).2 (by decide)

/-- C2, as stated, fails: in the end-to-end scenario the history-count table
does not answer 1 for `(<s>)`, 1 for `(the)`, 1 for `(cat)` and 3 for the key
of the empty history. -/
theorem C2_as_stated_fails :
    ¬ ((scenario_model 1).m_histCounts.get_count [0] = 1 ∧
       (scenario_model 1).m_histCounts.get_count [3] = 1 ∧
       (scenario_model 1).m_histCounts.get_count [4] = 1 ∧
       (scenario_model 1).m_histCounts.get_count temp_eps = 3) := by
  decide

/-- C2, amended. In the end-to-end scenario the key of the empty history is
`[0]`, which is also the history `(<s>)`; the history-count table answers 4 for
it (three unigram positions and one bigram with history `<s>`), 1 for `(the)`
and 1 for `(cat)`. -/
theorem C2_scenario_history_counts (delta : ℚ) :
    temp_eps = [0] ∧
    (scenario_model delta).m_histCounts.get_count [0] = 4 ∧
    (scenario_model delta).m_histCounts.get_count [3] = 1 ∧
    (scenario_model delta).m_histCounts.get_count [4] = 1 := by
  refine ⟨rfl, ?_, ?_, ?_⟩
  · exact ((scenario_counts delta [0]).2.1).trans (by decide)
  · exact ((scenario_counts delta [3]).2.1).trans (by decide)
  · exact ((scenario_counts delta [4]).2.1).trans (by decide)

/-! ## History counts as sums, diversity below history (C3, C4) -/

theorem finsum_pred_snoc (lm : LangModel) (E : List (List Int)) (h : counts_of lm E)
    (K : List Int) :
    (∑ᶠ w : Int, lm.m_predCounts.get_count (K ++ [w]))
      = E.countP (fun g => g ≠ [] ∧ g.dropLast = K) := by
  rw [← finsum_count_snoc]
  congr 1
  funext w
  exact (h (K ++ [w])).1

theorem hist_eq_finsum (lm : LangModel) (E : List (List Int)) (h : counts_of lm E)
    (hE : ∀ g ∈ E, g ≠ []) (K : List Int) :
    lm.m_histCounts.get_count K
      = (if K = temp_eps then ∑ᶠ w : Int, lm.m_predCounts.get_count [w] else 0)
        + (if 1 ≤ K.length then ∑ᶠ w : Int, lm.m_predCounts.get_count (K ++ [w]) else 0) := by
  rw [(h K).2.1, countP_hist_key K E hE, finsum_pred_snoc lm E h K]
  have := finsum_pred_snoc lm E h []
  simp only [List.nil_append] at this
  rw [this]

/-- C3, as stated, fails: in the end-to-end scenario (`N = 2`) the empty history,
of length `0 <= N-1`, is looked up under `[0]` and has history count 4, while
the predictive counts of the n-grams `(w)`, summed over all words `w`, give 3. -/
theorem C3_as_stated_fails :
    ([] : List Int).length ≤ 2 - 1 ∧
    (scenario_model 1).m_histCounts.get_count (history_key []) = 4 ∧
    (∑ᶠ w : Int, (scenario_model 1).m_predCounts.get_count ([] ++ [w])) = 3 := by
  refine ⟨by decide, by decide, ?_⟩
  rw [finsum_pred_snoc _ _ (scenario_counts 1) []]
  decide

/-- C3, amended. After counting any list of padded sentences from empty tables,
for every key `K`: the history count of `K` is the sum over all words `w` of the
predictive count of `K` followed by `w` when `K` has at least one word and is
not `temp_eps = [0]`; the history count of `[0]` is the sum over all `w` of the
predictive counts of `(w)` plus the sum over all `w` of the predictive counts
of `(0, w)`; every other key (the empty one) has history count 0. -/
theorem C3_history_count_sum (params : AList (fun _ : String => String))
    (symTable : SymbolTable) (bosIdx eosIdx unkIdx : Int) (N : Nat) (delta : ℚ)
    (sentences : List (List Int)) (K : List Int) :
    (count_sentences (LangModel.fresh params symTable bosIdx eosIdx unkIdx N delta)
        sentences).m_histCounts.get_count K
      = (if K = temp_eps then
          ∑ᶠ w : Int, (count_sentences
            (LangModel.fresh params symTable bosIdx eosIdx unkIdx N delta)
            sentences).m_predCounts.get_count [w]
        else 0)
        + (if 1 ≤ K.length then
          ∑ᶠ w : Int, (count_sentences
            (LangModel.fresh params symTable bosIdx eosIdx unkIdx N delta)
            sentences).m_predCounts.get_count (K ++ [w])
        else 0) :=
  hist_eq_finsum _ _ (counts_of_trained params symTable bosIdx eosIdx unkIdx N delta sentences)
    (corpus_ngrams_ne_nil N sentences) K

theorem card_filter_toFinset_le (E : List (List Int)) (p : List Int → Prop) [DecidablePred p] :
    (E.toFinset.filter p).card ≤ E.countP p := by
  have h1 : E.toFinset.filter p = (E.filter p).toFinset := by
    ext x; simp
  rw [h1, List.countP_eq_length_filter]
  exact List.toFinset_card_le _

/-- C4. In every model state reached by counting any list of padded sentences
from empty tables, the history-diversity count (`m_histOnePlusCounts`) of every
key is at most its history count (`m_histCounts`). -/
theorem C4_diversity_le_history (params : AList (fun _ : String => String))
    (symTable : SymbolTable) (bosIdx eosIdx unkIdx : Int) (N : Nat) (delta : ℚ)
    (sentences : List (List Int)) (h : List Int) :
    (count_sentences (LangModel.fresh params symTable bosIdx eosIdx unkIdx N delta)
        sentences).m_histOnePlusCounts.get_count h
      ≤ (count_sentences (LangModel.fresh params symTable bosIdx eosIdx unkIdx N delta)
        sentences).m_histCounts.get_count h := by
  obtain ⟨_, hh, ho⟩ :=
    counts_of_trained params symTable bosIdx eosIdx unkIdx N delta sentences h
  rw [hh, ho]
  exact card_filter_toFinset_le _ _

/-! ## Diversity counts as numbers of distinct continuations (C5) -/

theorem mem_of_mem_corpus_ngrams (N : Nat) (sentences : List (List Int)) (g : List Int)
    (hg : g ∈ corpus_ngrams N sentences) (x : Int) (hx : x ∈ g) :
    ∃ s ∈ sentences, x ∈ s := by
  unfold corpus_ngrams sentence_ngrams at hg
  simp only [List.mem_flatMap, List.mem_map] at hg
  obtain ⟨s, hs, k, hk, i, hi, rfl⟩ := hg
  simp only [List.mem_range'_1] at hk hi
  rw [count_temp_eq_take_drop s k i (by omega) (by omega)] at hx
  exact ⟨s, hs, List.mem_of_mem_drop (List.mem_of_mem_take hx)⟩

theorem hist_key_eq_iff (h g : List Int) (hg : g ≠ []) (h0 : (0 : Int) ∉ g)
    (hh : h ≠ [0]) : hist_key g = history_key h ↔ ∃ w, g = h ++ [w] := by
  unfold hist_key history_key temp_eps
  constructor
  · intro heq
    by_cases h1 : g.length > 1
    · rw [if_pos h1] at heq
      by_cases hnil : h = []
      · rw [if_pos hnil] at heq
        exfalso
        apply h0
        have : (0 : Int) ∈ g.dropLast := by rw [heq]; simp
        exact List.mem_of_mem_dropLast this
      · rw [if_neg hnil] at heq
        exact ⟨g.getLast hg, by rw [← heq]; exact (List.dropLast_append_getLast hg).symm⟩
    · rw [if_neg h1] at heq
      have hl : g.length = 1 := by
        have := List.length_pos.mpr hg
        omega
      obtain ⟨a, rfl⟩ := List.length_eq_one.mp hl
      by_cases hnil : h = []
      · exact ⟨a, by rw [hnil]; rfl⟩
      · rw [if_neg hnil] at heq
        exact absurd heq.symm hh
  · rintro ⟨w, rfl⟩
    by_cases hnil : h = []
    · subst hnil; simp
    · have : (h ++ [w]).length > 1 := by
        have := List.length_pos.mpr hnil
        simp; omega
      rw [if_pos this, if_neg hnil]
      simp

theorem onePlus_eq_ncard (lm : LangModel) (E : List (List Int)) (hc : counts_of lm E)
    (hE : ∀ g ∈ E, g ≠ []) (h0 : ∀ g ∈ E, (0 : Int) ∉ g) (h : List Int) (hh : h ≠ [0]) :
    lm.m_histOnePlusCounts.get_count (history_key h)
      = Set.ncard {w : Int | 1 ≤ lm.m_predCounts.get_count (h ++ [w])} := by
  rw [(hc (history_key h)).2.2]
  have hinj : Function.Injective (fun w : Int => h ++ [w]) := by
    intro a b hab
    simpa using hab
  rw [← Set.ncard_image_of_injective _ hinj, ← Set.ncard_coe_Finset]
  congr 1
  ext g
  simp only [Finset.coe_filter, List.mem_toFinset, Set.mem_setOf_eq, Set.mem_image]
  constructor
  · rintro ⟨hg, hk⟩
    obtain ⟨w, rfl⟩ := (hist_key_eq_iff h g (hE g hg) (h0 g hg) hh).mp hk
    refine ⟨w, ?_, rfl⟩
    rw [(hc _).1]
    exact List.count_pos_iff.mpr hg
  · rintro ⟨w, hw, rfl⟩
    rw [(hc _).1] at hw
    have hg : h ++ [w] ∈ E := List.count_pos_iff.mp hw
    exact ⟨hg, (hist_key_eq_iff h _ (hE _ hg) (h0 _ hg) hh).mpr ⟨w, rfl⟩⟩

/-- C5, as stated, fails for the one-word history `[0]`: for `N = 2` and the
sentence `[1,4,5,2]`, in which 0 does not occur, the diversity count looked up
for `[0]` is 3 although no word follows `[0]`. -/
theorem C5_as_stated_fails :
    (∀ s ∈ [[(1 : Int), 4, 5, 2]], (0 : Int) ∉ s) ∧
    ([0] : List Int).length ≤ 2 - 1 ∧
    zero_free_model.m_histOnePlusCounts.get_count (history_key [0]) = 3 ∧
    Set.ncard {w : Int | 1 ≤ zero_free_model.m_predCounts.get_count ([0] ++ [w])} = 0 := by
  refine ⟨by decide, by decide, by decide, ?_⟩
  have hc : counts_of zero_free_model [[4], [5], [2], [1, 4], [4, 5], [5, 2]] := by
    have := counts_of_trained scenario_params epsilon_vocab 1 2 3 2 1 [[1, 4, 5, 2]]
    have he : corpus_ngrams 2 [[1, 4, 5, 2]] = [[4], [5], [2], [1, 4], [4, 5], [5, 2]] := by
      decide
    rw [he] at this
    exact this
  have hempty : {w : Int | 1 ≤ zero_free_model.m_predCounts.get_count ([0] ++ [w])} = ∅ := by
    ext w
    simp only [Set.mem_setOf_eq, Set.mem_empty_iff_false, iff_false, not_le, Nat.lt_one_iff]
    rw [(hc _).1]
    simp
  rw [hempty, Set.ncard_empty]

/-- C5, amended. For every list of padded sentences in which the symbol 0 never
occurs, after counting them from empty tables, for every history `h` other than
the one-word history `[0]` (the length-0 history being looked up under the key
`[0]`) the history-diversity count of `h` is the number of distinct words `w`
for which `h` followed by `w` has predictive count at least 1. -/
theorem C5_diversity_is_distinct_continuations (params : AList (fun _ : String => String))
    (symTable : SymbolTable) (bosIdx eosIdx unkIdx : Int) (N : Nat) (delta : ℚ)
    (sentences : List (List Int)) (h : List Int)
    (hzero : ∀ s ∈ sentences, (0 : Int) ∉ s) (hh : h ≠ [0]) :
    (count_sentences (LangModel.fresh params symTable bosIdx eosIdx unkIdx N delta)
        sentences).m_histOnePlusCounts.get_count (history_key h)
      = Set.ncard {w : Int | 1 ≤ (count_sentences
          (LangModel.fresh params symTable bosIdx eosIdx unkIdx N delta)
          sentences).m_predCounts.get_count (h ++ [w])} := by
  apply onePlus_eq_ncard _ (corpus_ngrams N sentences)
    (counts_of_trained params symTable bosIdx eosIdx unkIdx N delta sentences)
    (corpus_ngrams_ne_nil N sentences) _ h hh
  intro g hg hmem
  obtain ⟨s, hs, hx⟩ := mem_of_mem_corpus_ngrams N sentences g hg 0 hmem
  exact hzero s hs hx

/-- C5 (amended), at `N = 2`, the sentence `[1,4,5,2]` and the empty history:
the diversity count under `[0]` is the number of distinct words seen. -/
theorem C5_diversity_is_distinct_continuations_witness :
    (∀ s ∈ [[(1 : Int), 4, 5, 2]], (0 : Int) ∉ s) ∧ ([] : List Int) ≠ [0] ∧
    zero_free_model.m_histOnePlusCounts.get_count (history_key [])
      = Set.ncard {w : Int | 1 ≤ zero_free_model.m_predCounts.get_count ([] ++ [w])} :=
  ⟨by decide, by decide,
    C5_diversity_is_distinct_continuations scenario_params epsilon_vocab 1 2 3 2 1 [[1, 4, 5, 2]] []
      (by decide) (by decide)⟩

/-! ## Plus-delta smoothing (C6) -/

theorem map_getD_range_eq_take (l : List Int) (n : Nat) (hn : n ≤ l.length) :
    (List.range n).map (fun i => l.getD i 0) = l.take n := by
  apply List.ext_getElem
  · simp; omega
  · intro j h1 h2
    simp at h1
    have hj : j < l.length := by omega
    simp [List.getD_eq_getElem?_getD, List.getElem?_eq_getElem hj]

theorem map_getD_range_eq_drop (l : List Int) (d n : Nat) (hn : d + n = l.length) :
    (List.range n).map (fun j => l.getD (d + j) 0) = l.drop d := by
  apply List.ext_getElem
  · simp; omega
  · intro j h1 h2
    simp at h1
    have hj : d + j < l.length := by omega
    simp [List.getD_eq_getElem?_getD, List.getElem?_eq_getElem hj]

/-- The value of `get_prob_plus_delta` on an n-gram of length `m_n`. -/
theorem plus_delta_value (lm : LangModel) (ngram : List Int) (hN : 1 ≤ lm.m_n)
    (hlen : ngram.length = lm.m_n)
    (hden : (lm.m_histCounts.get_count (history_key ngram.dropLast) : ℚ)
      + lm.m_delta * ((lm.m_symTable.size - 1 : Int) : ℚ) ≠ 0) :
    get_prob_plus_delta lm ngram
      = some (((lm.m_predCounts.get_count ngram : ℚ) + lm.m_delta)
        / ((lm.m_histCounts.get_count (history_key ngram.dropLast) : ℚ)
          + lm.m_delta * ((lm.m_symTable.size - 1 : Int) : ℚ))) := by
  unfold get_prob_plus_delta
  by_cases h1 : lm.m_n > 1
  · have htemp : (List.range (lm.m_n - 1)).map (fun i => ngram.getD i 0) = ngram.dropLast := by
      rw [map_getD_range_eq_take _ _ (by omega), List.dropLast_eq_take, hlen]
    have hne : ngram.dropLast ≠ [] := by
      intro h
      have := congrArg List.length h
      simp at this; omega
    have hk : history_key ngram.dropLast = ngram.dropLast := by
      unfold history_key; rw [if_neg hne]
    rw [hk] at hden ⊢
    simp only [h1, if_true, htemp, mul_one, fdiv]
    rw [if_neg hden]
  · have h2 : lm.m_n = 1 := by omega
    have hnil : ngram.dropLast = [] := by
      obtain ⟨a, rfl⟩ := List.length_eq_one.mp (hlen.trans h2)
      rfl
    have hk : history_key ngram.dropLast = temp_eps := by
      unfold history_key; rw [if_pos hnil]
    rw [hk] at hden ⊢
    simp only [h1, if_false, mul_one, fdiv]
    rw [if_neg hden]

theorem count_sentences_fields (lm : LangModel) (sentences : List (List Int)) :
    (count_sentences lm sentences).m_n = lm.m_n ∧
    (count_sentences lm sentences).m_delta = lm.m_delta ∧
    (count_sentences lm sentences).m_symTable = lm.m_symTable := by
  rw [count_sentences_eq]
  generalize corpus_ngrams lm.m_n sentences = E
  induction E generalizing lm with
  | nil => exact ⟨rfl, rfl, rfl⟩
  | cons g E ih =>
    simp only [List.foldl_cons]
    obtain ⟨h1, h2, h3⟩ := ih (count_ngram lm g)
    rw [h1, h2, h3]
    unfold count_ngram count_update
    simp only []
    split_ifs <;> exact ⟨rfl, rfl, rfl⟩

theorem scenario_size : scenario_vocab.size = 5 := by decide

/-- C6, at an n-gram shorter than the order.  In the end-to-end scenario
(`N = 2`, `delta = 1`, `V = 4`) the n-gram `(the)` of length 1, which the guard
of `get_prob` admits, gets `2/5` from `get_prob_plus_delta`: the branch
`m_n > 1` takes `(the)` itself for the history.  The formula of the claim, with
the count 4 of the key of the empty history, gives `(1 + 1) / (4 + 1 * 4) = 1/4`;
the branch `m_n == 1` of the same routine does use that key for an n-gram of
length 1. -/
theorem C6_short_ngram_wrong_history :
    (1 ≤ ([3] : List Int).length ∧ ([3] : List Int).length ≤ (scenario_model 1).m_n) ∧
    0 ≤ (scenario_model 1).m_delta ∧
    (get_prob (scenario_model 1) [3]).1 = Except.ok (some (2 / 5)) ∧
    get_prob_plus_delta (scenario_model 1) [3] = some (2 / 5) ∧
    ((scenario_model 1).m_histCounts.get_count (history_key ([3] : List Int).dropLast) : ℚ)
      + (scenario_model 1).m_delta * (((scenario_model 1).m_symTable.size - 1 : Int) : ℚ)
        = 8 ∧
    (((scenario_model 1).m_predCounts.get_count [3] : ℚ) + (scenario_model 1).m_delta)
      / (((scenario_model 1).m_histCounts.get_count (history_key ([3] : List Int).dropLast) : ℚ)
        + (scenario_model 1).m_delta * (((scenario_model 1).m_symTable.size - 1 : Int) : ℚ))
      = 1 / 4 := by
  have hn : (scenario_model 1).m_n = 2 := rfl
  have hd : (scenario_model 1).m_delta = 1 := rfl
  have hs : (scenario_model 1).m_symTable.size = 5 := scenario_size
  have hp : (scenario_model 1).m_predCounts.get_count [3] = 1 := by decide
  have hh : (scenario_model 1).m_histCounts.get_count [3] = 1 := by decide
  have he : (scenario_model 1).m_histCounts.get_count (history_key ([3] : List Int).dropLast)
      = 4 := by decide
  have hpd : get_prob_plus_delta (scenario_model 1) [3] = some (2 / 5) := by
    unfold get_prob_plus_delta
    have ht : (List.range (2 - 1)).map (fun i => ([3] : List Int).getD i 0) = [3] := by decide
    rw [hn, if_pos (by decide), ht, hp]
    simp only [hh, hd, hs, fdiv]
    norm_num
  refine ⟨by rw [hn]; decide, by rw [hd]; norm_num, ?_, hpd, ?_, ?_⟩
  · have hv : ¬ (([3] : List Int).length < 1
        ∨ ([3] : List Int).length > (scenario_model 1).m_n) := by rw [hn]; decide
    unfold get_prob
    rw [if_neg hv]
    have hge : (scenario_model 1).m_delta ≥ 0 := by rw [hd]; norm_num
    simp only [hge, if_true, hpd]
  · rw [he, hd, hs]; norm_num
  · rw [he, hd, hs, hp]; norm_num

/-- C8. `get_prob` fails with the error "Invalid n-gram size." if and only if
the length of the n-gram is less than 1 or greater than `m_n`; in that case the
call yields that error alone, whatever the tables and the value of `delta` are
(no probability is computed); and in every case the model after the call is the
model before it. -/
theorem C8_get_prob_invalid_size (lm : LangModel) (ngram : List Int) :
    ((get_prob lm ngram).1 = Except.error (LMException.runtime_error "Invalid n-gram size.")
      ↔ (ngram.length < 1 ∨ lm.m_n < ngram.length)) ∧
    ((ngram.length < 1 ∨ lm.m_n < ngram.length) →
      ∀ lm1 : LangModel, lm1.m_n = lm.m_n →
        (get_prob lm1 ngram).1
          = Except.error (LMException.runtime_error "Invalid n-gram size.")) ∧
    (¬ (ngram.length < 1 ∨ lm.m_n < ngram.length) → ∃ p, (get_prob lm ngram).1 = Except.ok p) ∧
    (get_prob lm ngram).2 = lm := by
  unfold get_prob
  refine ⟨?_, ?_, ?_, ?_⟩
  · by_cases h : ngram.length < 1 ∨ ngram.length > lm.m_n
    · simp only [if_pos h, true_iff]; exact h
    · simp only [if_neg h]
      constructor
      · intro hc; cases hc
      · intro hc; exact absurd hc h
  · intro h lm1 h1
    have : ngram.length < 1 ∨ ngram.length > lm1.m_n := by rw [h1]; exact h
    rw [if_pos this]
  · intro h
    have : ¬ (ngram.length < 1 ∨ ngram.length > lm.m_n) := h
    rw [if_neg this]
    exact ⟨_, rfl⟩
  · split_ifs <;> rfl

/-- C8, at the end-to-end scenario: the trigram `(0,3,4)` is rejected by the
model of order 2, and the bigram `(3,4)` is accepted. -/
theorem C8_get_prob_invalid_size_witness :
    (∀ lm1 : LangModel, lm1.m_n = (scenario_model 1).m_n →
      (get_prob lm1 [0, 3, 4]).1
        = Except.error (LMException.runtime_error "Invalid n-gram size.")) ∧
    (∃ p, (get_prob (scenario_model 1) [3, 4]).1 = Except.ok p) :=
  ⟨(C8_get_prob_invalid_size (scenario_model 1) [0, 3, 4]).2.1 (by decide),
    (C8_get_prob_invalid_size (scenario_model 1) [3, 4]).2.2.1 (by decide)⟩

/-! ## The dispatch of `get_prob` (C9) and the end-to-end value (C10) -/

theorem ctor_delta (readVocab : String → SymbolTable) (readTrain : String → List (List String))
    (parseInt : String → Int) (parseFloat : String → ℚ)
    (params : AList (fun _ : String => String)) (lm : LangModel)
    (h : LangModel.ctor readVocab readTrain parseInt parseFloat params = Except.ok lm) :
    lm.m_delta = get_float_param parseFloat params "delta" (-1) := by
  unfold LangModel.ctor at h
  split at h
  · cases h
  · simp only [] at h
    split_ifs at h
    split at h
    · cases h
    · injection h with h
      rw [← h, (count_sentences_fields _ _).2.1]
      rfl

/-- C9. For every n-gram of accepted length (`1 <= length <= m_n`), `get_prob`
returns the value of `get_prob_plus_delta` when the delta of the model is
`>= 0` (0 included) and the value of `get_prob_witten_bell` when it is negative;
and a model constructed from parameters without `delta` has delta `-1`, so that
`get_prob` returns the value of `get_prob_witten_bell` for it. -/
theorem C9_get_prob_dispatch (lm : LangModel) (ngram : List Int)
    (hlen : 1 ≤ ngram.length ∧ ngram.length ≤ lm.m_n) :
    (0 ≤ lm.m_delta → (get_prob lm ngram).1 = Except.ok (get_prob_plus_delta lm ngram)) ∧
    (lm.m_delta < 0 → (get_prob lm ngram).1 = Except.ok (get_prob_witten_bell lm ngram)) ∧
    (∀ (readVocab : String → SymbolTable) (readTrain : String → List (List String))
        (parseInt : String → Int) (parseFloat : String → ℚ)
        (params : AList (fun _ : String => String)),
      params.lookup "delta" = none →
      LangModel.ctor readVocab readTrain parseInt parseFloat params = Except.ok lm →
        lm.m_delta = -1 ∧
        (get_prob lm ngram).1 = Except.ok (get_prob_witten_bell lm ngram)) := by
  have hvalid : ¬ (ngram.length < 1 ∨ ngram.length > lm.m_n) := by omega
  have hneg : lm.m_delta < 0 →
      (get_prob lm ngram).1 = Except.ok (get_prob_witten_bell lm ngram) := by
    intro hd
    unfold get_prob
    rw [if_neg hvalid]
    have : ¬ lm.m_delta ≥ 0 := not_le.mpr hd
    simp only [this, if_false]
  refine ⟨?_, hneg, ?_⟩
  · intro hd
    unfold get_prob
    rw [if_neg hvalid]
    have : lm.m_delta ≥ 0 := hd
    simp only [this, if_true]
  · intro readVocab readTrain parseInt parseFloat params habs hctor
    have hdel : lm.m_delta = -1 := by
      rw [ctor_delta readVocab readTrain parseInt parseFloat params lm hctor]
      unfold get_float_param
      rw [habs]
    exact ⟨hdel, hneg (by rw [hdel]; norm_num)⟩

/-- C9, at the end-to-end scenario run through the constructor without a
parameter `delta`: the bigram `(the, cat)` is scored by `get_prob_witten_bell`;
and with `delta = 0` it is scored by `get_prob_plus_delta`. -/
theorem C9_get_prob_dispatch_witness :
    ((scenario_model (-1)).m_delta = -1 ∧
      (get_prob (scenario_model (-1)) [3, 4]).1
        = Except.ok (get_prob_witten_bell (scenario_model (-1)) [3, 4])) ∧
    (get_prob (scenario_model 0) [3, 4]).1
      = Except.ok (get_prob_plus_delta (scenario_model 0) [3, 4]) :=
  ⟨(C9_get_prob_dispatch (scenario_model (-1)) [3, 4] (by decide)).2.2
      (fun _ => scenario_vocab) (fun _ => [["the", "cat"]]) (fun _ => 2) (fun _ => 0)
      scenario_params (by decide) rfl,
    (C9_get_prob_dispatch (scenario_model 0) [3, 4] (by decide)).1 (le_refl _)⟩

/-- C10. End to end: with the vocabulary `<s>=0, </s>=1, <UNK>=2, the=3, cat=4`
(symbol-table size 5, so `V = 4`), `N = 2`, `delta = 1` and the tables counted
from the padded sentence `[0,3,4,1]`, `get_prob_plus_delta` on `(the, cat)`
returns exactly `2/5`. -/
theorem C10_scenario_plus_delta :
    (scenario_model 1).m_symTable.size = 5 ∧ (scenario_model 1).m_n = 2 ∧
    (scenario_model 1).m_delta = 1 ∧
    get_prob_plus_delta (scenario_model 1) [3, 4] = some (2 / 5) := by
  have hn : (scenario_model 1).m_n = 2 := rfl
  have hd : (scenario_model 1).m_delta = 1 := rfl
  have hs : (scenario_model 1).m_symTable.size = 5 := scenario_size
  have hp : (scenario_model 1).m_predCounts.get_count [3, 4] = 1 := by decide
  have he : (scenario_model 1).m_histCounts.get_count
      (history_key ([3, 4] : List Int).dropLast) = 1 := by decide
  refine ⟨hs, hn, hd, ?_⟩
  rw [plus_delta_value (scenario_model 1) [3, 4] (by rw [hn]; decide) (by rw [hn]; rfl)
    (by rw [he, hd, hs]; norm_num), he, hd, hs, hp]
  norm_num

/-! ## Witten-Bell smoothing (C7) -/

theorem fdiv_fdiv_eq_fmul (a b c : ℚ) :
    fdiv (fdiv (some a) (some b)) (some c) = fmul (fdiv (some a) (some b)) (fdiv (some 1) (some c)) := by
  unfold fdiv fmul
  by_cases hb : b = 0 <;> by_cases hc : c = 0 <;> simp [hb, hc, div_eq_mul_inv]

theorem wb_temp_eq (ngram : List Int) (N i : Nat) (hlen : ngram.length = N) (hi : i ≤ N) :
    (List.range i).map (fun j => ngram.getD (N - i + j) 0) = last_words i ngram := by
  unfold last_words
  rw [map_getD_range_eq_drop ngram (N - i) i (by omega), hlen]

theorem wb_last_temp_eq (ngram : List Int) (N i : Nat) (hlen : ngram.length = N) (h1 : 1 ≤ i)
    (hi : i ≤ N) :
    (List.range (i - 1)).map (fun j => (last_words i ngram).getD j 0)
      = last_words (i - 1) ngram.dropLast := by
  have hl : (last_words i ngram).length = i := by
    unfold last_words; simp; omega
  rw [map_getD_range_eq_take _ _ (by omega)]
  unfold last_words
  rw [List.dropLast_eq_take, List.drop_take, List.length_take, hlen]
  have e1 : min (N - 1) N - (i - 1) = N - i := by omega
  have e2 : N - 1 - (N - i) = i - 1 := by omega
  rw [e1, e2]

theorem wb_first_eq (lm : LangModel) (ngram : List Int) (hN : 1 ≤ lm.m_n)
    (hlen : ngram.length = lm.m_n) :
    witten_bell_first lm ngram = witten_bell_P lm ngram 1 := by
  have hw : [ngram.getD (lm.m_n - 1) 0] = last_words 1 ngram := by
    have := wb_temp_eq ngram lm.m_n 1 hlen hN
    simpa using this
  unfold witten_bell_first witten_bell_P
  simp only [hw, one_mul, Nat.cast_add, fdiv_fdiv_eq_fmul]
  rw [add_comm (lm.m_histOnePlusCounts.get_count temp_eps : ℚ)
    (lm.m_histCounts.get_count temp_eps : ℚ)]

theorem wb_body_succ (lm : LangModel) (ngram : List Int) (p : List (Option ℚ)) (i : Nat)
    (hlen : ngram.length = lm.m_n) (hi : i + 2 ≤ lm.m_n)
    (hprev : p.getD i none = witten_bell_P lm ngram (i + 1)) :
    witten_bell_body lm ngram p (i + 2) = p.set (i + 1) (witten_bell_P lm ngram (i + 2)) := by
  have ht := wb_temp_eq ngram lm.m_n (i + 2) hlen hi
  have hl := wb_last_temp_eq ngram lm.m_n (i + 2) hlen (by omega) hi
  unfold witten_bell_body
  have hne : ¬ (i + 2 = 1) := by omega
  simp only [hne, if_false, ht, hl, Nat.add_sub_cancel, hprev, one_mul, Nat.cast_add]
  have e : i + 2 - 1 = i + 1 := by omega
  rw [e]
  conv_rhs => unfold witten_bell_P
  simp only [Nat.cast_eq_zero]
  split_ifs <;> rfl

theorem getD_set_eq (p : List (Option ℚ)) (k j : Nat) (v : Option ℚ) (hk : k < p.length) :
    (p.set k v).getD j none = if j = k then v else p.getD j none := by
  simp only [List.getD_eq_getElem?_getD, List.getElem?_set]
  by_cases h : k = j
  · subst h; simp [hk]
  · have : ¬ j = k := fun h1 => h h1.symm
    simp [h, this]

theorem wb_loop (lm : LangModel) (ngram : List Int) (hlen : ngram.length = lm.m_n) (k : Nat)
    (hk : k ≤ lm.m_n) :
    ((List.range' 1 k).foldl (witten_bell_body lm ngram)
        (List.replicate lm.m_n (some 0))).length = lm.m_n ∧
    ∀ j, j < k →
      ((List.range' 1 k).foldl (witten_bell_body lm ngram)
        (List.replicate lm.m_n (some 0))).getD j none = witten_bell_P lm ngram (j + 1) := by
  induction k with
  | zero => simp
  | succ k ih =>
    obtain ⟨ihl, ihv⟩ := ih (by omega)
    rw [List.range'_concat, List.foldl_append]
    simp only [Nat.one_mul, List.foldl_cons, List.foldl_nil]
    generalize (List.range' 1 k).foldl (witten_bell_body lm ngram)
      (List.replicate lm.m_n (some 0)) = p at ihl ihv
    have hbody : witten_bell_body lm ngram p (1 + k)
        = p.set k (witten_bell_P lm ngram (k + 1)) := by
      cases k with
      | zero =>
        unfold witten_bell_body
        simp only [Nat.add_zero, if_true, Nat.sub_self]
        rw [wb_first_eq lm ngram (by omega) hlen]
      | succ i =>
        have e : 1 + (i + 1) = i + 2 := by omega
        rw [e]
        exact wb_body_succ lm ngram p i hlen (by omega) (ihv i (by omega))
    rw [hbody]
    refine ⟨by rw [List.length_set]; exact ihl, ?_⟩
    intro j hj
    rw [getD_set_eq p k j _ (by omega)]
    by_cases hjk : j = k
    · rw [if_pos hjk, hjk]
    · rw [if_neg hjk]
      exact ihv j (by omega)

/-- C7. For every model of order `N >= 1` and every n-gram of length `N`,
`get_prob_witten_bell` returns the level `P[N]` of the interpolation of the
spec (`witten_bell_P`). -/
theorem C7_witten_bell_is_interpolation (lm : LangModel) (ngram : List Int)
    (hN : 1 ≤ lm.m_n) (hlen : ngram.length = lm.m_n) :
    get_prob_witten_bell lm ngram = witten_bell_P lm ngram lm.m_n := by
  unfold get_prob_witten_bell
  have h := (wb_loop lm ngram hlen lm.m_n (le_refl _)).2 (lm.m_n - 1) (by omega)
  have e : lm.m_n - 1 + 1 = lm.m_n := by omega
  rw [e] at h
  exact h

/-- C7, at the end-to-end scenario in Witten-Bell mode and the bigram
`(the, cat)`: the routine returns `P[2]`, which is `5/8` there. -/
theorem C7_witten_bell_is_interpolation_witness :
    1 ≤ (scenario_model (-1)).m_n ∧
    ([3, 4] : List Int).length = (scenario_model (-1)).m_n ∧
    get_prob_witten_bell (scenario_model (-1)) [3, 4]
      = witten_bell_P (scenario_model (-1)) [3, 4] (scenario_model (-1)).m_n ∧
    witten_bell_P (scenario_model (-1)) [3, 4] (scenario_model (-1)).m_n = some (5 / 8) := by
  have hn : (scenario_model (-1)).m_n = 2 := rfl
  refine ⟨by rw [hn]; decide, by rw [hn]; rfl,
    C7_witten_bell_is_interpolation (scenario_model (-1)) [3, 4] (by rw [hn]; decide)
      (by rw [hn]; rfl), ?_⟩
  have hs : (scenario_model (-1)).m_symTable.size = 5 := scenario_size
  have c := scenario_counts (-1)
  have e1 : (scenario_model (-1)).m_histCounts.get_count temp_eps = 4 :=
    (c _).2.1.trans (by decide)
  have e2 : (scenario_model (-1)).m_histOnePlusCounts.get_count temp_eps = 4 :=
    (c _).2.2.trans (by decide)
  have e3 : (scenario_model (-1)).m_predCounts.get_count (last_words 1 [3, 4]) = 1 :=
    (c _).1.trans (by decide)
  have e4 : (scenario_model (-1)).m_histCounts.get_count
      (last_words (0 + 1) ([3, 4] : List Int).dropLast) = 1 := (c _).2.1.trans (by decide)
  have e5 : (scenario_model (-1)).m_histOnePlusCounts.get_count
      (last_words (0 + 1) ([3, 4] : List Int).dropLast) = 1 := (c _).2.2.trans (by decide)
  have e6 : (scenario_model (-1)).m_predCounts.get_count (last_words (0 + 2) [3, 4]) = 1 :=
    (c _).1.trans (by decide)
  rw [hn]
  simp only [witten_bell_P, e1, e2, e3, e4, e5, e6, hs, fdiv, fmul, fadd]
  norm_num

/-! ## The base case of Witten-Bell smoothing without counts (C11) -/

theorem get_prob_witten_bell_eq_P (lm : LangModel) (ngram : List Int)
    (hN : 1 ≤ lm.m_n) (hlen : ngram.length = lm.m_n) :
    get_prob_witten_bell lm ngram = witten_bell_P lm ngram lm.m_n := by
  unfold get_prob_witten_bell
  have h := (wb_loop lm ngram hlen lm.m_n (le_refl _)).2 (lm.m_n - 1) (by omega)
  have e : lm.m_n - 1 + 1 = lm.m_n := by omega
  rw [e] at h
  exact h

theorem witten_bell_P_none (lm : LangModel) (ngram : List Int)
    (hC : lm.m_histCounts.get_count temp_eps = 0) (i : Nat) :
    witten_bell_P lm ngram i = none := by
  induction i using Nat.strong_induction_on with
  | _ i ih =>
    match i with
    | 0 => rfl
    | 1 =>
      unfold witten_bell_P
      simp [hC, fdiv, fmul, fadd]
    | (k + 1) + 1 =>
      unfold witten_bell_P
      simp only []
      rw [ih (k + 1) (by omega)]
      split_ifs
      · rfl
      · cases h : fmul
          (fdiv (some (lm.m_histCounts.get_count (last_words (k + 1) ngram.dropLast) : ℚ))
            (some ((lm.m_histCounts.get_count (last_words (k + 1) ngram.dropLast) : ℚ)
              + (lm.m_histOnePlusCounts.get_count (last_words (k + 1) ngram.dropLast) : ℚ))))
          (fdiv (some (lm.m_predCounts.get_count (last_words (k + 2) ngram) : ℚ))
            (some (lm.m_histCounts.get_count (last_words (k + 1) ngram.dropLast) : ℚ)))
          <;> cases h2 : fdiv
            (some (lm.m_histOnePlusCounts.get_count (last_words (k + 1) ngram.dropLast) : ℚ))
            (some ((lm.m_histCounts.get_count (last_words (k + 1) ngram.dropLast) : ℚ)
              + (lm.m_histOnePlusCounts.get_count (last_words (k + 1) ngram.dropLast) : ℚ)))
          <;> simp [fadd, fmul]

/-- Without any counted word the routine yields a non-finite value, whatever the
n-gram of length `m_n`. -/
theorem witten_bell_not_finite (lm : LangModel) (ngram : List Int) (hN : 1 ≤ lm.m_n)
    (hlen : ngram.length = lm.m_n) (hC : lm.m_histCounts.get_count temp_eps = 0) :
    get_prob_witten_bell lm ngram = none := by
  rw [get_prob_witten_bell_eq_P lm ngram hN hlen]
  exact witten_bell_P_none lm ngram hC _

/-- C11: the code at the failing input.  With the vocabulary of the scenario and
an empty training file the constructor builds `untrained_model`: the history
and diversity counts of the key of the empty history are both 0, `V = 4`, and
on the bigram `(the, cat)` `get_prob_witten_bell` returns neither `1/V` nor any
other number: its base case divides 0 by 0 and the value is not finite.
`get_prob` hands this value on as its result, without an error. -/
theorem C11_untrained_witten_bell_divides_by_zero :
    LangModel.ctor (fun _ => scenario_vocab) (fun _ => []) (fun _ => 2) (fun _ => 0)
      scenario_params = Except.ok untrained_model ∧
    untrained_model.m_histCounts.get_count temp_eps = 0 ∧
    untrained_model.m_histOnePlusCounts.get_count temp_eps = 0 ∧
    untrained_model.m_symTable.size - 1 = 4 ∧
    witten_bell_first untrained_model [3, 4] = none ∧
    get_prob_witten_bell untrained_model [3, 4] = none ∧
    (get_prob untrained_model [3, 4]).1 = Except.ok none := by
  have hw : get_prob_witten_bell untrained_model [3, 4] = none :=
    witten_bell_not_finite untrained_model [3, 4] (by decide) (by decide) (by decide)
  refine ⟨rfl, by decide, by decide, by decide, ?_, hw, ?_⟩
  · rw [wb_first_eq untrained_model [3, 4] (by decide) (by decide)]
    exact witten_bell_P_none untrained_model [3, 4] (by decide) 1
  · unfold get_prob
    have hd : ¬ untrained_model.m_delta ≥ 0 := by
      have : untrained_model.m_delta = -1 := rfl
      rw [this]; norm_num
    have hv : ¬ (([3, 4] : List Int).length < 1 ∨ ([3, 4] : List Int).length > untrained_model.m_n) := by
      decide
    rw [if_neg hv]
    simp only [hd, if_false, hw]

/-! ## The denominator of plus-delta smoothing (C12) -/

theorem plus_delta_eq_fdiv (lm : LangModel) (ngram : List Int) :
    get_prob_plus_delta lm ngram
      = fdiv (some ((lm.m_predCounts.get_count ngram : ℚ) + lm.m_delta))
          (some (plus_delta_denominator lm ngram)) := by
  unfold get_prob_plus_delta plus_delta_denominator
  simp only []
  split_ifs <;> rfl

theorem get_index_ne_iff (t : SymbolTable) (s : String) (h : t.get_index s ≠ -1) :
    s ∈ t.m_strToIdxMap.keys := by
  unfold SymbolTable.get_index at h
  rw [← AList.mem_keys, ← AList.lookup_isSome]
  cases hl : t.m_strToIdxMap.lookup s with
  | none => rw [hl] at h; exact absurd rfl h
  | some v => rfl

theorem two_keys_size (t : SymbolTable) (a b : String) (hab : a ≠ b)
    (ha : t.get_index a ≠ -1) (hb : t.get_index b ≠ -1) : 2 ≤ t.size := by
  have h1 := get_index_ne_iff t a ha
  have h2 := get_index_ne_iff t b hb
  have hnd : ([a, b] : List String).Nodup := by simp [hab]
  have hsub : ([a, b] : List String) ⊆ t.m_strToIdxMap.keys := by
    intro x hx
    simp at hx
    rcases hx with rfl | rfl
    · exact h1
    · exact h2
  have hle := (List.subperm_of_subset hnd hsub).length_le
  unfold SymbolTable.size
  have hk : t.m_strToIdxMap.keys.length = t.m_strToIdxMap.entries.length := by
    unfold AList.keys List.keys
    simp
  rw [← hk]
  simp at hle
  exact_mod_cast hle

theorem ctor_ok_inv (readVocab : String → SymbolTable) (readTrain : String → List (List String))
    (parseInt : String → Int) (parseFloat : String → ℚ)
    (params : AList (fun _ : String => String)) (lm : LangModel)
    (h : LangModel.ctor readVocab readTrain parseInt parseFloat params = Except.ok lm) :
    ∃ vocabFile, params.lookup "vocab" = some vocabFile ∧
      lm.m_symTable = readVocab vocabFile ∧
      (readVocab vocabFile).get_index (get_string_param params "bos" "<s>") ≠ -1 ∧
      (readVocab vocabFile).get_index (get_string_param params "eos" "</s>") ≠ -1 ∧
      (readVocab vocabFile).get_index (get_string_param params "unk" "<UNK>") ≠ -1 := by
  unfold LangModel.ctor get_required_string_param at h
  cases hv : params.lookup "vocab" with
  | none => rw [hv] at h; cases h
  | some f =>
    rw [hv] at h
    simp only [] at h
    refine ⟨f, rfl, ?_⟩
    split_ifs at h with hidx
    cases ht : params.lookup "train" with
    | none => rw [ht] at h; cases h
    | some tf =>
      rw [ht] at h
      simp only [] at h
      injection h with h
      have hs : lm.m_symTable = readVocab f := by
        rw [← h, (count_sentences_fields _ _).2.2]; rfl
      refine ⟨hs, ?_, ?_, ?_⟩
      · intro hc; exact hidx (Or.inl hc)
      · intro hc; exact hidx (Or.inr (Or.inl hc))
      · intro hc; exact hidx (Or.inr (Or.inr hc))

/-- C12, as stated, fails when the three special tokens are one and the same:
the constructor accepts the vocabulary with the single token `a` named as
beginning-of-sentence, end-of-sentence and unknown token; then `V = 0`, and for
`delta = 1` and the n-gram `(7, 0)`, whose history was never seen, the
denominator is 0 and the quotient is not finite. -/
theorem C12_as_stated_fails :
    LangModel.ctor (fun _ => one_token_vocab) (fun _ => [["a"]]) (fun _ => 2) (fun _ => 1)
      one_token_params = Except.ok one_token_model ∧
    0 < one_token_model.m_delta ∧
    one_token_model.m_symTable.size - 1 = 0 ∧
    plus_delta_denominator one_token_model [7, 0] = 0 ∧
    get_prob_plus_delta one_token_model [7, 0] = none := by
  have hd : one_token_model.m_delta = 1 := rfl
  have hn : one_token_model.m_n = 2 := rfl
  have hs : one_token_model.m_symTable.size = 1 := by decide
  have hden : plus_delta_denominator one_token_model [7, 0] = 0 := by
    unfold plus_delta_denominator
    have ht : (List.range (2 - 1)).map (fun i => ([7, 0] : List Int).getD i 0) = [7] := by
      decide
    have hh : one_token_model.m_histCounts.get_count [7] = 0 := by decide
    rw [hn]
    simp only [gt_iff_lt, Nat.one_lt_ofNat, if_true, ht, hh, hd, hs]
    norm_num
  refine ⟨rfl, by rw [hd]; norm_num, by rw [hs]; rfl, hden, ?_⟩
  rw [plus_delta_eq_fdiv, hden]
  simp [fdiv]

/-- C12, amended. For every `delta > 0`, every model whose symbol table has at
least two symbols (`V >= 1`), whatever its counts, and every n-gram, the
denominator used by `get_prob_plus_delta` is strictly positive and the routine
returns the finite quotient; and a symbol table accepted by the constructor has
at least two symbols as soon as the beginning-of-sentence, end-of-sentence and
unknown tokens are not all the same string. -/
theorem C12_plus_delta_denominator_positive (lm : LangModel) (ngram : List Int) :
    (0 < lm.m_delta → 1 ≤ lm.m_symTable.size - 1 →
      0 < plus_delta_denominator lm ngram ∧
      get_prob_plus_delta lm ngram
        = some (((lm.m_predCounts.get_count ngram : ℚ) + lm.m_delta)
            / plus_delta_denominator lm ngram)) ∧
    (∀ (readVocab : String → SymbolTable) (readTrain : String → List (List String))
        (parseInt : String → Int) (parseFloat : String → ℚ)
        (params : AList (fun _ : String => String)),
      LangModel.ctor readVocab readTrain parseInt parseFloat params = Except.ok lm →
      ¬ (get_string_param params "bos" "<s>" = get_string_param params "eos" "</s>" ∧
          get_string_param params "eos" "</s>" = get_string_param params "unk" "<UNK>") →
      1 ≤ lm.m_symTable.size - 1) := by
  constructor
  · intro hd hV
    have hpos : 0 < plus_delta_denominator lm ngram := by
      have hVq : (1 : ℚ) ≤ ((lm.m_symTable.size - 1 : Int) : ℚ) := by exact_mod_cast hV
      have hm : 0 < lm.m_delta * ((lm.m_symTable.size - 1 : Int) : ℚ) :=
        mul_pos hd (lt_of_lt_of_le one_pos hVq)
      unfold plus_delta_denominator
      simp only [mul_one]
      split_ifs
      · have : (0 : ℚ) ≤ (lm.m_histCounts.get_count
            ((List.range (lm.m_n - 1)).map fun i => ngram.getD i 0) : ℚ) := Nat.cast_nonneg _
        linarith
      · have : (0 : ℚ) ≤ (lm.m_histCounts.get_count temp_eps : ℚ) := Nat.cast_nonneg _
        linarith
    refine ⟨hpos, ?_⟩
    rw [plus_delta_eq_fdiv]
    simp only [fdiv]
    rw [if_neg (ne_of_gt hpos)]
  · intro readVocab readTrain parseInt parseFloat params hctor hne
    obtain ⟨f, _, hs, hb, he, hu⟩ :=
      ctor_ok_inv readVocab readTrain parseInt parseFloat params lm hctor
    rw [hs]
    have h2 : 2 ≤ (readVocab f).size := by
      by_cases h1 : get_string_param params "bos" "<s>" = get_string_param params "eos" "</s>"
      · have h3 : get_string_param params "eos" "</s>" ≠ get_string_param params "unk" "<UNK>" :=
          fun h => hne ⟨h1, h⟩
        exact two_keys_size _ _ _ h3 he hu
      · exact two_keys_size _ _ _ h1 hb he
    omega

/-- C12 (amended), at the end-to-end scenario with `delta = 1`, the bigram
`(7, 0)` with unseen history, and the constructor run of the scenario. -/
theorem C12_plus_delta_denominator_positive_witness :
    (0 < plus_delta_denominator (scenario_model 1) [7, 0] ∧
      get_prob_plus_delta (scenario_model 1) [7, 0]
        = some ((((scenario_model 1).m_predCounts.get_count [7, 0] : ℚ)
            + (scenario_model 1).m_delta)
          / plus_delta_denominator (scenario_model 1) [7, 0])) ∧
    1 ≤ (scenario_model (-1)).m_symTable.size - 1 :=
  ⟨(C12_plus_delta_denominator_positive (scenario_model 1) [7, 0]).1
      (by have : (scenario_model 1).m_delta = 1 := rfl
          rw [this]; norm_num)
      (by decide),
    (C12_plus_delta_denominator_positive (scenario_model (-1)) [3, 4]).2
      (fun _ => scenario_vocab) (fun _ => [["the", "cat"]]) (fun _ => 2) (fun _ => 0)
      scenario_params rfl (by decide)⟩

/-! ## Probabilities between 0 and 1 (C13, C14) -/

theorem hist_key_eq_history_key (g : List Int) (hg : g ≠ []) :
    hist_key g = history_key g.dropLast := by
  unfold hist_key history_key
  by_cases h1 : g.length > 1
  · have hd : g.dropLast ≠ [] := by
      intro h
      have := congrArg List.length h
      simp at this; omega
    rw [if_pos h1, if_neg hd]
  · have hl : g.length = 1 := by
      have := List.length_pos.mpr hg
      omega
    obtain ⟨a, rfl⟩ := List.length_eq_one.mp hl
    simp

theorem pred_le_hist (lm : LangModel) (E : List (List Int)) (hc : counts_of lm E)
    (g : List Int) :
    lm.m_predCounts.get_count g ≤ lm.m_histCounts.get_count (hist_key g) := by
  rw [(hc g).1, (hc (hist_key g)).2.1, List.count_eq_countP]
  apply List.countP_mono_left
  intro x _ hx
  simp only [beq_iff_eq] at hx
  simp [hx]

theorem quotient_le_one (a H d V : ℚ) (ha : 0 ≤ a) (haH : a ≤ H) (hd : 0 < d) (hV : 1 ≤ V) :
    0 ≤ (a + d) / (H + d * V) ∧ (a + d) / (H + d * V) ≤ 1 := by
  have hden : 0 < H + d * V := by nlinarith
  constructor
  · exact div_nonneg (by linarith) (le_of_lt hden)
  · rw [div_le_one hden]
    nlinarith

/-- C13, at an n-gram shorter than the order.  In the end-to-end scenario with
`delta = 1/10` (`N = 2`, `V = 4`) `get_prob` accepts the unigram `(</s>)` and
returns `(1 + 1/10) / (0 + 4/10) = 11/4`, which is greater than 1: the branch
`m_n > 1` of `get_prob_plus_delta` divides by the history count of `(</s>)`
itself, which is 0, where the count of the key of the empty history is 4. -/
theorem C13_short_ngram_above_one :
    (1 ≤ ([1] : List Int).length ∧ ([1] : List Int).length ≤ (scenario_model (1 / 10)).m_n) ∧
    0 < (scenario_model (1 / 10)).m_symTable.size - 1 ∧
    0 < (scenario_model (1 / 10)).m_delta ∧
    (get_prob (scenario_model (1 / 10)) [1]).1 = Except.ok (some (11 / 4)) ∧
    ¬ ((11 / 4 : ℚ) ≤ 1) ∧
    (scenario_model (1 / 10)).m_histCounts.get_count [1] = 0 ∧
    (scenario_model (1 / 10)).m_histCounts.get_count temp_eps = 4 := by
  have hn : (scenario_model (1 / 10)).m_n = 2 := rfl
  have hd : (scenario_model (1 / 10)).m_delta = 1 / 10 := rfl
  have hs : (scenario_model (1 / 10)).m_symTable.size = 5 := scenario_size
  have hp : (scenario_model (1 / 10)).m_predCounts.get_count [1] = 1 := by decide
  have hh : (scenario_model (1 / 10)).m_histCounts.get_count [1] = 0 := by decide
  refine ⟨by rw [hn]; decide, by rw [hs]; decide, by rw [hd]; norm_num, ?_, by norm_num, hh,
    by decide⟩
  have hv : ¬ (([1] : List Int).length < 1
      ∨ ([1] : List Int).length > (scenario_model (1 / 10)).m_n) := by rw [hn]; decide
  have hpd : get_prob_plus_delta (scenario_model (1 / 10)) [1] = some (11 / 4) := by
    unfold get_prob_plus_delta
    have ht : (List.range (2 - 1)).map (fun i => ([1] : List Int).getD i 0) = [1] := by decide
    rw [hn, if_pos (by decide), ht, hp]
    simp only [hh, hd, hs, fdiv]
    norm_num
  unfold get_prob
  rw [if_neg hv]
  have hge : (scenario_model (1 / 10)).m_delta ≥ 0 := by rw [hd]; norm_num
  simp only [hge, if_true, hpd]

/-- On the n-grams for which `get_prob_plus_delta` is written, those of length
`N`, the value that `get_prob` returns in plus-delta mode lies in `[0, 1]`
(trained tables, `V > 0`, `delta > 0`). -/
theorem plus_delta_in_unit_interval_of_full_length (params : AList (fun _ : String => String))
    (symTable : SymbolTable) (bosIdx eosIdx unkIdx : Int) (N : Nat) (delta : ℚ)
    (sentences : List (List Int)) (ngram : List Int)
    (hV : 0 < symTable.size - 1) (hd : 0 < delta) (hN : 1 ≤ N) (hlen : ngram.length = N) :
    ∃ p : ℚ,
      (get_prob (count_sentences (LangModel.fresh params symTable bosIdx eosIdx unkIdx N delta)
        sentences) ngram).1 = Except.ok (some p) ∧ 0 ≤ p ∧ p ≤ 1 := by
  have hc := counts_of_trained params symTable bosIdx eosIdx unkIdx N delta sentences
  obtain ⟨hn, hdl, hst⟩ :=
    count_sentences_fields (LangModel.fresh params symTable bosIdx eosIdx unkIdx N delta)
      sentences
  generalize count_sentences (LangModel.fresh params symTable bosIdx eosIdx unkIdx N delta)
    sentences = lm at hc hn hdl hst
  have hn1 : lm.m_n = N := hn
  have hd1 : lm.m_delta = delta := hdl
  have hs1 : lm.m_symTable = symTable := hst
  have hg : ngram ≠ [] := by
    intro h; rw [h] at hlen; simp at hlen; omega
  have hVq : (1 : ℚ) ≤ ((lm.m_symTable.size - 1 : Int) : ℚ) := by
    rw [hs1]
    have : 1 ≤ symTable.size - 1 := by omega
    exact_mod_cast this
  have hle : (lm.m_predCounts.get_count ngram : ℚ)
      ≤ (lm.m_histCounts.get_count (history_key ngram.dropLast) : ℚ) := by
    rw [← hist_key_eq_history_key ngram hg]
    exact_mod_cast pred_le_hist lm _ hc ngram
  have hb := quotient_le_one (lm.m_predCounts.get_count ngram : ℚ)
    (lm.m_histCounts.get_count (history_key ngram.dropLast) : ℚ) lm.m_delta
    ((lm.m_symTable.size - 1 : Int) : ℚ) (Nat.cast_nonneg _) hle (by rw [hd1]; exact hd) hVq
  have hden : (lm.m_histCounts.get_count (history_key ngram.dropLast) : ℚ)
      + lm.m_delta * ((lm.m_symTable.size - 1 : Int) : ℚ) ≠ 0 := by
    have : 0 < lm.m_delta * ((lm.m_symTable.size - 1 : Int) : ℚ) :=
      mul_pos (by rw [hd1]; exact hd) (lt_of_lt_of_le one_pos hVq)
    have h0 : (0 : ℚ) ≤ (lm.m_histCounts.get_count (history_key ngram.dropLast) : ℚ) :=
      Nat.cast_nonneg _
    linarith
  refine ⟨_, ?_, hb.1, hb.2⟩
  have hv : ¬ (ngram.length < 1 ∨ ngram.length > lm.m_n) := by omega
  unfold get_prob
  rw [if_neg hv]
  have hge : lm.m_delta ≥ 0 := by rw [hd1]; exact le_of_lt hd
  simp only [hge, if_true]
  rw [plus_delta_value lm ngram (by omega) (by omega) hden]

theorem interpolation_bounds (C D a q : ℚ) (hC : 0 < C) (hD : 0 ≤ D) (ha : 0 ≤ a)
    (haC : a ≤ C) (hq0 : 0 ≤ q) (hq1 : q ≤ 1) :
    0 ≤ C / (C + D) * (a / C) + D / (C + D) * q
      ∧ C / (C + D) * (a / C) + D / (C + D) * q ≤ 1 := by
  have hCD : 0 < C + D := by linarith
  have h1 : 0 ≤ C / (C + D) := div_nonneg (le_of_lt hC) (le_of_lt hCD)
  have h2 : 0 ≤ D / (C + D) := div_nonneg hD (le_of_lt hCD)
  have h3 : 0 ≤ a / C := div_nonneg ha (le_of_lt hC)
  have h4 : a / C ≤ 1 := by rw [div_le_one hC]; exact haC
  have hsum : C / (C + D) + D / (C + D) = 1 := by
    rw [← add_div]; exact div_self (ne_of_gt hCD)
  constructor
  · exact add_nonneg (mul_nonneg h1 h3) (mul_nonneg h2 hq0)
  · calc C / (C + D) * (a / C) + D / (C + D) * q
        ≤ C / (C + D) * 1 + D / (C + D) * 1 :=
          add_le_add (mul_le_mul_of_nonneg_left h4 h1) (mul_le_mul_of_nonneg_left hq1 h2)
      _ = 1 := by rw [mul_one, mul_one, hsum]

theorem last_words_length (i : Nat) (ngram : List Int) (hi : i ≤ ngram.length) :
    (last_words i ngram).length = i := by
  unfold last_words; simp; omega

theorem hist_key_last_words (i : Nat) (ngram : List Int) (hi : i + 2 ≤ ngram.length) :
    hist_key (last_words (i + 2) ngram) = last_words (i + 1) ngram.dropLast := by
  have hl := last_words_length (i + 2) ngram hi
  unfold hist_key
  rw [if_pos (by omega)]
  have h1 := wb_last_temp_eq ngram ngram.length (i + 2) rfl (by omega) hi
  have h2 : (List.range (i + 2 - 1)).map (fun j => (last_words (i + 2) ngram).getD j 0)
      = (last_words (i + 2) ngram).dropLast := by
    rw [map_getD_range_eq_take _ _ (by omega), List.dropLast_eq_take, hl]
  rw [← h2, h1]
  rfl

theorem hist_key_last_word (ngram : List Int) (h1 : 1 ≤ ngram.length) :
    hist_key (last_words 1 ngram) = temp_eps := by
  have hl := last_words_length 1 ngram h1
  unfold hist_key
  rw [if_neg (by omega)]

/-- The bounds of every level of the interpolation, for a model in which a
predictive count never exceeds the count of its history. -/
theorem witten_bell_P_bounds (lm : LangModel) (ngram : List Int)
    (hp : ∀ g : List Int, lm.m_predCounts.get_count g ≤ lm.m_histCounts.get_count (hist_key g))
    (hC : 1 ≤ lm.m_histCounts.get_count temp_eps) (hV : 0 < lm.m_symTable.size - 1)
    (i : Nat) (hi : i + 1 ≤ ngram.length) :
    ∃ p : ℚ, witten_bell_P lm ngram (i + 1) = some p ∧ 0 ≤ p ∧ p ≤ 1 := by
  induction i with
  | zero =>
    have hCq : (0 : ℚ) < (lm.m_histCounts.get_count temp_eps : ℚ) := by exact_mod_cast hC
    have hDq : (0 : ℚ) ≤ (lm.m_histOnePlusCounts.get_count temp_eps : ℚ) := Nat.cast_nonneg _
    have hVq : (1 : ℚ) ≤ ((lm.m_symTable.size - 1 : Int) : ℚ) := by
      have : 1 ≤ lm.m_symTable.size - 1 := by omega
      exact_mod_cast this
    have hVpos : (0 : ℚ) < ((lm.m_symTable.size - 1 : Int) : ℚ) := by linarith
    have ha : (lm.m_predCounts.get_count (last_words 1 ngram) : ℚ)
        ≤ (lm.m_histCounts.get_count temp_eps : ℚ) := by
      have := hp (last_words 1 ngram)
      rw [hist_key_last_word ngram (by omega)] at this
      exact_mod_cast this
    have hq1 : 1 / ((lm.m_symTable.size - 1 : Int) : ℚ) ≤ 1 := by
      rw [div_le_one hVpos]; exact hVq
    have hb := interpolation_bounds _ _ _ _ hCq hDq (Nat.cast_nonneg _) ha
      (div_nonneg zero_le_one (le_of_lt hVpos)) hq1
    refine ⟨_, ?_, hb.1, hb.2⟩
    have e1 : ¬ ((lm.m_histCounts.get_count temp_eps : ℚ)
        + (lm.m_histOnePlusCounts.get_count temp_eps : ℚ) = 0) := by
      intro h; linarith
    have e2 : ¬ ((lm.m_histCounts.get_count temp_eps : ℚ) = 0) := ne_of_gt hCq
    have e3 : ¬ (((lm.m_symTable.size - 1 : Int) : ℚ) = 0) := ne_of_gt hVpos
    show witten_bell_P lm ngram 1 = _
    unfold witten_bell_P
    simp only [fdiv, fmul, fadd, e1, e2, e3, if_false]
  | succ k ih =>
    obtain ⟨q, hq, hq0, hq1⟩ := ih (by omega)
    show ∃ p : ℚ, witten_bell_P lm ngram ((k + 1) + 1) = some p ∧ 0 ≤ p ∧ p ≤ 1
    unfold witten_bell_P
    simp only []
    by_cases hz : (lm.m_histCounts.get_count (last_words (k + 1) ngram.dropLast) : ℚ) = 0
    · rw [if_pos hz]
      exact ⟨q, hq, hq0, hq1⟩
    · rw [if_neg hz, hq]
      have hCq : (0 : ℚ)
          < (lm.m_histCounts.get_count (last_words (k + 1) ngram.dropLast) : ℚ) :=
        lt_of_le_of_ne (Nat.cast_nonneg _) (Ne.symm hz)
      have hDq : (0 : ℚ)
          ≤ (lm.m_histOnePlusCounts.get_count (last_words (k + 1) ngram.dropLast) : ℚ) :=
        Nat.cast_nonneg _
      have ha : (lm.m_predCounts.get_count (last_words (k + 2) ngram) : ℚ)
          ≤ (lm.m_histCounts.get_count (last_words (k + 1) ngram.dropLast) : ℚ) := by
        have := hp (last_words (k + 2) ngram)
        rw [hist_key_last_words k ngram (by omega)] at this
        exact_mod_cast this
      have hb := interpolation_bounds _ _ _ q hCq hDq (Nat.cast_nonneg _) ha hq0 hq1
      refine ⟨_, ?_, hb.1, hb.2⟩
      have e1 : ¬ ((lm.m_histCounts.get_count (last_words (k + 1) ngram.dropLast) : ℚ)
          + (lm.m_histOnePlusCounts.get_count (last_words (k + 1) ngram.dropLast) : ℚ) = 0) := by
        intro h; linarith
      simp only [fdiv, fmul, fadd, e1, hz, if_false]

/-- C14. For every model whose tables were produced by `count_sentence_ngrams`
on a list of padded sentences in which at least one position was counted (the
count of the key of the empty history is at least 1), with `V > 0`, for every
n-gram of length `N >= 1`, `get_prob_witten_bell` returns a number that lies in
the interval `[0, 1]`. -/
theorem C14_witten_bell_in_unit_interval (params : AList (fun _ : String => String))
    (symTable : SymbolTable) (bosIdx eosIdx unkIdx : Int) (N : Nat) (delta : ℚ)
    (sentences : List (List Int)) (ngram : List Int)
    (hcounted : 1 ≤ (count_sentences
      (LangModel.fresh params symTable bosIdx eosIdx unkIdx N delta)
      sentences).m_histCounts.get_count temp_eps)
    (hV : 0 < symTable.size - 1) (hN : 1 ≤ N) (hlen : ngram.length = N) :
    ∃ p : ℚ,
      get_prob_witten_bell (count_sentences
        (LangModel.fresh params symTable bosIdx eosIdx unkIdx N delta) sentences) ngram
        = some p ∧ 0 ≤ p ∧ p ≤ 1 := by
  have hc := counts_of_trained params symTable bosIdx eosIdx unkIdx N delta sentences
  obtain ⟨hn, _, hst⟩ :=
    count_sentences_fields (LangModel.fresh params symTable bosIdx eosIdx unkIdx N delta)
      sentences
  generalize count_sentences (LangModel.fresh params symTable bosIdx eosIdx unkIdx N delta)
    sentences = lm at hc hn hst hcounted
  have hn1 : lm.m_n = N := hn
  have hs1 : lm.m_symTable = symTable := hst
  rw [get_prob_witten_bell_eq_P lm ngram (by omega) (by omega), hn1]
  have hb := witten_bell_P_bounds lm ngram (fun g => pred_le_hist lm _ hc g) hcounted
    (by rw [hs1]; exact hV) (N - 1) (by omega)
  have e : N - 1 + 1 = N := by omega
  rw [e] at hb
  exact hb

/-- C14, at the end-to-end scenario and the bigram `(the, cat)`. -/
theorem C14_witten_bell_in_unit_interval_witness :
    ∃ p : ℚ, get_prob_witten_bell (scenario_model (-1)) [3, 4] = some p ∧ 0 ≤ p ∧ p ≤ 1 :=
  C14_witten_bell_in_unit_interval scenario_params scenario_vocab 0 1 2 2 (-1)
    [[0, 3, 4, 1]] [3, 4] (by decide) (by decide) (by decide) (by decide)

/-! ## The vocabulary check of the constructor (C15) -/

/-- C15. Constructing a `LangModel` fails with the error "Vocabulary missing
BOS/EOS/UNK token." if and only if the symbol table could be loaded (the
parameter `vocab` is present) and its look-up of the beginning-of-sentence, of
the end-of-sentence or of the unknown token string returns `-1`; the failure
does not depend on the training file, which is not read before the check: no
n-gram has been counted. -/
theorem C15_ctor_missing_token (readVocab : String → SymbolTable)
    (readTrain : String → List (List String)) (parseInt : String → Int)
    (parseFloat : String → ℚ) (params : AList (fun _ : String => String)) :
    (LangModel.ctor readVocab readTrain parseInt parseFloat params
        = Except.error (LMException.runtime_error "Vocabulary missing BOS/EOS/UNK token.")
      ↔ ∃ vocabFile, params.lookup "vocab" = some vocabFile ∧
          ((readVocab vocabFile).get_index (get_string_param params "bos" "<s>") = -1 ∨
           (readVocab vocabFile).get_index (get_string_param params "eos" "</s>") = -1 ∨
           (readVocab vocabFile).get_index (get_string_param params "unk" "<UNK>") = -1)) ∧
    (LangModel.ctor readVocab readTrain parseInt parseFloat params
        = Except.error (LMException.runtime_error "Vocabulary missing BOS/EOS/UNK token.")
      → ∀ readTrain1 : String → List (List String),
          LangModel.ctor readVocab readTrain1 parseInt parseFloat params
            = Except.error
              (LMException.runtime_error "Vocabulary missing BOS/EOS/UNK token.")) := by
  have key : ∀ rt : String → List (List String),
      (LangModel.ctor readVocab rt parseInt parseFloat params
        = Except.error (LMException.runtime_error "Vocabulary missing BOS/EOS/UNK token.")
      ↔ ∃ vocabFile, params.lookup "vocab" = some vocabFile ∧
          ((readVocab vocabFile).get_index (get_string_param params "bos" "<s>") = -1 ∨
           (readVocab vocabFile).get_index (get_string_param params "eos" "</s>") = -1 ∨
           (readVocab vocabFile).get_index (get_string_param params "unk" "<UNK>") = -1)) := by
    intro rt
    unfold LangModel.ctor get_required_string_param
    cases hv : params.lookup "vocab" with
    | none =>
      simp only []
      constructor
      · intro h; injection h with h; cases h
      · rintro ⟨f, hf, _⟩; cases hf
    | some f =>
      simp only []
      by_cases hidx : (LangModel.fresh params (readVocab f)
            ((readVocab f).get_index (get_string_param params "bos" "<s>"))
            ((readVocab f).get_index (get_string_param params "eos" "</s>"))
            ((readVocab f).get_index (get_string_param params "unk" "<UNK>"))
            (get_int_param parseInt params "n" 3).toNat
            (get_float_param parseFloat params "delta" (-1))).m_bosIdx = -1 ∨
          (LangModel.fresh params (readVocab f)
            ((readVocab f).get_index (get_string_param params "bos" "<s>"))
            ((readVocab f).get_index (get_string_param params "eos" "</s>"))
            ((readVocab f).get_index (get_string_param params "unk" "<UNK>"))
            (get_int_param parseInt params "n" 3).toNat
            (get_float_param parseFloat params "delta" (-1))).m_eosIdx = -1 ∨
          (LangModel.fresh params (readVocab f)
            ((readVocab f).get_index (get_string_param params "bos" "<s>"))
            ((readVocab f).get_index (get_string_param params "eos" "</s>"))
            ((readVocab f).get_index (get_string_param params "unk" "<UNK>"))
            (get_int_param parseInt params "n" 3).toNat
            (get_float_param parseFloat params "delta" (-1))).m_unkIdx = -1
      · rw [if_pos hidx]
        simp only [true_iff]
        exact ⟨f, rfl, hidx⟩
      · rw [if_neg hidx]
        constructor
        · intro h
          cases ht : params.lookup "train" with
          | none => rw [ht] at h; simp only [] at h; injection h with h; cases h
          | some tf => rw [ht] at h; cases h
        · rintro ⟨f1, hf1, h⟩
          injection hf1 with hf1
          subst hf1
          exact absurd h hidx
  refine ⟨key readTrain, ?_⟩
  intro h rt
  exact (key rt).mpr ((key readTrain).mp h)

/-- C15, with the vocabulary of the scenario without its token `<UNK>`: the
look-up of `<UNK>` returns `-1` and the constructor fails, whatever the
training file holds. -/
theorem C15_ctor_missing_token_witness :
    vocab_without_unk.get_index (get_string_param scenario_params "unk" "<UNK>") = -1 ∧
    ∀ readTrain1 : String → List (List String),
      LangModel.ctor (fun _ => vocab_without_unk) readTrain1 (fun _ => 2) (fun _ => 0)
        scenario_params
        = Except.error (LMException.runtime_error "Vocabulary missing BOS/EOS/UNK token.") :=
  ⟨by decide,
    (C15_ctor_missing_token (fun _ => vocab_without_unk) (fun _ => [["the", "cat"]])
      (fun _ => 2) (fun _ => 0) scenario_params).2 rfl⟩

/-! ## The unigram model (C16) -/

theorem sentence_ngrams_one (s : List Int) :
    sentence_ngrams 1 s = s.map fun w => [w] := by
  unfold sentence_ngrams
  have hr : List.range' 1 1 = [1] := rfl
  rw [hr]
  simp only [List.flatMap_cons, List.flatMap_nil, List.append_nil, Nat.sub_self, Nat.sub_zero]
  have hc : count_temp s 1 = fun i => [s.getD i 0] := by
    funext i
    unfold count_temp
    simp [List.range_succ]
  rw [hc, ← List.range_eq_range']
  have h := map_getD_range_eq_take s s.length (le_refl _)
  rw [List.take_length] at h
  conv_rhs => rw [← h]
  rw [List.map_map]
  rfl

theorem corpus_ngrams_one (sentences : List (List Int)) :
    corpus_ngrams 1 sentences = sentences.flatten.map fun w => [w] := by
  unfold corpus_ngrams
  induction sentences with
  | nil => rfl
  | cons s ss ih =>
    rw [List.flatMap_cons, ih, sentence_ngrams_one, List.flatten_cons, List.map_append]

/-- C16. In the unigram case `N = 1`, after counting any list of sentences from
empty tables: every key other than `temp_eps = [0]` has history count 0 and
diversity count 0; the history count of `[0]` is the total number of words of
the sentences and its diversity count is the number of distinct words in them. -/
theorem C16_unigram_counts (params : AList (fun _ : String => String))
    (symTable : SymbolTable) (bosIdx eosIdx unkIdx : Int) (delta : ℚ)
    (sentences : List (List Int)) :
    (∀ K : List Int, K ≠ temp_eps →
      (count_sentences (LangModel.fresh params symTable bosIdx eosIdx unkIdx 1 delta)
        sentences).m_histCounts.get_count K = 0 ∧
      (count_sentences (LangModel.fresh params symTable bosIdx eosIdx unkIdx 1 delta)
        sentences).m_histOnePlusCounts.get_count K = 0) ∧
    (count_sentences (LangModel.fresh params symTable bosIdx eosIdx unkIdx 1 delta)
        sentences).m_histCounts.get_count temp_eps = (sentences.map List.length).sum ∧
    (count_sentences (LangModel.fresh params symTable bosIdx eosIdx unkIdx 1 delta)
        sentences).m_histOnePlusCounts.get_count temp_eps = sentences.flatten.toFinset.card := by
  have hc := counts_of_trained params symTable bosIdx eosIdx unkIdx 1 delta sentences
  rw [corpus_ngrams_one] at hc
  generalize count_sentences (LangModel.fresh params symTable bosIdx eosIdx unkIdx 1 delta)
    sentences = lm at hc
  have hkey : ∀ g ∈ sentences.flatten.map (fun w => [w]), hist_key g = temp_eps := by
    intro g hg
    simp only [List.mem_map] at hg
    obtain ⟨w, _, rfl⟩ := hg
    rfl
  refine ⟨?_, ?_, ?_⟩
  · intro K hK
    obtain ⟨_, hh, ho⟩ := hc K
    constructor
    · rw [hh, List.countP_eq_zero]
      intro g hg
      rw [decide_eq_true_eq, hkey g hg]
      exact fun h => hK h.symm
    · rw [ho, Finset.card_eq_zero, Finset.filter_eq_empty_iff]
      intro g hg
      rw [hkey g (List.mem_toFinset.mp hg)]
      exact fun h => hK h.symm
  · rw [(hc temp_eps).2.1]
    have : List.countP (fun g => decide (hist_key g = temp_eps))
        (sentences.flatten.map fun w => [w])
        = (sentences.flatten.map fun w => [w]).length := by
      rw [List.countP_eq_length]
      intro g hg
      rw [decide_eq_true_eq]
      exact hkey g hg
    rw [this, List.length_map, List.length_flatten]
  · rw [(hc temp_eps).2.2]
    have hf : (sentences.flatten.map fun w => [w]).toFinset.filter
        (fun g => hist_key g = temp_eps) = (sentences.flatten.map fun w => [w]).toFinset := by
      rw [Finset.filter_eq_self]
      intro g hg
      exact hkey g (List.mem_toFinset.mp hg)
    rw [hf]
    have him : (sentences.flatten.map fun w => [w]).toFinset
        = sentences.flatten.toFinset.image (fun w => [w]) := by
      ext g
      simp only [List.mem_toFinset, List.mem_map, Finset.mem_image]
    rw [him]
    exact Finset.card_image_of_injective _ (fun a b h => by simpa using h)

/-- C16, for the two sentences `[3,4,1]` and `[3,1]`: five words, three of them
distinct, and nothing under the key `[3]`. -/
theorem C16_unigram_counts_witness :
    ((count_sentences (LangModel.fresh scenario_params scenario_vocab 0 1 2 1 (-1))
        [[3, 4, 1], [3, 1]]).m_histCounts.get_count [3] = 0 ∧
      (count_sentences (LangModel.fresh scenario_params scenario_vocab 0 1 2 1 (-1))
        [[3, 4, 1], [3, 1]]).m_histOnePlusCounts.get_count [3] = 0) ∧
    (count_sentences (LangModel.fresh scenario_params scenario_vocab 0 1 2 1 (-1))
        [[3, 4, 1], [3, 1]]).m_histCounts.get_count temp_eps = 5 ∧
    (count_sentences (LangModel.fresh scenario_params scenario_vocab 0 1 2 1 (-1))
        [[3, 4, 1], [3, 1]]).m_histOnePlusCounts.get_count temp_eps = 3 :=
  ⟨(C16_unigram_counts scenario_params scenario_vocab 0 1 2 (-1) [[3, 4, 1], [3, 1]]).1 [3]
      (by decide),
    (C16_unigram_counts scenario_params scenario_vocab 0 1 2 (-1) [[3, 4, 1], [3, 1]]).2.1.trans
      (by decide),
    (C16_unigram_counts scenario_params scenario_vocab 0 1 2 (-1) [[3, 4, 1], [3, 1]]).2.2.trans
      (by decide)⟩

/-! ## The setters of `GmmSet` and the cached normalizers (C17) -/

theorem getD_set_ne (l : List (Option ℚ)) (i j : Nat) (v : Option ℚ) (h : j ≠ i) :
    (l.set i v).getD j none = l.getD j none := by
  simp only [List.getD_eq_getElem?_getD]
  rw [List.getElem?_set_ne (fun h1 => h h1.symm)]

/-- Whenever one of the three setters returns, `get_gaussian_norm` gives for
every index what it gave before the call; and `set_gaussian_weight` stores the
weight of the addressed Gaussian and changes no other weight, no mean, no
variance and no entry of the map of mixtures. -/
theorem setters_keep_norms (g g1 : GmmSet) (gaussIdx dimIdx : Int) (val : Option ℚ) :
    (g.set_gaussian_weight gaussIdx val = some g1 →
      (∀ k : Int, g1.get_gaussian_norm k = g.get_gaussian_norm k) ∧
      g1.get_gaussian_weight gaussIdx = some val ∧
      (∀ k : Int, k ≠ gaussIdx → g1.get_gaussian_weight k = g.get_gaussian_weight k) ∧
      g1.m_gaussParams = g.m_gaussParams ∧ g1.m_gmmMap = g.m_gmmMap) ∧
    (g.set_gaussian_mean gaussIdx dimIdx val = Access.done g1 →
      ∀ k : Int, g1.get_gaussian_norm k = g.get_gaussian_norm k) ∧
    (g.set_gaussian_var gaussIdx dimIdx val = Access.done g1 →
      ∀ k : Int, g1.get_gaussian_norm k = g.get_gaussian_norm k) := by
  refine ⟨?_, ?_, ?_⟩
  · intro h
    unfold GmmSet.set_gaussian_weight at h
    split_ifs at h with hidx
    injection h with h
    subst h
    refine ⟨fun k => rfl, ?_, ?_, rfl, rfl⟩
    · unfold GmmSet.get_gaussian_weight
      simp only [List.length_set]
      rw [if_pos hidx]
      have hlt : gaussIdx.toNat < g.m_gaussWeights.length := by omega
      simp [List.getD_eq_getElem?_getD, hlt]
    · intro k hk
      unfold GmmSet.get_gaussian_weight
      simp only [List.length_set]
      split_ifs with hk1
      · have hne : k.toNat ≠ gaussIdx.toNat := by omega
        rw [getD_set_ne _ _ _ _ hne]
      · rfl
  · intro h
    unfold GmmSet.set_gaussian_mean at h
    split_ifs at h
    injection h with h
    subst h
    exact fun k => rfl
  · intro h
    unfold GmmSet.set_gaussian_var at h
    split_ifs at h
    injection h with h
    subst h
    exact fun k => rfl

theorem int_wrap_eq_self (x : Int) (h1 : -2 ^ 31 ≤ x) (h2 : x < 2 ^ 31) : int_wrap x = x := by
  unfold int_wrap
  rw [Int.emod_eq_of_lt (by omega) (by omega)]
  omega

/-- For a dimension index below `2^30` the index arithmetic does not overflow,
and an access that passes the assertion is inside the matrix. -/
theorem setter_in_range_of_small_index (g : GmmSet) (gaussIdx dimIdx : Int) (val : Option ℚ)
    (h : dimIdx < 2 ^ 30) :
    g.set_gaussian_mean gaussIdx dimIdx val ≠ Access.out_of_range ∧
    g.set_gaussian_var gaussIdx dimIdx val ≠ Access.out_of_range := by
  constructor
  · unfold GmmSet.set_gaussian_mean
    split_ifs with h1 h2
    · simp
    · exfalso
      apply h2
      obtain ⟨a1, a2, a3, a4⟩ := h1
      rw [int_wrap_eq_self _ (by omega) (by omega)] at a4 ⊢
      exact ⟨a1, a2, by omega, a4⟩
    · simp
  · unfold GmmSet.set_gaussian_var
    split_ifs with h1 h2
    · simp
    · exfalso
      apply h2
      obtain ⟨a1, a2, a3, a4⟩ := h1
      rw [int_wrap_eq_self _ (by omega) (by omega)] at a4 ⊢
      exact ⟨a1, a2, by omega, a4⟩
    · simp

/-- C17, at a dimension index whose double does not fit the type `int`.  On
`example_gmm` (two Gaussians of dimension 1: the matrix has 2 columns) the calls
`set_gaussian_mean(0, 2^30, 3)` and `set_gaussian_var(0, 2^30, 4)` pass the
assertion, because `2 * dimIdx` wraps around to `-2^31` and `2 * dimIdx + 1` to
`-2^31 + 1`, both below the number of columns; the element that is then
assigned, in column `-2^31` (or `-2^31 + 1`), lies outside the matrix.  In
unbounded arithmetic the column `2^31` fails the comparison with the number of
columns. -/
theorem C17_setter_index_overflow :
    ((0 : Int) ≤ 2 ^ 30 ∧ (2 : Int) ^ 30 < 2 ^ 31) ∧
    int_wrap (2 * 2 ^ 30) = -2 ^ 31 ∧
    int_wrap (2 * 2 ^ 30 + 1) = -2 ^ 31 + 1 ∧
    ((0 : Int) ≥ 0 ∧ (0 : Int) < (example_gmm.m_gaussParams.size1 : Int) ∧ (2 : Int) ^ 30 ≥ 0
      ∧ int_wrap (2 * 2 ^ 30) < (example_gmm.m_gaussParams.size2 : Int)) ∧
    ((0 : Int) ≥ 0 ∧ (0 : Int) < (example_gmm.m_gaussParams.size1 : Int) ∧ (2 : Int) ^ 30 ≥ 0
      ∧ int_wrap (2 * 2 ^ 30 + 1) < (example_gmm.m_gaussParams.size2 : Int)) ∧
    ¬ example_gmm.m_gaussParams.has_element 0 (int_wrap (2 * 2 ^ 30)) ∧
    ¬ example_gmm.m_gaussParams.has_element 0 (int_wrap (2 * 2 ^ 30 + 1)) ∧
    example_gmm.set_gaussian_mean 0 (2 ^ 30) (some 3) = Access.out_of_range ∧
    example_gmm.set_gaussian_var 0 (2 ^ 30) (some 4) = Access.out_of_range ∧
    ¬ ((2 : Int) * 2 ^ 30 < (example_gmm.m_gaussParams.size2 : Int)) := by
  have w1 : int_wrap (2 * 2 ^ 30) = -2 ^ 31 := by decide
  have w2 : int_wrap (2 * 2 ^ 30 + 1) = -2 ^ 31 + 1 := by decide
  have s1 : example_gmm.m_gaussParams.size1 = 2 := rfl
  have s2 : example_gmm.m_gaussParams.size2 = 2 := rfl
  refine ⟨by decide, w1, w2, ?_, ?_, ?_, ?_, ?_, ?_, ?_⟩
  · rw [w1, s1, s2]; decide
  · rw [w2, s1, s2]; decide
  · unfold DMatrix.has_element; rw [w1]; decide
  · unfold DMatrix.has_element; rw [w2]; decide
  · unfold GmmSet.set_gaussian_mean DMatrix.has_element
    rw [w1]
    rw [if_pos (by rw [s1, s2]; decide), if_neg (by rw [s1, s2]; decide)]
  · unfold GmmSet.set_gaussian_var DMatrix.has_element
    rw [w2]
    rw [if_pos (by rw [s1, s2]; decide), if_neg (by rw [s1, s2]; decide)]
  · rw [s2]; decide

/-! ## The look-ups of `SymbolTable` (C18) -/

theorem read_step_nonneg (l : List (Nat × String)) (t : SymbolTable)
    (ht : ∀ s i, t.m_strToIdxMap.lookup s = some i → 0 ≤ i) :
    ∀ s i, (l.foldl
      (fun (t : SymbolTable) (p : Nat × String) =>
        if p.2 ∈ t.m_strToIdxMap then t
        else
          { m_strToIdxMap := t.m_strToIdxMap.insert p.2 (p.1 : Int)
            m_idxToStrMap := t.m_idxToStrMap.insert (p.1 : Int) p.2 })
      t).m_strToIdxMap.lookup s = some i → 0 ≤ i := by
  induction l generalizing t with
  | nil => exact ht
  | cons p l ih =>
    simp only [List.foldl_cons]
    apply ih
    intro s i hs
    split_ifs at hs with hmem
    · exact ht s i hs
    · simp only [] at hs
      by_cases hsp : s = p.2
      · subst hsp
        rw [AList.lookup_insert] at hs
        injection hs with hs
        rw [← hs]
        exact Int.natCast_nonneg _
      · rw [AList.lookup_insert_ne hsp] at hs
        exact ht s i hs

/-- A table populated by `read` stores no negative index. -/
theorem read_lines_index_nonneg (strList : List String) (s : String) (i : Int)
    (h : (SymbolTable.read_lines strList).m_strToIdxMap.lookup s = some i) : 0 ≤ i := by
  unfold SymbolTable.read_lines at h
  refine read_step_nonneg strList.enum _ ?_ s i h
  intro s1 i1 h1
  rw [AList.lookup_empty] at h1
  cases h1

/-- C18. In a symbol table that stores no index `-1` (the indices stored by
`read` are line numbers), `get_index(s)` returns `-1` exactly when `s` is not a
key of the string-to-index map, and otherwise the stored index; `get_str(i)`
returns the empty string when `i` is not a key of the index-to-string map, and
otherwise the stored string.  Both are `const` members, functions of the table
which return a value and no table. -/
theorem C18_symbol_table_lookups (t : SymbolTable)
    (hidx : ∀ s i, t.m_strToIdxMap.lookup s = some i → i ≠ -1)
    (theStr : String) (theIdx : Int) :
    (t.get_index theStr = -1 ↔ theStr ∉ t.m_strToIdxMap) ∧
    (∀ i, t.m_strToIdxMap.lookup theStr = some i → t.get_index theStr = i) ∧
    (theIdx ∉ t.m_idxToStrMap → t.get_str theIdx = "") ∧
    (∀ s, t.m_idxToStrMap.lookup theIdx = some s → t.get_str theIdx = s) := by
  refine ⟨?_, ?_, ?_, ?_⟩
  · rw [← AList.lookup_eq_none]
    unfold SymbolTable.get_index
    cases hl : t.m_strToIdxMap.lookup theStr with
    | none => simp
    | some v =>
      simp only []
      constructor
      · intro hv; exact absurd hv (hidx theStr v hl)
      · intro h; cases h
  · intro i hi
    unfold SymbolTable.get_index
    rw [hi]
  · intro h
    unfold SymbolTable.get_str
    rw [AList.lookup_eq_none.mpr h]
  · intro s hs
    unfold SymbolTable.get_str
    rw [hs]

/-- C18, for the table read from the five tokens of the scenario: `the` has
index 3, `dog` is not in the table, index 4 is `cat` and index 7 has no string. -/
theorem C18_symbol_table_lookups_witness :
    (SymbolTable.read_lines ["<s>", "</s>", "<UNK>", "the", "cat"]).get_index "the" = 3 ∧
    (SymbolTable.read_lines ["<s>", "</s>", "<UNK>", "the", "cat"]).get_index "dog" = -1 ∧
    (SymbolTable.read_lines ["<s>", "</s>", "<UNK>", "the", "cat"]).get_str 4 = "cat" ∧
    (SymbolTable.read_lines ["<s>", "</s>", "<UNK>", "the", "cat"]).get_str 7 = "" := by
  have hidx : ∀ s i, (SymbolTable.read_lines
      ["<s>", "</s>", "<UNK>", "the", "cat"]).m_strToIdxMap.lookup s = some i → i ≠ -1 := by
    intro s i h
    have := read_lines_index_nonneg _ s i h
    omega
  exact ⟨(C18_symbol_table_lookups _ hidx "the" 4).2.1 3 (by decide),
    (C18_symbol_table_lookups _ hidx "dog" 4).1.mpr (by decide),
    (C18_symbol_table_lookups _ hidx "the" 4).2.2.2 "cat" (by decide),
    (C18_symbol_table_lookups _ hidx "the" 7).2.2.1 (by decide)⟩

/-! ## The reads of the n-gram by the two estimators (C19) -/

theorem plus_delta_temp_eq_reads (m_n : Nat) (ngram : List Int) (h : m_n > 1) :
    (List.range (m_n - 1)).map (fun i => ngram.getD i 0)
      = (plus_delta_reads m_n).map (fun idx => ngram.getD idx.toNat 0) := by
  unfold plus_delta_reads
  rw [if_pos h, List.map_map]
  apply List.map_congr_left
  intro i _
  simp

theorem witten_bell_temp_eq_reads (m_n i : Nat) (ngram : List Int) (hi : i ≤ m_n)
    (h1 : i ≠ 1) :
    (List.range i).map (fun j => ngram.getD (m_n - i + j) 0)
      = (witten_bell_pass_reads m_n i).map (fun idx => ngram.getD idx.toNat 0) := by
  unfold witten_bell_pass_reads
  rw [if_neg h1, List.map_map]
  apply List.map_congr_left
  intro j _
  have e : ((m_n : Int) - (i : Int) + (j : Int)).toNat = m_n - i + j := by omega
  simp only [Function.comp, e]

theorem witten_bell_first_eq_reads (m_n : Nat) (ngram : List Int) (h : 1 ≤ m_n) :
    [ngram.getD (m_n - 1) 0]
      = (witten_bell_pass_reads m_n 1).map (fun idx => ngram.getD idx.toNat 0) := by
  unfold witten_bell_pass_reads
  have e : ((m_n : Int) - ((1 : Nat) : Int)).toNat = m_n - 1 := by omega
  simp only [if_true, List.map_cons, List.map_nil, e]

/-- On an n-gram of length `m_n` the two estimators read inside the n-gram. -/
theorem reads_in_bounds_of_full_length (m_n : Nat) (ngram : List Int)
    (hlen : ngram.length = m_n) :
    (∀ idx ∈ plus_delta_reads m_n, 0 ≤ idx ∧ idx < (ngram.length : Int)) ∧
    (∀ idx ∈ witten_bell_reads m_n, 0 ≤ idx ∧ idx < (ngram.length : Int)) := by
  constructor
  · intro idx h
    unfold plus_delta_reads at h
    split_ifs at h with hm
    · simp only [List.mem_map, List.mem_range] at h
      obtain ⟨i, hi, rfl⟩ := h
      omega
    · simp at h
  · intro idx h
    unfold witten_bell_reads witten_bell_pass_reads at h
    simp only [List.mem_flatMap, List.mem_range'_1] at h
    obtain ⟨i, hi, h⟩ := h
    split_ifs at h with h1
    · simp only [List.mem_singleton] at h
      omega
    · simp only [List.mem_map, List.mem_range] at h
      obtain ⟨j, hj, rfl⟩ := h
      omega

/-- C19: the code at the failing input.  The model of order 3 accepts the
n-gram `(the)` of length 1 in `get_prob`; on it `get_prob_plus_delta` reads
`ngram[1]` and `get_prob_witten_bell` reads `ngram[2]`, both outside the n-gram. -/
theorem C19_short_ngram_read_out_of_bounds :
    (1 ≤ ([3] : List Int).length ∧ ([3] : List Int).length ≤ (trigram_model 1).m_n) ∧
    (∃ p, (get_prob (trigram_model 1) [3]).1 = Except.ok p) ∧
    ((1 : Int) ∈ plus_delta_reads (trigram_model 1).m_n ∧
      ¬ ((1 : Int) < (([3] : List Int).length : Int))) ∧
    ((2 : Int) ∈ witten_bell_reads (trigram_model 1).m_n ∧
      ¬ ((2 : Int) < (([3] : List Int).length : Int))) := by
  have hn : (trigram_model 1).m_n = 3 := rfl
  refine ⟨by rw [hn]; decide, ?_, ?_, ?_⟩
  · unfold get_prob
    have hv : ¬ (([3] : List Int).length < 1 ∨ ([3] : List Int).length > (trigram_model 1).m_n) := by
      rw [hn]; decide
    rw [if_neg hv]
    exact ⟨_, rfl⟩
  · rw [hn]; decide
  · rw [hn]; decide

/-! ## The reads of the word list while counting (C20) -/

theorem count_temp_eq_reads (wordList : List Int) (m_n_t i : Nat) (h : m_n_t - 1 ≤ i) :
    count_temp wordList m_n_t i
      = ((List.range m_n_t).map fun (j : Nat) => (i : Int) - ((m_n_t : Int) - 1) + (j : Int)).map
          (fun idx => wordList.getD idx.toNat 0) := by
  unfold count_temp
  rw [List.map_map]
  apply List.map_congr_left
  intro j hj
  simp only [List.mem_range] at hj
  have e : ((i : Int) - ((m_n_t : Int) - 1) + (j : Int)).toNat = i - (m_n_t - 1) + j := by omega
  simp only [Function.comp, e]

theorem sentence_ngrams_short (m_n : Nat) (wordList : List Int) (h : wordList.length < m_n) :
    sentence_ngrams m_n wordList = [] := by
  unfold sentence_ngrams
  have h0 : wordList.length - (m_n - 1) = 0 := by omega
  rw [h0]
  simp

/-- C20. For every order `N >= 1` and every word list, of any length, every
index `i-(k-1)+j` at which `count_sentence_ngrams` reads the word list lies in
`[0, wordCnt)`; and a word list of length less than `N` leaves the three tables
(the whole model) unchanged. -/
theorem C20_count_reads_in_bounds (lm : LangModel) (wordList : List Int)
    (hN : 1 ≤ lm.m_n) :
    (∀ idx ∈ count_reads lm.m_n wordList, 0 ≤ idx ∧ idx < (wordList.length : Int)) ∧
    (wordList.length < lm.m_n → count_sentence_ngrams lm wordList = lm) := by
  constructor
  · intro idx h
    unfold count_reads at h
    simp only [List.mem_flatMap, List.mem_map, List.mem_range'_1, List.mem_range] at h
    obtain ⟨k, hk, i, hi, j, hj, rfl⟩ := h
    omega
  · intro h
    rw [count_sentence_ngrams_eq, sentence_ngrams_short _ _ h]
    rfl

/-- C20, at order 2: the reads in the word list `[0,3,4,1]` are at the indices
`1, 2, 3` (unigrams) and `0, 1, 1, 2, 2, 3` (bigrams), and the one-word list
`[1]` changes nothing in the model of the scenario. -/
theorem C20_count_reads_in_bounds_witness :
    count_reads 2 [0, 3, 4, 1] = [1, 2, 3, 0, 1, 1, 2, 2, 3] ∧
    (∀ idx ∈ count_reads (scenario_model 1).m_n [0, 3, 4, 1],
      0 ≤ idx ∧ idx < (([0, 3, 4, 1] : List Int).length : Int)) ∧
    count_sentence_ngrams (scenario_model 1) [1] = scenario_model 1 :=
  ⟨by decide, (C20_count_reads_in_bounds (scenario_model 1) [0, 3, 4, 1] (by decide)).1,
    (C20_count_reads_in_bounds (scenario_model 1) [1] (by decide)).2 (by decide)⟩

/-! ## Witten-Bell smoothing in the unigram model (C21) -/

/-- C21. In the unigram case `N = 1`, for every n-gram `[w]` of length 1,
`get_prob_witten_bell` returns the base-case value
`(C/(C+D))*(pred([w])/C) + (D/(C+D))*(1/V)`, with `C` and `D` the history and
diversity counts of the key `[0]` of the empty history (a division by zero
making it non-finite); the loop has the single pass `i = 1`, so the branch for
the orders above 1 is not executed. -/
theorem C21_unigram_witten_bell (lm : LangModel) (w : Int) (hN : lm.m_n = 1) :
    get_prob_witten_bell lm [w]
      = fadd
          (fmul
            (fdiv (some (lm.m_histCounts.get_count temp_eps : ℚ))
              (some ((lm.m_histCounts.get_count temp_eps : ℚ)
                + (lm.m_histOnePlusCounts.get_count temp_eps : ℚ))))
            (fdiv (some (lm.m_predCounts.get_count [w] : ℚ))
              (some (lm.m_histCounts.get_count temp_eps : ℚ))))
          (fmul
            (fdiv (some (lm.m_histOnePlusCounts.get_count temp_eps : ℚ))
              (some ((lm.m_histCounts.get_count temp_eps : ℚ)
                + (lm.m_histOnePlusCounts.get_count temp_eps : ℚ))))
            (fdiv (some 1) (some ((lm.m_symTable.size - 1 : Int) : ℚ)))) ∧
    (∀ i ∈ List.range' 1 lm.m_n, i = 1) ∧
    get_prob_witten_bell lm [w] = witten_bell_first lm [w] ∧
    ((lm.m_histCounts.get_count temp_eps : ℚ) ≠ 0 → ((lm.m_symTable.size - 1 : Int) : ℚ) ≠ 0 →
      get_prob_witten_bell lm [w]
        = some ((lm.m_histCounts.get_count temp_eps : ℚ)
              / ((lm.m_histCounts.get_count temp_eps : ℚ)
                + (lm.m_histOnePlusCounts.get_count temp_eps : ℚ))
            * ((lm.m_predCounts.get_count [w] : ℚ) / (lm.m_histCounts.get_count temp_eps : ℚ))
          + (lm.m_histOnePlusCounts.get_count temp_eps : ℚ)
              / ((lm.m_histCounts.get_count temp_eps : ℚ)
                + (lm.m_histOnePlusCounts.get_count temp_eps : ℚ))
            * (1 / ((lm.m_symTable.size - 1 : Int) : ℚ)))) := by
  have hP : get_prob_witten_bell lm [w] = witten_bell_P lm [w] 1 := by
    have := get_prob_witten_bell_eq_P lm [w] (by omega) (by rw [hN]; rfl)
    rw [hN] at this
    exact this
  have hform : witten_bell_P lm [w] 1
      = fadd
          (fmul
            (fdiv (some (lm.m_histCounts.get_count temp_eps : ℚ))
              (some ((lm.m_histCounts.get_count temp_eps : ℚ)
                + (lm.m_histOnePlusCounts.get_count temp_eps : ℚ))))
            (fdiv (some (lm.m_predCounts.get_count [w] : ℚ))
              (some (lm.m_histCounts.get_count temp_eps : ℚ))))
          (fmul
            (fdiv (some (lm.m_histOnePlusCounts.get_count temp_eps : ℚ))
              (some ((lm.m_histCounts.get_count temp_eps : ℚ)
                + (lm.m_histOnePlusCounts.get_count temp_eps : ℚ))))
            (fdiv (some 1) (some ((lm.m_symTable.size - 1 : Int) : ℚ)))) := by
    have hl : last_words 1 [w] = [w] := rfl
    unfold witten_bell_P
    simp only [hl]
  refine ⟨hP.trans hform, ?_, ?_, ?_⟩
  · intro i hi
    rw [hN] at hi
    simpa using hi
  · rw [hP, wb_first_eq lm [w] (by omega) (by rw [hN]; rfl)]
  · intro hC hV
    have hD : (0 : ℚ) ≤ (lm.m_histOnePlusCounts.get_count temp_eps : ℚ) := Nat.cast_nonneg _
    have hC0 : (0 : ℚ) ≤ (lm.m_histCounts.get_count temp_eps : ℚ) := Nat.cast_nonneg _
    have hCD : ¬ ((lm.m_histCounts.get_count temp_eps : ℚ)
        + (lm.m_histOnePlusCounts.get_count temp_eps : ℚ) = 0) := by
      intro h
      apply hC
      linarith
    rw [hP, hform]
    simp only [fdiv, fmul, fadd, hC, hV, hCD, if_false]

/-- C21, on the unigram model trained on `[3,4,1]` and `[3,1]` (`C = 5`,
`D = 3`, `V = 4`) and the word `the`, seen twice: the value is
`(5/8)*(2/5) + (3/8)*(1/4) = 11/32`. -/
theorem C21_unigram_witten_bell_witness :
    unigram_model.m_n = 1 ∧ get_prob_witten_bell unigram_model [3] = some (11 / 32) := by
  have hn : unigram_model.m_n = 1 := rfl
  have hs : unigram_model.m_symTable.size = 5 := scenario_size
  have hC : unigram_model.m_histCounts.get_count temp_eps = 5 := by decide
  have hD : unigram_model.m_histOnePlusCounts.get_count temp_eps = 3 := by decide
  have hp : unigram_model.m_predCounts.get_count [3] = 2 := by decide
  refine ⟨hn, ?_⟩
  rw [(C21_unigram_witten_bell unigram_model 3 hn).2.2.2 (by rw [hC]; norm_num)
    (by rw [hs]; norm_num), hC, hD, hp, hs]
  norm_num

/-! ## The order of the sentences (C23) -/

theorem counts_of_perm (lm : LangModel) (E1 E2 : List (List Int)) (hperm : E1.Perm E2)
    (h : counts_of lm E1) : counts_of lm E2 := by
  intro k
  obtain ⟨hp, hh, ho⟩ := h k
  refine ⟨?_, ?_, ?_⟩
  · rw [hp, List.count_eq_countP, List.count_eq_countP]; exact hperm.countP_eq _
  · rw [hh]; exact hperm.countP_eq _
  · rw [ho, List.toFinset_eq_of_perm _ _ hperm]

theorem counter_ext (c1 c2 : NGramCounter) (h : ∀ k, c1.get_count k = c2.get_count k) :
    c1 = c2 := by
  cases c1 with
  | mk f1 =>
    cases c2 with
    | mk f2 =>
      have : f1 = f2 := funext h
      rw [this]

/-- C23. For every order `N`, every list of padded sentences and every
permutation of it, counting the sentences from empty tables in the one order or
in the other yields the same predictive, history and history-diversity tables. -/
theorem C23_sentence_order_irrelevant (params : AList (fun _ : String => String))
    (symTable : SymbolTable) (bosIdx eosIdx unkIdx : Int) (N : Nat) (delta : ℚ)
    (sentences1 sentences2 : List (List Int)) (hperm : sentences1.Perm sentences2) :
    (count_sentences (LangModel.fresh params symTable bosIdx eosIdx unkIdx N delta)
        sentences1).m_predCounts
      = (count_sentences (LangModel.fresh params symTable bosIdx eosIdx unkIdx N delta)
        sentences2).m_predCounts ∧
    (count_sentences (LangModel.fresh params symTable bosIdx eosIdx unkIdx N delta)
        sentences1).m_histCounts
      = (count_sentences (LangModel.fresh params symTable bosIdx eosIdx unkIdx N delta)
        sentences2).m_histCounts ∧
    (count_sentences (LangModel.fresh params symTable bosIdx eosIdx unkIdx N delta)
        sentences1).m_histOnePlusCounts
      = (count_sentences (LangModel.fresh params symTable bosIdx eosIdx unkIdx N delta)
        sentences2).m_histOnePlusCounts := by
  have h1 := counts_of_trained params symTable bosIdx eosIdx unkIdx N delta sentences1
  have h2 := counts_of_trained params symTable bosIdx eosIdx unkIdx N delta sentences2
  have hE : (corpus_ngrams N sentences1).Perm (corpus_ngrams N sentences2) :=
    List.Perm.flatMap_right _ hperm
  have h3 := counts_of_perm _ _ _ hE h1
  refine ⟨counter_ext _ _ ?_, counter_ext _ _ ?_, counter_ext _ _ ?_⟩
  · intro k; rw [(h3 k).1, (h2 k).1]
  · intro k; rw [(h3 k).2.1, (h2 k).2.1]
  · intro k; rw [(h3 k).2.2, (h2 k).2.2]

/-- C23, for the two sentences `[0,3,4,1]` and `[0,4,1]` at order 2, counted in
the two orders. -/
theorem C23_sentence_order_irrelevant_witness :
    (count_sentences (LangModel.fresh scenario_params scenario_vocab 0 1 2 2 (-1))
        [[0, 3, 4, 1], [0, 4, 1]]).m_histOnePlusCounts
      = (count_sentences (LangModel.fresh scenario_params scenario_vocab 0 1 2 2 (-1))
        [[0, 4, 1], [0, 3, 4, 1]]).m_histOnePlusCounts :=
  (C23_sentence_order_irrelevant scenario_params scenario_vocab 0 1 2 2 (-1)
    [[0, 3, 4, 1], [0, 4, 1]] [[0, 4, 1], [0, 3, 4, 1]] (List.Perm.swap _ _ _)).2.2

/-! ## The ranges of Gaussians of the mixtures (C22) -/

theorem starts_mono (s : List Int) (hs : s.Sorted (· ≤ ·)) (i j : Nat) (hij : i ≤ j)
    (hj : j < s.length) : s.getD i 0 ≤ s.getD j 0 := by
  have hi : i < s.length := by omega
  rw [List.getD_eq_getElem _ _ hi, List.getD_eq_getElem _ _ hj]
  rcases Nat.eq_or_lt_of_le hij with h | h
  · subst h; exact le_refl _
  · exact (List.pairwise_iff_getElem.mp hs) i j hi hj h

theorem min_index_nat (gs : GmmSet) (g : Nat) (hg : g < gs.m_gmmMap.length) :
    gs.get_min_gaussian_index (g : Int) = some (gs.m_gmmMap.getD g 0) := by
  unfold GmmSet.get_min_gaussian_index
  rw [if_pos (by omega)]
  simp

theorem max_index_nat (gs : GmmSet) (g : Nat) (hg : g < gs.m_gmmMap.length) :
    gs.get_max_gaussian_index (g : Int)
      = some (if g + 1 < gs.m_gmmMap.length then gs.m_gmmMap.getD (g + 1) 0
          else (gs.m_gaussParams.size1 : Int)) := by
  unfold GmmSet.get_max_gaussian_index
  rw [if_pos (by omega)]
  have e : ((g : Int) + 1).toNat = g + 1 := by omega
  by_cases h : g + 1 < gs.m_gmmMap.length
  · have h1 : (g : Int) + 1 < (gs.m_gmmMap.length : Int) := by omega
    rw [if_pos h, if_pos h1, e]
  · have h1 : ¬ ((g : Int) + 1 < (gs.m_gmmMap.length : Int)) := by omega
    rw [if_neg h, if_neg h1]

theorem index_some_inv (gs : GmmSet) (g lo : Int)
    (h : gs.get_min_gaussian_index g = some lo) :
    0 ≤ g ∧ g < (gs.m_gmmMap.length : Int) := by
  unfold GmmSet.get_min_gaussian_index at h
  split_ifs at h with hc
  exact ⟨hc.1, hc.2⟩

/-- The ranges of two different mixtures have no Gaussian in common. -/
theorem ranges_disjoint (gs : GmmSet) (hmono : gs.m_gmmMap.Sorted (· ≤ ·)) (a b : Nat)
    (hab : a < b) (hb : b < gs.m_gmmMap.length) (k hi1 lo2 : Int)
    (h1 : gs.get_max_gaussian_index (a : Int) = some hi1)
    (h2 : gs.get_min_gaussian_index (b : Int) = some lo2) (hk1 : k < hi1) (hk2 : lo2 ≤ k) :
    False := by
  rw [max_index_nat gs a (by omega), if_pos (by omega)] at h1
  rw [min_index_nat gs b hb] at h2
  injection h1 with h1
  injection h2 with h2
  have := starts_mono gs.m_gmmMap hmono (a + 1) b (by omega) hb
  omega

/-- C22. For a `GmmSet` whose list `m_gmmMap` of start indices is not empty,
starts with 0, is non-decreasing and has no entry above `get_gaussian_count()`:
the range of a mixture that is not the last ends where the range of the next one
starts; the range of the last mixture ends at `get_gaussian_count()`; every
Gaussian index in `[0, get_gaussian_count())` lies in the range
`[get_min_gaussian_index(g), get_max_gaussian_index(g))` of some mixture `g`;
no index lies in the ranges of two different mixtures; and every range
`[lo, hi)` has `0 <= lo <= hi <= get_gaussian_count()`. -/
theorem C22_mixture_ranges_tile (gs : GmmSet) (hne : gs.m_gmmMap ≠ [])
    (h0 : gs.m_gmmMap.head? = some 0) (hmono : gs.m_gmmMap.Sorted (· ≤ ·))
    (hle : ∀ x ∈ gs.m_gmmMap, x ≤ gs.get_gaussian_count) :
    (∀ g : Int, 0 ≤ g → g + 1 < gs.get_gmm_count →
      gs.get_max_gaussian_index g = gs.get_min_gaussian_index (g + 1) ∧
      gs.get_max_gaussian_index g ≠ none) ∧
    gs.get_max_gaussian_index (gs.get_gmm_count - 1) = some gs.get_gaussian_count ∧
    (∀ k : Int, 0 ≤ k → k < gs.get_gaussian_count →
      ∃ g lo hi : Int, 0 ≤ g ∧ g < gs.get_gmm_count ∧
        gs.get_min_gaussian_index g = some lo ∧ gs.get_max_gaussian_index g = some hi ∧
        lo ≤ k ∧ k < hi) ∧
    (∀ k g1 g2 lo1 hi1 lo2 hi2 : Int,
      gs.get_min_gaussian_index g1 = some lo1 → gs.get_max_gaussian_index g1 = some hi1 →
      gs.get_min_gaussian_index g2 = some lo2 → gs.get_max_gaussian_index g2 = some hi2 →
      lo1 ≤ k → k < hi1 → lo2 ≤ k → k < hi2 → g1 = g2) ∧
    (∀ g lo hi : Int,
      gs.get_min_gaussian_index g = some lo → gs.get_max_gaussian_index g = some hi →
      0 ≤ lo ∧ lo ≤ hi ∧ hi ≤ gs.get_gaussian_count) := by
  have hlen : 0 < gs.m_gmmMap.length := List.length_pos.mpr hne
  have hfirst : gs.m_gmmMap.getD 0 0 = 0 := by
    cases hl : gs.m_gmmMap with
    | nil => exact absurd hl hne
    | cons a l =>
      rw [hl] at h0
      simp at h0
      simp [h0]
  refine ⟨?_, ?_, ?_, ?_, ?_⟩
  · intro g hg0 hg1
    unfold GmmSet.get_gmm_count at hg1
    obtain ⟨n, rfl⟩ := Int.eq_ofNat_of_zero_le hg0
    have hn : n + 1 < gs.m_gmmMap.length := by omega
    have e : ((n : Int) + 1) = ((n + 1 : Nat) : Int) := by omega
    rw [max_index_nat gs n (by omega), if_pos hn, e, min_index_nat gs (n + 1) hn]
    exact ⟨rfl, by simp⟩
  · unfold GmmSet.get_gmm_count GmmSet.get_gaussian_count
    have e : (gs.m_gmmMap.length : Int) - 1 = ((gs.m_gmmMap.length - 1 : Nat) : Int) := by omega
    rw [e, max_index_nat gs _ (by omega), if_neg (by omega)]
  · intro k hk0 hk1
    unfold GmmSet.get_gaussian_count at hk1
    have hP0 : gs.m_gmmMap.getD 0 0 ≤ k := by rw [hfirst]; exact hk0
    have hspec := Nat.findGreatest_spec (P := fun j => gs.m_gmmMap.getD j 0 ≤ k)
      (Nat.zero_le (gs.m_gmmMap.length - 1)) hP0
    have hgle := Nat.findGreatest_le (P := fun j => gs.m_gmmMap.getD j 0 ≤ k)
      (gs.m_gmmMap.length - 1)
    generalize hgdef : Nat.findGreatest (fun j => gs.m_gmmMap.getD j 0 ≤ k)
      (gs.m_gmmMap.length - 1) = g at hspec hgle
    have hg : g < gs.m_gmmMap.length := by omega
    refine ⟨(g : Int), gs.m_gmmMap.getD g 0,
      (if g + 1 < gs.m_gmmMap.length then gs.m_gmmMap.getD (g + 1) 0
        else (gs.m_gaussParams.size1 : Int)), by omega, ?_, min_index_nat gs g hg,
      max_index_nat gs g hg, hspec, ?_⟩
    · unfold GmmSet.get_gmm_count; omega
    · by_cases hnext : g + 1 < gs.m_gmmMap.length
      · rw [if_pos hnext]
        by_contra hcon
        have hle1 : gs.m_gmmMap.getD (g + 1) 0 ≤ k := by omega
        have := Nat.le_findGreatest (P := fun j => gs.m_gmmMap.getD j 0 ≤ k)
          (show g + 1 ≤ gs.m_gmmMap.length - 1 by omega) hle1
        rw [hgdef] at this
        omega
      · rw [if_neg hnext]; exact hk1
  · intro k g1 g2 lo1 hi1 lo2 hi2 hmin1 hmax1 hmin2 hmax2 hlo1 hhi1 hlo2 hhi2
    obtain ⟨ha0, ha1⟩ := index_some_inv gs g1 lo1 hmin1
    obtain ⟨hb0, hb1⟩ := index_some_inv gs g2 lo2 hmin2
    obtain ⟨a, rfl⟩ := Int.eq_ofNat_of_zero_le ha0
    obtain ⟨b, rfl⟩ := Int.eq_ofNat_of_zero_le hb0
    rcases Nat.lt_trichotomy a b with h | h | h
    · exact (ranges_disjoint gs hmono a b h (by omega) k hi1 lo2 hmax1 hmin2 hhi1 hlo2).elim
    · rw [h]
    · exact (ranges_disjoint gs hmono b a h (by omega) k hi2 lo1 hmax2 hmin1 hhi2 hlo1).elim
  · intro g lo hi hmin hmax
    obtain ⟨ha0, ha1⟩ := index_some_inv gs g lo hmin
    obtain ⟨a, rfl⟩ := Int.eq_ofNat_of_zero_le ha0
    have ha : a < gs.m_gmmMap.length := by omega
    rw [min_index_nat gs a ha] at hmin
    rw [max_index_nat gs a ha] at hmax
    injection hmin with hmin
    injection hmax with hmax
    have hmem : ∀ j, j < gs.m_gmmMap.length → gs.m_gmmMap.getD j 0 ≤ gs.get_gaussian_count := by
      intro j hj
      apply hle
      rw [List.getD_eq_getElem _ _ hj]
      exact List.getElem_mem _
    have hlo0 : 0 ≤ gs.m_gmmMap.getD a 0 := by
      have := starts_mono gs.m_gmmMap hmono 0 a (Nat.zero_le _) ha
      rw [hfirst] at this
      exact this
    have hloc := hmem a ha
    unfold GmmSet.get_gaussian_count at hloc hmem ⊢
    by_cases hnext : a + 1 < gs.m_gmmMap.length
    · rw [if_pos hnext] at hmax
      have h1 := starts_mono gs.m_gmmMap hmono a (a + 1) (by omega) hnext
      have h2 := hmem (a + 1) hnext
      omega
    · rw [if_neg hnext] at hmax
      omega

/-- C22, on `example_gmm_three` (starts `0, 2, 2`, five Gaussians): the ranges
are `[0,2)`, `[2,2)` and `[2,5)`, and Gaussian 3 lies in the range of a mixture. -/
theorem C22_mixture_ranges_tile_witness :
    (example_gmm_three.get_max_gaussian_index 0 = example_gmm_three.get_min_gaussian_index (0 + 1)
      ∧ example_gmm_three.get_max_gaussian_index 0 ≠ none) ∧
    example_gmm_three.get_max_gaussian_index (example_gmm_three.get_gmm_count - 1)
      = some example_gmm_three.get_gaussian_count ∧
    (∃ g lo hi : Int, 0 ≤ g ∧ g < example_gmm_three.get_gmm_count ∧
      example_gmm_three.get_min_gaussian_index g = some lo ∧
      example_gmm_three.get_max_gaussian_index g = some hi ∧ lo ≤ 3 ∧ 3 < hi) ∧
    ((0 : Int) ≤ 2 ∧ (2 : Int) ≤ 2 ∧ (2 : Int) ≤ example_gmm_three.get_gaussian_count) := by
  have h := C22_mixture_ranges_tile example_gmm_three (by decide) (by decide) (by decide)
    (by decide)
  exact ⟨h.1 0 (by decide) (by decide), h.2.1, h.2.2.1 3 (by decide) (by decide),
    h.2.2.2.2 1 2 2 (by decide) (by decide)⟩

/-! ## Witten-Bell smoothing gives no probability zero (C26) -/

theorem onePlus_pos_of_hist_pos (lm : LangModel) (E : List (List Int)) (hc : counts_of lm E)
    (K : List Int) (h : 1 ≤ lm.m_histCounts.get_count K) :
    1 ≤ lm.m_histOnePlusCounts.get_count K := by
  rw [(hc K).2.1] at h
  rw [(hc K).2.2]
  have hpos : 0 < List.countP (fun g => decide (hist_key g = K)) E := h
  rw [List.countP_pos_iff] at hpos
  obtain ⟨g, hg, hk⟩ := hpos
  rw [decide_eq_true_eq] at hk
  apply Finset.card_pos.mpr
  exact ⟨g, Finset.mem_filter.mpr ⟨List.mem_toFinset.mpr hg, hk⟩⟩

theorem interpolation_pos (C D a q : ℚ) (hC : 0 < C) (hD : 0 < D) (ha : 0 ≤ a) (hq : 0 < q) :
    0 < C / (C + D) * (a / C) + D / (C + D) * q := by
  have hCD : 0 < C + D := by linarith
  have h1 : 0 ≤ C / (C + D) * (a / C) :=
    mul_nonneg (div_nonneg (le_of_lt hC) (le_of_lt hCD)) (div_nonneg ha (le_of_lt hC))
  have h2 : 0 < D / (C + D) * q := mul_pos (div_pos hD hCD) hq
  linarith

/-- Every level of the interpolation is positive, for a model in which a key
with a positive history count has a positive diversity count. -/
theorem witten_bell_P_pos (lm : LangModel) (ngram : List Int)
    (hD : ∀ K : List Int, 1 ≤ lm.m_histCounts.get_count K →
      1 ≤ lm.m_histOnePlusCounts.get_count K)
    (hC : 1 ≤ lm.m_histCounts.get_count temp_eps) (hV : 0 < lm.m_symTable.size - 1)
    (i : Nat) :
    ∃ p : ℚ, witten_bell_P lm ngram (i + 1) = some p ∧ 0 < p := by
  induction i with
  | zero =>
    have hCq : (0 : ℚ) < (lm.m_histCounts.get_count temp_eps : ℚ) := by exact_mod_cast hC
    have hDq : (0 : ℚ) < (lm.m_histOnePlusCounts.get_count temp_eps : ℚ) := by
      exact_mod_cast hD temp_eps hC
    have hVpos : (0 : ℚ) < ((lm.m_symTable.size - 1 : Int) : ℚ) := by exact_mod_cast hV
    have hb := interpolation_pos _ _ (lm.m_predCounts.get_count (last_words 1 ngram) : ℚ)
      (1 / ((lm.m_symTable.size - 1 : Int) : ℚ)) hCq hDq (Nat.cast_nonneg _)
      (div_pos one_pos hVpos)
    refine ⟨_, ?_, hb⟩
    have e1 : ¬ ((lm.m_histCounts.get_count temp_eps : ℚ)
        + (lm.m_histOnePlusCounts.get_count temp_eps : ℚ) = 0) := by
      intro h; linarith
    have e2 : ¬ ((lm.m_histCounts.get_count temp_eps : ℚ) = 0) := ne_of_gt hCq
    have e3 : ¬ (((lm.m_symTable.size - 1 : Int) : ℚ) = 0) := ne_of_gt hVpos
    show witten_bell_P lm ngram 1 = _
    unfold witten_bell_P
    simp only [fdiv, fmul, fadd, e1, e2, e3, if_false]
  | succ k ih =>
    obtain ⟨q, hq, hq0⟩ := ih
    show ∃ p : ℚ, witten_bell_P lm ngram ((k + 1) + 1) = some p ∧ 0 < p
    unfold witten_bell_P
    simp only []
    by_cases hz : (lm.m_histCounts.get_count (last_words (k + 1) ngram.dropLast) : ℚ) = 0
    · rw [if_pos hz]
      exact ⟨q, hq, hq0⟩
    · rw [if_neg hz, hq]
      have hCn : 1 ≤ lm.m_histCounts.get_count (last_words (k + 1) ngram.dropLast) := by
        have : lm.m_histCounts.get_count (last_words (k + 1) ngram.dropLast) ≠ 0 := by
          intro h; apply hz; rw [h]; rfl
        omega
      have hCq : (0 : ℚ)
          < (lm.m_histCounts.get_count (last_words (k + 1) ngram.dropLast) : ℚ) := by
        exact_mod_cast hCn
      have hDq : (0 : ℚ)
          < (lm.m_histOnePlusCounts.get_count (last_words (k + 1) ngram.dropLast) : ℚ) := by
        exact_mod_cast hD _ hCn
      have hb := interpolation_pos _ _
        (lm.m_predCounts.get_count (last_words (k + 2) ngram) : ℚ) q hCq hDq
        (Nat.cast_nonneg _) hq0
      refine ⟨_, ?_, hb⟩
      have e1 : ¬ ((lm.m_histCounts.get_count (last_words (k + 1) ngram.dropLast) : ℚ)
          + (lm.m_histOnePlusCounts.get_count (last_words (k + 1) ngram.dropLast) : ℚ) = 0) := by
        intro h; linarith
      simp only [fdiv, fmul, fadd, e1, hz, if_false]

/-- C26, amended. For every model whose tables were produced by
`count_sentence_ngrams` on a list of padded sentences in which at least one
position was counted, with `V >= 1`, and for every n-gram of length `N >= 1`,
seen or not, the value of the interpolation that `get_prob_witten_bell`
evaluates, its quotients, products and sums taken exactly (without the rounding
of `double` arithmetic), is a number strictly greater than 0. -/
theorem C26_witten_bell_positive (params : AList (fun _ : String => String))
    (symTable : SymbolTable) (bosIdx eosIdx unkIdx : Int) (N : Nat) (delta : ℚ)
    (sentences : List (List Int)) (ngram : List Int)
    (hcounted : 1 ≤ (count_sentences
      (LangModel.fresh params symTable bosIdx eosIdx unkIdx N delta)
      sentences).m_histCounts.get_count temp_eps)
    (hV : 1 ≤ symTable.size - 1) (hN : 1 ≤ N) (hlen : ngram.length = N) :
    ∃ p : ℚ,
      get_prob_witten_bell (count_sentences
        (LangModel.fresh params symTable bosIdx eosIdx unkIdx N delta) sentences) ngram
        = some p ∧ 0 < p := by
  have hc := counts_of_trained params symTable bosIdx eosIdx unkIdx N delta sentences
  obtain ⟨hn, _, hst⟩ :=
    count_sentences_fields (LangModel.fresh params symTable bosIdx eosIdx unkIdx N delta)
      sentences
  generalize count_sentences (LangModel.fresh params symTable bosIdx eosIdx unkIdx N delta)
    sentences = lm at hc hn hst hcounted
  have hn1 : lm.m_n = N := hn
  have hs1 : lm.m_symTable = symTable := hst
  rw [get_prob_witten_bell_eq_P lm ngram (by omega) (by omega), hn1]
  have hb := witten_bell_P_pos lm ngram (fun K => onePlus_pos_of_hist_pos lm _ hc K) hcounted
    (by rw [hs1]; omega) (N - 1)
  have e : N - 1 + 1 = N := by omega
  rw [e] at hb
  exact hb

/-! ## Back-off to the unigram estimate (C27) -/

theorem last_words_count_temp (s : List Int) (k i j : Nat) (hj : j ≤ k) (hk : k ≤ i + 1)
    (hi : i < s.length) : last_words j (count_temp s k i) = count_temp s j i := by
  unfold last_words
  rw [count_temp_length, count_temp_eq_take_drop s k i hk hi,
    count_temp_eq_take_drop s j i (by omega) hi, List.drop_take, List.drop_drop]
  have e1 : k - (k - j) = j := by omega
  have e2 : i + 1 - k + (k - j) = i + 1 - j := by omega
  rw [e1, e2]

theorem last_words_mem_corpus_ngrams (N : Nat) (sentences : List (List Int)) (g : List Int)
    (hg : g ∈ corpus_ngrams N sentences) (j : Nat) (hj1 : 1 ≤ j) (hj : j ≤ g.length) :
    last_words j g ∈ corpus_ngrams N sentences := by
  unfold corpus_ngrams sentence_ngrams at hg ⊢
  simp only [List.mem_flatMap, List.mem_map] at hg ⊢
  obtain ⟨s, hs, k, hk, i, hi, rfl⟩ := hg
  rw [count_temp_length] at hj
  simp only [List.mem_range'_1] at hk hi
  refine ⟨s, hs, j, ?_, i, ?_, ?_⟩
  · simp only [List.mem_range'_1]; omega
  · simp only [List.mem_range'_1]; exact hi
  · exact (last_words_count_temp s k i j hj (by omega) (by omega)).symm

theorem last_words_one_last_words (j : Nat) (l : List Int) (hj1 : 1 ≤ j) (hj : j ≤ l.length) :
    last_words 1 (last_words j l) = last_words 1 l := by
  have hl := last_words_length j l hj
  unfold last_words at hl ⊢
  rw [hl, List.drop_drop]
  congr 1
  omega

/-- In a trained model a history whose last word was never a history has
itself never been a history. -/
theorem hist_zero_of_last_word (N : Nat) (sentences : List (List Int)) (lm : LangModel)
    (hc : counts_of lm (corpus_ngrams N sentences)) (K : List Int) (hK : 2 ≤ K.length)
    (hz : lm.m_histCounts.get_count (last_words 1 K) = 0) :
    lm.m_histCounts.get_count K = 0 := by
  by_contra hne
  have hpos : 0 < lm.m_histCounts.get_count K := Nat.pos_of_ne_zero hne
  rw [(hc K).2.1, List.countP_pos_iff] at hpos
  obtain ⟨g, hg, hk⟩ := hpos
  rw [decide_eq_true_eq] at hk
  have hlen : g.length > 1 := by
    by_contra hcon
    unfold hist_key at hk
    rw [if_neg hcon] at hk
    rw [← hk] at hK
    simp [temp_eps] at hK
  have hd : g.dropLast = K := by
    unfold hist_key at hk
    rw [if_pos hlen] at hk
    exact hk
  have hg2 := last_words_mem_corpus_ngrams N sentences g hg 2 (by omega) (by omega)
  have hkey : hist_key (last_words 2 g) = last_words 1 K := by
    rw [← hd]
    exact hist_key_last_words 0 g (by omega)
  have : 0 < lm.m_histCounts.get_count (last_words 1 K) := by
    rw [(hc _).2.1, List.countP_pos_iff]
    exact ⟨last_words 2 g, hg2, by rw [decide_eq_true_eq]; exact hkey⟩
  omega

theorem witten_bell_P_backoff (lm : LangModel) (ngram : List Int) (n : Nat)
    (hz : ∀ j, 1 ≤ j → j ≤ n → lm.m_histCounts.get_count (last_words j ngram.dropLast) = 0)
    (i : Nat) (hi : i ≤ n) :
    witten_bell_P lm ngram (i + 1) = witten_bell_P lm ngram 1 := by
  induction i with
  | zero => rfl
  | succ k ih =>
    show witten_bell_P lm ngram ((k + 1) + 1) = witten_bell_P lm ngram 1
    have h0 : (lm.m_histCounts.get_count (last_words (k + 1) ngram.dropLast) : ℚ) = 0 := by
      rw [hz (k + 1) (by omega) hi]; rfl
    conv_lhs => unfold witten_bell_P
    simp only []
    rw [if_pos h0]
    exact ih (by omega)

/-- C27. For every order `N >= 2`, every model whose tables were produced by
`count_sentence_ngrams`, and every n-gram of length `N` whose second-to-last
word has history count 0 as a one-word key: every longer history of the n-gram
(its `j` words before the last one, `2 <= j <= N-1`) has history count 0 as
well, and `get_prob_witten_bell` returns the base-case value `P[1]` computed for
the last word of the n-gram, which is the value the pass `i = 1` stores. -/
theorem C27_full_backoff (params : AList (fun _ : String => String))
    (symTable : SymbolTable) (bosIdx eosIdx unkIdx : Int) (N : Nat) (delta : ℚ)
    (sentences : List (List Int)) (ngram : List Int) (hN : 2 ≤ N) (hlen : ngram.length = N)
    (hzero : (count_sentences (LangModel.fresh params symTable bosIdx eosIdx unkIdx N delta)
      sentences).m_histCounts.get_count (last_words 1 ngram.dropLast) = 0) :
    (∀ j, 2 ≤ j → j ≤ N - 1 →
      (count_sentences (LangModel.fresh params symTable bosIdx eosIdx unkIdx N delta)
        sentences).m_histCounts.get_count (last_words j ngram.dropLast) = 0) ∧
    get_prob_witten_bell (count_sentences
        (LangModel.fresh params symTable bosIdx eosIdx unkIdx N delta) sentences) ngram
      = witten_bell_P (count_sentences
        (LangModel.fresh params symTable bosIdx eosIdx unkIdx N delta) sentences) ngram 1 ∧
    get_prob_witten_bell (count_sentences
        (LangModel.fresh params symTable bosIdx eosIdx unkIdx N delta) sentences) ngram
      = witten_bell_first (count_sentences
        (LangModel.fresh params symTable bosIdx eosIdx unkIdx N delta) sentences) ngram := by
  have hc := counts_of_trained params symTable bosIdx eosIdx unkIdx N delta sentences
  obtain ⟨hn, _, _⟩ :=
    count_sentences_fields (LangModel.fresh params symTable bosIdx eosIdx unkIdx N delta)
      sentences
  generalize count_sentences (LangModel.fresh params symTable bosIdx eosIdx unkIdx N delta)
    sentences = lm at hc hn hzero
  have hn1 : lm.m_n = N := hn
  have hdl : ngram.dropLast.length = N - 1 := by simp [hlen]
  have hlong : ∀ j, 2 ≤ j → j ≤ N - 1 →
      lm.m_histCounts.get_count (last_words j ngram.dropLast) = 0 := by
    intro j hj2 hj
    apply hist_zero_of_last_word N sentences lm hc
    · rw [last_words_length j _ (by omega)]; exact hj2
    · rw [last_words_one_last_words j _ (by omega) (by omega)]; exact hzero
  have hall : ∀ j, 1 ≤ j → j ≤ N - 1 →
      lm.m_histCounts.get_count (last_words j ngram.dropLast) = 0 := by
    intro j hj1 hj
    rcases Nat.eq_or_lt_of_le hj1 with h | h
    · rw [← h]; exact hzero
    · exact hlong j h hj
  have hP : get_prob_witten_bell lm ngram = witten_bell_P lm ngram 1 := by
    rw [get_prob_witten_bell_eq_P lm ngram (by omega) (by omega), hn1]
    have := witten_bell_P_backoff lm ngram (N - 1) hall (N - 1) (le_refl _)
    have e : N - 1 + 1 = N := by omega
    rw [e] at this
    exact this
  refine ⟨hlong, hP, ?_⟩
  rw [hP, wb_first_eq lm ngram (by omega) (by omega)]

/-- C27, on the model of order 3 trained on `[0,0,3,4,1]` and the trigram
`(7, 7, cat)`, whose second-to-last word `7` was never seen: the value is the
unigram estimate of `cat`. -/
theorem C27_full_backoff_witness :
    (trigram_model 1).m_histCounts.get_count [7, 7] = 0 ∧
    get_prob_witten_bell (trigram_model 1) [7, 7, 4]
      = witten_bell_P (trigram_model 1) [7, 7, 4] 1 :=
  ⟨(C27_full_backoff trigram_params scenario_vocab 0 1 2 3 1 [[0, 0, 3, 4, 1]] [7, 7, 4]
      (by decide) (by decide) (by decide)).1 2 (by decide) (by decide),
    (C27_full_backoff trigram_params scenario_vocab 0 1 2 3 1 [[0, 0, 3, 4, 1]] [7, 7, 4]
      (by decide) (by decide) (by decide)).2.1⟩

/-! ## Sums over the vocabulary (C24, C25) -/

/-- In a model trained on sentences whose symbols lie in `1..V`, the history
count looked up for a history without the symbol 0 is the sum, over the words
`w` in `1..V`, of the predictive counts of the history followed by `w`. -/
theorem hist_eq_sum_pred (N V : Nat) (sentences : List (List Int)) (lm : LangModel)
    (hc : counts_of lm (corpus_ngrams N sentences))
    (hsym : ∀ s ∈ sentences, ∀ x ∈ s, 1 ≤ x ∧ x ≤ (V : Int))
    (h : List Int) (hh : ∀ x ∈ h, (1 : Int) ≤ x) :
    lm.m_histCounts.get_count (history_key h)
      = ∑ w in Finset.Icc (1 : Int) (V : Int), lm.m_predCounts.get_count (h ++ [w]) := by
  have hE := corpus_ngrams_ne_nil N sentences
  have hsupp : ∀ K : List Int,
      (Function.support fun w : Int => lm.m_predCounts.get_count (K ++ [w]))
        ⊆ ↑(Finset.Icc (1 : Int) (V : Int)) := by
    intro K w hw
    simp only [Function.mem_support, ne_eq] at hw
    rw [(hc _).1, List.count_eq_zero, not_not] at hw
    obtain ⟨s, hs, hx⟩ := mem_of_mem_corpus_ngrams N sentences _ hw w (by simp)
    simp only [Finset.coe_Icc, Set.mem_Icc]
    exact hsym s hs w hx
  have hno0 : ∀ g ∈ corpus_ngrams N sentences, (0 : Int) ∉ g := by
    intro g hg hmem
    obtain ⟨s, hs, hx⟩ := mem_of_mem_corpus_ngrams N sentences g hg 0 hmem
    have := (hsym s hs 0 hx).1
    omega
  rw [hist_eq_finsum lm _ hc hE (history_key h)]
  by_cases hnil : h = []
  · subst hnil
    have hk : history_key [] = temp_eps := rfl
    rw [hk, if_pos rfl, if_pos (by decide)]
    have hzero : (fun w : Int => lm.m_predCounts.get_count (temp_eps ++ [w])) = fun _ => 0 := by
      funext w
      rw [(hc _).1, List.count_eq_zero]
      intro hmem
      exact hno0 _ hmem (by simp [temp_eps])
    rw [hzero, finsum_zero, add_zero]
    have := finsum_eq_sum_of_support_subset _ (hsupp [])
    simpa using this
  · have hk : history_key h = h := by unfold history_key; rw [if_neg hnil]
    have hne : h ≠ temp_eps := by
      intro he
      have := hh 0 (by rw [he]; simp [temp_eps])
      omega
    have hlen : 1 ≤ h.length := List.length_pos.mpr hnil
    rw [hk, if_neg hne, if_pos hlen, zero_add]
    exact finsum_eq_sum_of_support_subset _ (hsupp h)

theorem hist_eq_sum_pred_cast (N V : Nat) (sentences : List (List Int)) (lm : LangModel)
    (hc : counts_of lm (corpus_ngrams N sentences))
    (hsym : ∀ s ∈ sentences, ∀ x ∈ s, 1 ≤ x ∧ x ≤ (V : Int))
    (h : List Int) (hh : ∀ x ∈ h, (1 : Int) ≤ x) :
    ∑ w in Finset.Icc (1 : Int) (V : Int), (lm.m_predCounts.get_count (h ++ [w]) : ℚ)
      = (lm.m_histCounts.get_count (history_key h) : ℚ) := by
  rw [hist_eq_sum_pred N V sentences lm hc hsym h hh]
  push_cast
  rfl

theorem card_vocabulary (V : Nat) : (Finset.Icc (1 : Int) (V : Int)).card = V := by
  rw [Int.card_Icc]
  omega

theorem interpolation_sum (W : Finset Int) (C D : ℚ) (p f : Int → ℚ) (hC : 0 < C)
    (hD : 0 ≤ D) (hp : ∑ w in W, p w = C) (hf : ∑ w in W, f w = 1) :
    ∑ w in W, (C / (C + D) * (p w / C) + D / (C + D) * f w) = 1 := by
  have hCD : C + D ≠ 0 := by
    intro h; linarith
  rw [Finset.sum_add_distrib, ← Finset.mul_sum, ← Finset.mul_sum, ← Finset.sum_div, hp, hf,
    div_self (ne_of_gt hC), mul_one, mul_one, ← add_div, div_self hCD]

theorem last_words_snoc (k : Nat) (h : List Int) (w : Int) (hk : k ≤ h.length) :
    last_words (k + 1) (h ++ [w]) = last_words k h ++ [w] := by
  unfold last_words
  have e : (h ++ [w]).length - (k + 1) = h.length - k := by simp
  rw [e, List.drop_append_of_le_length (by omega)]

theorem mem_of_mem_last_words (k : Nat) (h : List Int) (x : Int)
    (hx : x ∈ last_words k h) : x ∈ h := by
  unfold last_words at hx
  exact List.mem_of_mem_drop hx

/-- The levels of the interpolation, as functions of the last word, sum to 1
over the vocabulary. -/
theorem witten_bell_P_sum (lm : LangModel) (V : Nat) (h : List Int)
    (hsum : ∀ K : List Int, (∀ x ∈ K, (1 : Int) ≤ x) →
      ∑ w in Finset.Icc (1 : Int) (V : Int), (lm.m_predCounts.get_count (K ++ [w]) : ℚ)
        = (lm.m_histCounts.get_count (history_key K) : ℚ))
    (hC : 1 ≤ lm.m_histCounts.get_count temp_eps) (hV : 1 ≤ V)
    (hsize : lm.m_symTable.size = (V : Int) + 1) (hh : ∀ x ∈ h, (1 : Int) ≤ x)
    (i : Nat) (hi : i ≤ h.length) :
    ∃ f : Int → ℚ,
      (∀ w ∈ Finset.Icc (1 : Int) (V : Int),
        witten_bell_P lm (h ++ [w]) (i + 1) = some (f w)) ∧
      ∑ w in Finset.Icc (1 : Int) (V : Int), f w = 1 := by
  induction i with
  | zero =>
    have hCq : (0 : ℚ) < (lm.m_histCounts.get_count temp_eps : ℚ) := by exact_mod_cast hC
    have hDq : (0 : ℚ) ≤ (lm.m_histOnePlusCounts.get_count temp_eps : ℚ) := Nat.cast_nonneg _
    have hVq : ((lm.m_symTable.size - 1 : Int) : ℚ) = (V : ℚ) := by
      rw [hsize]; push_cast; ring
    have hVpos : (0 : ℚ) < (V : ℚ) := by exact_mod_cast hV
    have hp := hsum [] (by simp)
    simp only [List.nil_append] at hp
    have hk : history_key [] = temp_eps := rfl
    rw [hk] at hp
    have hconst : ∑ _w in Finset.Icc (1 : Int) (V : Int), (1 / (V : ℚ)) = 1 := by
      rw [Finset.sum_const, card_vocabulary, nsmul_eq_mul]
      field_simp
    refine ⟨fun w => (lm.m_histCounts.get_count temp_eps : ℚ)
        / ((lm.m_histCounts.get_count temp_eps : ℚ)
          + (lm.m_histOnePlusCounts.get_count temp_eps : ℚ))
        * ((lm.m_predCounts.get_count [w] : ℚ) / (lm.m_histCounts.get_count temp_eps : ℚ))
      + (lm.m_histOnePlusCounts.get_count temp_eps : ℚ)
        / ((lm.m_histCounts.get_count temp_eps : ℚ)
          + (lm.m_histOnePlusCounts.get_count temp_eps : ℚ))
        * (1 / (V : ℚ)), ?_, ?_⟩
    · intro w _
      have e1 : ¬ ((lm.m_histCounts.get_count temp_eps : ℚ)
          + (lm.m_histOnePlusCounts.get_count temp_eps : ℚ) = 0) := by
        intro h0; linarith
      have e2 : ¬ ((lm.m_histCounts.get_count temp_eps : ℚ) = 0) := ne_of_gt hCq
      have e3 : ¬ ((V : ℚ) = 0) := ne_of_gt hVpos
      have hl : last_words 1 (h ++ [w]) = [w] := by
        simp [last_words]
      show witten_bell_P lm (h ++ [w]) 1 = _
      unfold witten_bell_P
      simp only [hl, hVq, fdiv, fmul, fadd, e1, e2, e3, if_false]
    · exact interpolation_sum _ _ _ _ _ hCq hDq hp hconst
  | succ k ih =>
    obtain ⟨f, hf, hfsum⟩ := ih (by omega)
    have hdl : ∀ w : Int, (h ++ [w]).dropLast = h := by
      intro w; simp
    have hKmem : ∀ x ∈ last_words (k + 1) h, (1 : Int) ≤ x :=
      fun x hx => hh x (mem_of_mem_last_words _ _ _ hx)
    have hKne : last_words (k + 1) h ≠ [] := by
      intro h0
      have := last_words_length (k + 1) h hi
      rw [h0] at this
      simp at this
    have hkey : history_key (last_words (k + 1) h) = last_words (k + 1) h := by
      unfold history_key; rw [if_neg hKne]
    have hp := hsum (last_words (k + 1) h) hKmem
    rw [hkey] at hp
    by_cases hz : (lm.m_histCounts.get_count (last_words (k + 1) h) : ℚ) = 0
    · refine ⟨f, ?_, hfsum⟩
      intro w hw
      show witten_bell_P lm (h ++ [w]) ((k + 1) + 1) = _
      unfold witten_bell_P
      simp only [hdl]
      rw [if_pos hz]
      exact hf w hw
    · have hCq : (0 : ℚ) < (lm.m_histCounts.get_count (last_words (k + 1) h) : ℚ) :=
        lt_of_le_of_ne (Nat.cast_nonneg _) (Ne.symm hz)
      have hDq : (0 : ℚ) ≤ (lm.m_histOnePlusCounts.get_count (last_words (k + 1) h) : ℚ) :=
        Nat.cast_nonneg _
      refine ⟨fun w => (lm.m_histCounts.get_count (last_words (k + 1) h) : ℚ)
          / ((lm.m_histCounts.get_count (last_words (k + 1) h) : ℚ)
            + (lm.m_histOnePlusCounts.get_count (last_words (k + 1) h) : ℚ))
          * ((lm.m_predCounts.get_count (last_words (k + 1) h ++ [w]) : ℚ)
            / (lm.m_histCounts.get_count (last_words (k + 1) h) : ℚ))
        + (lm.m_histOnePlusCounts.get_count (last_words (k + 1) h) : ℚ)
          / ((lm.m_histCounts.get_count (last_words (k + 1) h) : ℚ)
            + (lm.m_histOnePlusCounts.get_count (last_words (k + 1) h) : ℚ))
          * f w, ?_, ?_⟩
      · intro w hw
        have e1 : ¬ ((lm.m_histCounts.get_count (last_words (k + 1) h) : ℚ)
            + (lm.m_histOnePlusCounts.get_count (last_words (k + 1) h) : ℚ) = 0) := by
          intro h0; linarith
        have hl : last_words (k + 2) (h ++ [w]) = last_words (k + 1) h ++ [w] :=
          last_words_snoc (k + 1) h w hi
        show witten_bell_P lm (h ++ [w]) ((k + 1) + 1) = _
        unfold witten_bell_P
        simp only [hdl]
        rw [if_neg hz, hf w hw, hl]
        simp only [fdiv, fmul, fadd, e1, hz, if_false]
      · exact interpolation_sum _ _ _ _ _ hCq hDq hp hfsum

/-- C24, amended. For every order `N >= 1`, every symbol table of size `V+1`
with `V >= 1`, every list of padded sentences whose symbols all lie in `1..V`
and in which at least one position is counted, and every history of length
`N-1` whose symbols all lie in `1..V`: the interpolation that
`get_prob_witten_bell` evaluates, its quotients, products and sums taken exactly
(without the rounding of `double` arithmetic), gives a number for the history
followed by each word `w` of `1..V`, and these numbers sum to 1. -/
theorem C24_witten_bell_sums_to_one (params : AList (fun _ : String => String))
    (symTable : SymbolTable) (bosIdx eosIdx unkIdx : Int) (N V : Nat) (delta : ℚ)
    (sentences : List (List Int)) (h : List Int)
    (hN : 1 ≤ N) (hV : 1 ≤ V) (hsize : symTable.size = (V : Int) + 1)
    (hsym : ∀ s ∈ sentences, ∀ x ∈ s, 1 ≤ x ∧ x ≤ (V : Int))
    (hcounted : 1 ≤ (count_sentences
      (LangModel.fresh params symTable bosIdx eosIdx unkIdx N delta)
      sentences).m_histCounts.get_count temp_eps)
    (hlen : h.length = N - 1) (hh : ∀ x ∈ h, 1 ≤ x ∧ x ≤ (V : Int)) :
    ∃ f : Int → ℚ,
      (∀ w ∈ Finset.Icc (1 : Int) (V : Int),
        get_prob_witten_bell (count_sentences
          (LangModel.fresh params symTable bosIdx eosIdx unkIdx N delta) sentences)
          (h ++ [w]) = some (f w)) ∧
      ∑ w in Finset.Icc (1 : Int) (V : Int), f w = 1 := by
  have hc := counts_of_trained params symTable bosIdx eosIdx unkIdx N delta sentences
  obtain ⟨hn, _, hst⟩ :=
    count_sentences_fields (LangModel.fresh params symTable bosIdx eosIdx unkIdx N delta)
      sentences
  generalize count_sentences (LangModel.fresh params symTable bosIdx eosIdx unkIdx N delta)
    sentences = lm at hc hn hst hcounted
  have hn1 : lm.m_n = N := hn
  have hs1 : lm.m_symTable = symTable := hst
  obtain ⟨f, hf, hfsum⟩ := witten_bell_P_sum lm V h
    (fun K hK => hist_eq_sum_pred_cast N V sentences lm hc hsym K hK) hcounted hV
    (by rw [hs1]; exact hsize) (fun x hx => (hh x hx).1) (N - 1) (by omega)
  refine ⟨f, ?_, hfsum⟩
  intro w hw
  have hl : (h ++ [w]).length = lm.m_n := by simp [hlen, hn1]; omega
  rw [get_prob_witten_bell_eq_P lm (h ++ [w]) (by omega) hl, hn1]
  have e : N - 1 + 1 = N := by omega
  rw [← e]
  exact hf w hw

/-- C24 (amended), on the model of order 2 trained on `[1,4,2]` over a
vocabulary of size 6 (`V = 5`) and the history `(the) = [4]`: the exact values
sum to 1 (rounded, they do not). -/
theorem C24_witten_bell_sums_to_one_witness :
    ∃ f : Int → ℚ,
      (∀ w ∈ Finset.Icc (1 : Int) ((5 : Nat) : Int),
        get_prob_witten_bell (one_word_model (-1)) ([4] ++ [w]) = some (f w)) ∧
      ∑ w in Finset.Icc (1 : Int) ((5 : Nat) : Int), f w = 1 :=
  C24_witten_bell_sums_to_one scenario_params epsilon_vocab 1 2 3 2 5 (-1) [[1, 4, 2]] [4]
    (by decide) (by decide) (by decide) (by decide) (by decide) (by decide) (by decide)

/-- C25, amended. For every order `N >= 1`, every symbol table of size `V+1`
with `V >= 1`, every `delta >= 0`, every list of padded sentences whose symbols
all lie in `1..V`, and every history of length `N-1` whose symbols all lie in
`1..V` and for which `historyCount(history) + delta*V > 0` (the history of
length 0 being looked up under `[0]`): the quotient that `get_prob_plus_delta`
evaluates, taken exactly (without the rounding of `double` arithmetic), is a
number for the history followed by each word `w` of `1..V`, and these numbers
sum to 1. -/
theorem C25_plus_delta_sums_to_one (params : AList (fun _ : String => String))
    (symTable : SymbolTable) (bosIdx eosIdx unkIdx : Int) (N V : Nat) (delta : ℚ)
    (sentences : List (List Int)) (h : List Int)
    (hN : 1 ≤ N) (_hV : 1 ≤ V) (hsize : symTable.size = (V : Int) + 1) (_hd : 0 ≤ delta)
    (hsym : ∀ s ∈ sentences, ∀ x ∈ s, 1 ≤ x ∧ x ≤ (V : Int))
    (hlen : h.length = N - 1) (hh : ∀ x ∈ h, 1 ≤ x ∧ x ≤ (V : Int))
    (hden : 0 < ((count_sentences
        (LangModel.fresh params symTable bosIdx eosIdx unkIdx N delta)
        sentences).m_histCounts.get_count (history_key h) : ℚ) + delta * (V : ℚ)) :
    ∃ f : Int → ℚ,
      (∀ w ∈ Finset.Icc (1 : Int) (V : Int),
        get_prob_plus_delta (count_sentences
          (LangModel.fresh params symTable bosIdx eosIdx unkIdx N delta) sentences)
          (h ++ [w]) = some (f w)) ∧
      ∑ w in Finset.Icc (1 : Int) (V : Int), f w = 1 := by
  have hc := counts_of_trained params symTable bosIdx eosIdx unkIdx N delta sentences
  obtain ⟨hn, hdl, hst⟩ :=
    count_sentences_fields (LangModel.fresh params symTable bosIdx eosIdx unkIdx N delta)
      sentences
  generalize count_sentences (LangModel.fresh params symTable bosIdx eosIdx unkIdx N delta)
    sentences = lm at hc hn hdl hst hden
  have hn1 : lm.m_n = N := hn
  have hd1 : lm.m_delta = delta := hdl
  have hs1 : lm.m_symTable = symTable := hst
  have hVq : ((lm.m_symTable.size - 1 : Int) : ℚ) = (V : ℚ) := by
    rw [hs1, hsize]; push_cast; ring
  have hp := hist_eq_sum_pred_cast N V sentences lm hc hsym h (fun x hx => (hh x hx).1)
  refine ⟨fun w => ((lm.m_predCounts.get_count (h ++ [w]) : ℚ) + delta)
      / ((lm.m_histCounts.get_count (history_key h) : ℚ) + delta * (V : ℚ)), ?_, ?_⟩
  · intro w _
    have hl : (h ++ [w]).length = lm.m_n := by simp [hlen, hn1]; omega
    have hdrop : (h ++ [w]).dropLast = h := by simp
    have hne : (lm.m_histCounts.get_count (history_key (h ++ [w]).dropLast) : ℚ)
        + lm.m_delta * ((lm.m_symTable.size - 1 : Int) : ℚ) ≠ 0 := by
      rw [hdrop, hd1, hVq]; exact ne_of_gt hden
    rw [plus_delta_value lm (h ++ [w]) (by omega) hl hne, hdrop, hd1, hVq]
  · rw [← Finset.sum_div, Finset.sum_add_distrib, hp, Finset.sum_const, card_vocabulary,
      nsmul_eq_mul, mul_comm (V : ℚ) delta]
    exact div_self (ne_of_gt hden)

/-- C25 (amended), on the model of order 2 trained on `[1,4,2]` over a
vocabulary of size 6 (`V = 5`), with `delta = 1` and the history `(the) = [4]`:
the exact values sum to 1 (rounded, they do not). -/
theorem C25_plus_delta_sums_to_one_witness :
    ∃ f : Int → ℚ,
      (∀ w ∈ Finset.Icc (1 : Int) ((5 : Nat) : Int),
        get_prob_plus_delta (one_word_model 1) ([4] ++ [w]) = some (f w)) ∧
      ∑ w in Finset.Icc (1 : Int) ((5 : Nat) : Int), f w = 1 :=
  C25_plus_delta_sums_to_one scenario_params epsilon_vocab 1 2 3 2 5 1 [[1, 4, 2]] [4]
    (by decide) (by decide) (by decide) (by norm_num) (by decide) (by decide) (by decide)
    (by
      have : (count_sentences (LangModel.fresh scenario_params epsilon_vocab 1 2 3 2 1)
          [[1, 4, 2]]).m_histCounts.get_count (history_key [4]) = 1 := by decide
      rw [this]; norm_num)

/-! ## The rounding to the nearest `double` -/

theorem bit_length_bound_spec (n : Nat) (fuel k0 : Nat) (h : n < 2 ^ 2 ^ (k0 + fuel)) :
    n < 2 ^ 2 ^ bit_length_bound n fuel k0 := by
  induction fuel generalizing k0 with
  | zero => simpa [bit_length_bound] using h
  | succ fuel ih =>
    unfold bit_length_bound
    split_ifs with h1
    · exact h1
    · apply ih
      have e : k0 + 1 + fuel = k0 + (fuel + 1) := by omega
      rw [e]; exact h

theorem bit_length_search_spec (n : Nat) (k acc : Nat) (h1 : 2 ^ acc ≤ n)
    (h2 : n < 2 ^ (acc + 2 ^ k)) :
    2 ^ bit_length_search n k acc ≤ n ∧ n < 2 ^ (bit_length_search n k acc + 1) := by
  induction k generalizing acc with
  | zero => exact ⟨h1, by simpa [bit_length_search] using h2⟩
  | succ k ih =>
    unfold bit_length_search
    split_ifs with h3
    · exact ih acc h1 h3
    · apply ih (acc + 2 ^ k) (by omega)
      have e : acc + 2 ^ k + 2 ^ k = acc + 2 ^ (k + 1) := by rw [pow_succ]; omega
      rw [e]; exact h2

theorem bit_length_spec (n : Nat) (hn : 0 < n) :
    2 ^ (bit_length n - 1) ≤ n ∧ n < 2 ^ bit_length n := by
  unfold bit_length
  rw [if_neg (by omega)]
  have hb : n < 2 ^ 2 ^ bit_length_bound n n 0 := by
    apply bit_length_bound_spec
    rw [Nat.zero_add]
    calc n < 2 ^ n := Nat.lt_two_pow n
      _ ≤ 2 ^ 2 ^ n := Nat.pow_le_pow_right (by omega) (le_of_lt (Nat.lt_two_pow n))
  have hs := bit_length_search_spec n (bit_length_bound n n 0) 0 (by simpa using hn)
    (by rw [Nat.zero_add]; exact hb)
  simpa using hs

theorem bit_length_pos (n : Nat) (hn : 0 < n) : 1 ≤ bit_length n := by
  unfold bit_length
  rw [if_neg (by omega)]
  omega

/-- The powers of two that frame a positive natural number, in `ℚ`. -/
theorem bit_length_zpow (n : Nat) (hn : 0 < n) :
    (2 : ℚ) ^ ((bit_length n : Int) - 1) ≤ (n : ℚ) ∧ (n : ℚ) < (2 : ℚ) ^ (bit_length n : Int) := by
  obtain ⟨h1, h2⟩ := bit_length_spec n hn
  have hp := bit_length_pos n hn
  constructor
  · have e : ((bit_length n : Int) - 1) = ((bit_length n - 1 : Nat) : Int) := by omega
    rw [e, zpow_natCast]
    exact_mod_cast h1
  · rw [zpow_natCast]
    exact_mod_cast h2

theorem zpow_two_pos (e : Int) : (0 : ℚ) < (2 : ℚ) ^ e := zpow_pos (by norm_num) e

theorem quotient_exponent_spec (n d : Nat) (hn : 0 < n) (hd : 0 < d) :
    (2 : ℚ) ^ quotient_exponent n d ≤ (n : ℚ) / d
      ∧ (n : ℚ) / d < (2 : ℚ) ^ (quotient_exponent n d + 1) := by
  obtain ⟨n1, n2⟩ := bit_length_zpow n hn
  obtain ⟨d1, d2⟩ := bit_length_zpow d hd
  have hdq : (0 : ℚ) < d := by exact_mod_cast hd
  have hnq : (0 : ℚ) < n := by exact_mod_cast hn
  -- the quotient lies between 2^(t-1) and 2^(t+1)
  have lo : (2 : ℚ) ^ ((bit_length n : Int) - (bit_length d : Int) - 1) ≤ (n : ℚ) / d := by
    rw [le_div_iff₀ hdq]
    have e : ((bit_length n : Int) - (bit_length d : Int) - 1)
        = ((bit_length n : Int) - 1) - (bit_length d : Int) := by ring
    rw [e, zpow_sub₀ (by norm_num : (2 : ℚ) ≠ 0), div_mul_eq_mul_div, div_le_iff₀ (zpow_two_pos _)]
    calc (2 : ℚ) ^ ((bit_length n : Int) - 1) * d
        ≤ (2 : ℚ) ^ ((bit_length n : Int) - 1) * (2 : ℚ) ^ (bit_length d : Int) :=
          mul_le_mul_of_nonneg_left (le_of_lt d2) (le_of_lt (zpow_two_pos _))
      _ ≤ n * (2 : ℚ) ^ (bit_length d : Int) :=
          mul_le_mul_of_nonneg_right n1 (le_of_lt (zpow_two_pos _))
  have hi : (n : ℚ) / d < (2 : ℚ) ^ ((bit_length n : Int) - (bit_length d : Int) + 1) := by
    rw [div_lt_iff₀ hdq]
    have e : ((bit_length n : Int) - (bit_length d : Int) + 1)
        = (bit_length n : Int) - ((bit_length d : Int) - 1) := by ring
    rw [e, zpow_sub₀ (by norm_num : (2 : ℚ) ≠ 0), div_mul_eq_mul_div, lt_div_iff₀ (zpow_two_pos _)]
    calc (n : ℚ) * (2 : ℚ) ^ ((bit_length d : Int) - 1)
        ≤ n * d := mul_le_mul_of_nonneg_left d1 (le_of_lt hnq)
      _ < (2 : ℚ) ^ (bit_length n : Int) * d := mul_lt_mul_of_pos_right n2 hdq
  -- the test `below`
  have hbelow : ∀ t : Int,
      ((if 0 ≤ t then decide (n < d * 2 ^ t.toNat) else decide (n * 2 ^ (-t).toNat < d)) = true)
        ↔ (n : ℚ) / d < (2 : ℚ) ^ t := by
    intro t
    rw [div_lt_iff₀ hdq]
    split_ifs with ht
    · have e : t = (t.toNat : Int) := by omega
      rw [decide_eq_true_eq]
      conv_rhs => rw [e, zpow_natCast]
      constructor
      · intro h
        have : ((n : Nat) : ℚ) < ((d * 2 ^ t.toNat : Nat) : ℚ) := by exact_mod_cast h
        push_cast at this
        linarith
      · intro h
        have : ((n : Nat) : ℚ) < ((d * 2 ^ t.toNat : Nat) : ℚ) := by
          push_cast; linarith
        exact_mod_cast this
    · have e : t = -((-t).toNat : Int) := by omega
      rw [decide_eq_true_eq]
      conv_rhs => rw [e, zpow_neg, zpow_natCast]
      have hp : (0 : ℚ) < (2 : ℚ) ^ (-t).toNat := by positivity
      rw [inv_mul_eq_div, lt_div_iff₀ hp]
      constructor
      · intro h
        have : ((n * 2 ^ (-t).toNat : Nat) : ℚ) < ((d : Nat) : ℚ) := by exact_mod_cast h
        push_cast at this
        exact this
      · intro h
        have : ((n * 2 ^ (-t).toNat : Nat) : ℚ) < ((d : Nat) : ℚ) := by
          push_cast; exact h
        exact_mod_cast this
  unfold quotient_exponent
  simp only []
  by_cases hx : (n : ℚ) / d < (2 : ℚ) ^ ((bit_length n : Int) - (bit_length d : Int))
  · rw [if_pos ((hbelow _).mpr hx)]
    refine ⟨lo, ?_⟩
    have e : (bit_length n : Int) - (bit_length d : Int) - 1 + 1
        = (bit_length n : Int) - (bit_length d : Int) := by ring
    rw [e]; exact hx
  · rw [if_neg (fun h => hx ((hbelow _).mp h))]
    exact ⟨not_lt.mp hx, hi⟩

theorem nearest_integer_spec (num den : Nat) (hden : 0 < den) :
    |(((if 2 * (num % den) > den then num / den + 1
        else if 2 * (num % den) = den then num / den + (num / den) % 2 else num / den : Nat) : ℚ)
      - (num : ℚ) / den)| ≤ 1 / 2 := by
  have hdq : (0 : ℚ) < den := by exact_mod_cast hden
  have hr : num % den < den := Nat.mod_lt _ hden
  have hsplit : (num : ℚ) = (den : ℚ) * ((num / den : Nat) : ℚ) + ((num % den : Nat) : ℚ) := by
    exact_mod_cast (Nat.div_add_mod num den).symm
  have hx : (num : ℚ) / den = ((num / den : Nat) : ℚ) + ((num % den : Nat) : ℚ) / den := by
    rw [hsplit]
    field_simp
    ring
  have hrq : ((num % den : Nat) : ℚ) < den := by exact_mod_cast hr
  have hr0 : (0 : ℚ) ≤ ((num % den : Nat) : ℚ) := Nat.cast_nonneg _
  rw [hx, abs_le]
  split_ifs with h1 h2
  · have h1q : (den : ℚ) < 2 * ((num % den : Nat) : ℚ) := by exact_mod_cast h1
    have hρ1 : (1 : ℚ) / 2 < ((num % den : Nat) : ℚ) / den := by
      rw [lt_div_iff₀ hdq]; linarith
    have hρ2 : ((num % den : Nat) : ℚ) / den < 1 := by
      rw [div_lt_iff₀ hdq]; linarith
    push_cast
    constructor <;> linarith
  · have h2q : 2 * ((num % den : Nat) : ℚ) = (den : ℚ) := by exact_mod_cast h2
    have hρ : ((num % den : Nat) : ℚ) / den = 1 / 2 := by
      rw [div_eq_iff (ne_of_gt hdq)]; linarith
    have hm : (num / den) % 2 = 0 ∨ (num / den) % 2 = 1 := by omega
    push_cast
    rw [hρ]
    rcases hm with hm | hm
    · have : (((num / den) % 2 : Nat) : ℚ) = 0 := by exact_mod_cast hm
      push_cast at this
      constructor <;> linarith
    · have : (((num / den) % 2 : Nat) : ℚ) = 1 := by exact_mod_cast hm
      push_cast at this
      constructor <;> linarith
  · have h3 : 2 * (num % den) < den := by omega
    have h3q : 2 * ((num % den : Nat) : ℚ) < (den : ℚ) := by exact_mod_cast h3
    have hρ1 : ((num % den : Nat) : ℚ) / den < 1 / 2 := by
      rw [div_lt_iff₀ hdq]; linarith
    have hρ0 : (0 : ℚ) ≤ ((num % den : Nat) : ℚ) / den := div_nonneg hr0 (le_of_lt hdq)
    constructor <;> linarith

theorem round_quotient_spec (n d : Nat) (u : Int) (hd : 0 < d) :
    |((round_quotient n d u : Nat) : ℚ) - (n : ℚ) / d / (2 : ℚ) ^ u| ≤ 1 / 2 := by
  have hdq : (0 : ℚ) < d := by exact_mod_cast hd
  unfold round_quotient
  simp only []
  by_cases hu : u ≤ 0
  · rw [if_pos hu, if_pos hu]
    have e : u = -((-u).toNat : Int) := by omega
    have hs : (n : ℚ) / d / (2 : ℚ) ^ u = ((n * 2 ^ (-u).toNat : Nat) : ℚ) / d := by
      conv_lhs => rw [e, zpow_neg, zpow_natCast]
      push_cast
      field_simp
    rw [hs]
    exact nearest_integer_spec _ _ hd
  · rw [if_neg hu, if_neg hu]
    have e : u = (u.toNat : Int) := by omega
    have hs : (n : ℚ) / d / (2 : ℚ) ^ u = (n : ℚ) / ((d * 2 ^ u.toNat : Nat) : ℚ) := by
      conv_lhs => rw [e, zpow_natCast]
      push_cast
      field_simp
    rw [hs]
    exact nearest_integer_spec _ _ (Nat.mul_pos hd (by positivity))

/-- What `round_significand` yields for a positive quotient `n / d`: an exponent
`u >= -1074` and an integer `m <= 2^53` with `m * 2^u` within half a unit of the
last place, `2^u / 2`, of `n / d`; and the last place is the 53rd binary digit
of `n / d` unless this lies below `2^-1074`. -/
theorem round_significand_spec (n d : Nat) (hn : 0 < n) (hd : 0 < d) :
    -1074 ≤ (round_significand n d).2 ∧
    (round_significand n d).1 ≤ 2 ^ 53 ∧
    |((round_significand n d).1 : ℚ) * (2 : ℚ) ^ (round_significand n d).2 - (n : ℚ) / d|
      ≤ (2 : ℚ) ^ (round_significand n d).2 / 2 ∧
    ((round_significand n d).2 = -1074
      ∨ (2 : ℚ) ^ ((round_significand n d).2 + 52) ≤ (n : ℚ) / d) := by
  obtain ⟨e1, e2⟩ := quotient_exponent_spec n d hn hd
  have hq := round_quotient_spec n d (max (quotient_exponent n d - 52) (-1074)) hd
  unfold round_significand
  simp only []
  generalize hu : max (quotient_exponent n d - 52) (-1074) = u at hq ⊢
  have hu1 : -1074 ≤ u := by rw [← hu]; exact le_max_right _ _
  have hu2 : quotient_exponent n d - 52 ≤ u := by rw [← hu]; exact le_max_left _ _
  have hp : (0 : ℚ) < (2 : ℚ) ^ u := zpow_two_pos u
  have hclose : |((round_quotient n d u : Nat) : ℚ) * (2 : ℚ) ^ u - (n : ℚ) / d|
      ≤ (2 : ℚ) ^ u / 2 := by
    have : ((round_quotient n d u : Nat) : ℚ) * (2 : ℚ) ^ u - (n : ℚ) / d
        = (((round_quotient n d u : Nat) : ℚ) - (n : ℚ) / d / (2 : ℚ) ^ u) * (2 : ℚ) ^ u := by
      field_simp
      ring
    rw [this, abs_mul, abs_of_pos hp]
    calc |((round_quotient n d u : Nat) : ℚ) - (n : ℚ) / d / (2 : ℚ) ^ u| * (2 : ℚ) ^ u
        ≤ 1 / 2 * (2 : ℚ) ^ u := mul_le_mul_of_nonneg_right hq (le_of_lt hp)
      _ = (2 : ℚ) ^ u / 2 := by ring
  refine ⟨hu1, ?_, hclose, ?_⟩
  · -- the rounded integer is at most 2^53
    have hlt : (n : ℚ) / d / (2 : ℚ) ^ u < (2 : ℚ) ^ (53 : Int) := by
      rw [div_lt_iff₀ hp, ← zpow_add₀ (by norm_num : (2 : ℚ) ≠ 0)]
      calc (n : ℚ) / d < (2 : ℚ) ^ (quotient_exponent n d + 1) := e2
        _ ≤ (2 : ℚ) ^ (53 + u) := zpow_le_zpow_right₀ (by norm_num) (by omega)
    have hm : ((round_quotient n d u : Nat) : ℚ) < (2 : ℚ) ^ (53 : Int) + 1 := by
      have := (abs_le.mp hq).2
      linarith
    have e : (2 : ℚ) ^ (53 : Int) = 9007199254740992 := by norm_num
    rw [e] at hm
    have hm2 : ((round_quotient n d u : Nat) : ℚ) < ((9007199254740993 : Nat) : ℚ) := by
      push_cast
      linarith
    have hm3 : round_quotient n d u < 9007199254740993 := by exact_mod_cast hm2
    have e2 : (2 : Nat) ^ 53 = 9007199254740992 := by norm_num
    omega
  · by_cases hc : -1074 ≤ quotient_exponent n d - 52
    · right
      have : u = quotient_exponent n d - 52 := by rw [← hu]; exact max_eq_left hc
      rw [this]
      have e : quotient_exponent n d - 52 + 52 = quotient_exponent n d := by ring
      rw [e]; exact e1
    · left
      rw [← hu]; exact max_eq_right (by omega)

theorem abs_eq_natAbs_div_den (x : ℚ) : |x| = (x.num.natAbs : ℚ) / (x.den : ℚ) := by
  have hd : (0 : ℚ) < x.den := by exact_mod_cast x.den_pos
  conv_lhs => rw [← Rat.num_div_den x]
  rw [abs_div, abs_of_pos hd]
  rw [Nat.cast_natAbs, Int.cast_abs]

theorem cast_mul_pow_lt (m k E : Nat) (h : m * 2 ^ k < 2 ^ E) :
    (m : ℚ) * (2 : ℚ) ^ k < (2 : ℚ) ^ E := by
  exact_mod_cast h

/-- What `round_double` yields for a number `x` other than 0, when the result is
finite: a number `y` of the sign of `x` whose magnitude is `m * 2^u` with
`m <= 2^53` and `u >= -1074`, is below `2^1024`, and lies within half a unit of
the last place, `2^u / 2`, of the magnitude of `x`; the last place `u` is the
53rd binary digit of `x` (`2^(u+52) <= |x|`) unless that lies below `2^-1074`. -/
theorem round_double_spec (x y : ℚ) (hx : x ≠ 0) (h : round_double x = some y) :
    ∃ (m : Nat) (u : Int),
      |y| = (m : ℚ) * (2 : ℚ) ^ u ∧ m ≤ 2 ^ 53 ∧ -1074 ≤ u ∧ |y| < (2 : ℚ) ^ 1024 ∧
      |(|y| - |x|)| ≤ (2 : ℚ) ^ u / 2 ∧ (u = -1074 ∨ (2 : ℚ) ^ (u + 52) ≤ |x|) ∧
      (0 < x → 0 ≤ y) ∧ (x < 0 → y ≤ 0) := by
  have hn : 0 < x.num.natAbs := Int.natAbs_pos.mpr (Rat.num_ne_zero.mpr hx)
  have hd : 0 < x.den := x.den_pos
  obtain ⟨s1, s2, s3, s4⟩ := round_significand_spec x.num.natAbs x.den hn hd
  rw [← abs_eq_natAbs_div_den] at s3 s4
  unfold round_double at h
  simp only [] at h
  generalize round_significand x.num.natAbs x.den = r at h s1 s2 s3 s4
  obtain ⟨m, u⟩ := r
  simp only [] at h s1 s2 s3 s4
  by_cases hov : 0 ≤ u ∧ m * 2 ^ u.toNat ≥ 2 ^ 1024
  · rw [if_pos hov] at h
    exact absurd h (by simp)
  · rw [if_neg hov] at h
    have hmag : (if 0 ≤ u then ((m * 2 ^ u.toNat : Nat) : ℚ)
        else (m : ℚ) / ((2 ^ (-u).toNat : Nat) : ℚ)) = (m : ℚ) * (2 : ℚ) ^ u := by
      split_ifs with hu
      · have e : u = (u.toNat : Int) := by omega
        conv_rhs => rw [e, zpow_natCast]
        push_cast
        rfl
      · have e : u = -((-u).toNat : Int) := by omega
        conv_rhs => rw [e, zpow_neg, zpow_natCast]
        push_cast
        rw [div_eq_mul_inv]
    rw [hmag] at h
    have hp : (0 : ℚ) < (2 : ℚ) ^ u := zpow_two_pos u
    have hmag0 : (0 : ℚ) ≤ (m : ℚ) * (2 : ℚ) ^ u := mul_nonneg (Nat.cast_nonneg _) (le_of_lt hp)
    have hy : |y| = (m : ℚ) * (2 : ℚ) ^ u := by
      injection h with h
      rw [← h]
      split_ifs
      · rw [abs_neg, abs_of_nonneg hmag0]
      · rw [abs_of_nonneg hmag0]
    refine ⟨m, u, hy, s2, s1, ?_, ?_, s4, ?_, ?_⟩
    · rw [hy]
      by_cases hu : 0 ≤ u
      · have hlt : m * 2 ^ u.toNat < 2 ^ 1024 :=
          lt_of_not_le (fun hc => hov ⟨hu, hc⟩)
        have e : u = (u.toNat : Int) := (Int.toNat_of_nonneg hu).symm
        rw [e, zpow_natCast]
        exact cast_mul_pow_lt m u.toNat 1024 hlt
      · have h1 : (2 : ℚ) ^ u ≤ 1 := by
          have := zpow_le_zpow_right₀ (show (1 : ℚ) ≤ 2 by norm_num) (le_of_lt (not_le.mp hu))
          simpa using this
        have h2 : (m : ℚ) ≤ (2 : ℚ) ^ 53 := by
          have : ((m : Nat) : ℚ) ≤ ((2 ^ 53 : Nat) : ℚ) := Nat.cast_le.mpr s2
          simp only [Nat.cast_pow, Nat.cast_ofNat] at this
          exact this
        calc (m : ℚ) * (2 : ℚ) ^ u ≤ (m : ℚ) * 1 :=
              mul_le_mul_of_nonneg_left h1 (Nat.cast_nonneg _)
          _ = m := mul_one _
          _ ≤ (2 : ℚ) ^ 53 := h2
          _ < (2 : ℚ) ^ 1024 := pow_lt_pow_right₀ (by norm_num) (by norm_num)
    · rw [hy]; exact s3
    · intro hpos
      have hnum : ¬ x.num < 0 := by
        have := Rat.num_pos.mpr hpos
        omega
      injection h with h
      rw [← h, if_neg hnum]
      exact hmag0
    · intro hneg
      have hnum : x.num < 0 := Rat.num_neg.mpr hneg
      injection h with h
      rw [← h, if_pos hnum]
      linarith

/-- The rounding `round_double` on some numbers whose nearest `double` is known:
`0.1` and `1/3`; an `int`; the least positive `double` `2^-1074`, half of it
(a tie, rounded to the even neighbour 0) and three halves of it (a tie, rounded
to `2^-1073`); `2^53 + 1` (a tie, rounded to `2^53`) and `2^53 + 3` (rounded to
`2^53 + 4`); the greatest `double` `2^1024 - 2^971`, and the overflow from
`2^1024 - 2^970` on. -/
theorem round_double_examples :
    round_double 0 = some 0 ∧
    round_double (1 / 10) = some (3602879701896397 / 2 ^ 55) ∧
    round_double (1 / 3) = some (6004799503160661 / 2 ^ 54) ∧
    round_double (-1 / 3) = some (-6004799503160661 / 2 ^ 54) ∧
    round_double 2147483647 = some 2147483647 ∧
    round_double (1 / 2 ^ 1074) = some (1 / 2 ^ 1074) ∧
    round_double (1 / 2 ^ 1075) = some 0 ∧
    round_double (3 / 2 ^ 1075) = some (2 / 2 ^ 1074) ∧
    round_double (2 ^ 53 + 1) = some (2 ^ 53) ∧
    round_double (2 ^ 53 + 3) = some (2 ^ 53 + 4) ∧
    round_double (2 ^ 1024 - 2 ^ 971) = some (2 ^ 1024 - 2 ^ 971) ∧
    round_double (2 ^ 1024 - 2 ^ 970 - 1) = some (2 ^ 1024 - 2 ^ 971) ∧
    round_double (2 ^ 1024 - 2 ^ 970) = none ∧
    round_double (2 ^ 1024) = none := by decide!

/-! ## Sums of the rounded values over the vocabulary (C24, C25) -/

theorem icc_one_five : Finset.Icc (1 : Int) ((5 : Nat) : Int) = {1, 2, 3, 4, 5} := by decide

theorem one_word_wb_values :
    get_prob_witten_bell_rounded (one_word_model (-1)) ([4] ++ [1])
      = some (3602879701896397 / 2 ^ 56) ∧
    get_prob_witten_bell_rounded (one_word_model (-1)) ([4] ++ [2])
      = some (6079859496950170 / 2 ^ 53) ∧
    get_prob_witten_bell_rounded (one_word_model (-1)) ([4] ++ [3])
      = some (3602879701896397 / 2 ^ 56) ∧
    get_prob_witten_bell_rounded (one_word_model (-1)) ([4] ++ [4])
      = some (6305039478318694 / 2 ^ 55) ∧
    get_prob_witten_bell_rounded (one_word_model (-1)) ([4] ++ [5])
      = some (3602879701896397 / 2 ^ 56) := by decide!

/-- C24, as stated, fails for the values the code returns.  In the model of
order 2 over `epsilon_vocab` (`V = 5`) trained on the sentence `the`, padded to
`[1, 4, 2]`, and for the history `(the) = [4]`, the five values returned with
each operation rounded as the machine rounds it sum to `1 + 3 * 2^-56`; added
up from left to right as `double`s they give `1 + 2^-52`. -/
theorem C24_as_stated_fails :
    (1 ≤ 2 ∧ 1 ≤ 5 ∧ epsilon_vocab.size = ((5 : Nat) : Int) + 1 ∧
      (∀ s ∈ [[(1 : Int), 4, 2]], ∀ x ∈ s, 1 ≤ x ∧ x ≤ ((5 : Nat) : Int)) ∧
      1 ≤ (one_word_model (-1)).m_histCounts.get_count temp_eps ∧
      ([4] : List Int).length = 2 - 1 ∧ (∀ x ∈ ([4] : List Int), 1 ≤ x ∧ x ≤ ((5 : Nat) : Int))) ∧
    (get_prob_witten_bell_rounded (one_word_model (-1)) ([4] ++ [1])
        = some (3602879701896397 / 2 ^ 56) ∧
      get_prob_witten_bell_rounded (one_word_model (-1)) ([4] ++ [2])
        = some (6079859496950170 / 2 ^ 53) ∧
      get_prob_witten_bell_rounded (one_word_model (-1)) ([4] ++ [3])
        = some (3602879701896397 / 2 ^ 56) ∧
      get_prob_witten_bell_rounded (one_word_model (-1)) ([4] ++ [4])
        = some (6305039478318694 / 2 ^ 55) ∧
      get_prob_witten_bell_rounded (one_word_model (-1)) ([4] ++ [5])
        = some (3602879701896397 / 2 ^ 56)) ∧
    ((3602879701896397 / 2 ^ 56 : ℚ) + 6079859496950170 / 2 ^ 53 + 3602879701896397 / 2 ^ 56
      + 6305039478318694 / 2 ^ 55 + 3602879701896397 / 2 ^ 56 = 1 + 3 / 2 ^ 56) ∧
    (double_add (double_add (double_add (double_add (some (3602879701896397 / 2 ^ 56))
        (some (6079859496950170 / 2 ^ 53))) (some (3602879701896397 / 2 ^ 56)))
        (some (6305039478318694 / 2 ^ 55))) (some (3602879701896397 / 2 ^ 56))
      = some (1 + 1 / 2 ^ 52)) ∧
    ¬ ∃ f : Int → ℚ,
      (∀ w ∈ Finset.Icc (1 : Int) ((5 : Nat) : Int),
        get_prob_witten_bell_rounded (one_word_model (-1)) ([4] ++ [w]) = some (f w)) ∧
      ∑ w in Finset.Icc (1 : Int) ((5 : Nat) : Int), f w = 1 := by
  obtain ⟨v1, v2, v3, v4, v5⟩ := one_word_wb_values
  refine ⟨⟨by decide, by decide, by decide, by decide, by decide, by decide, by decide⟩,
    ⟨v1, v2, v3, v4, v5⟩, by norm_num, by decide!, ?_⟩
  rintro ⟨f, hf, hsum⟩
  have h1 := hf 1 (by decide)
  have h2 := hf 2 (by decide)
  have h3 := hf 3 (by decide)
  have h4 := hf 4 (by decide)
  have h5 := hf 5 (by decide)
  rw [v1] at h1; rw [v2] at h2; rw [v3] at h3; rw [v4] at h4; rw [v5] at h5
  injection h1 with h1; injection h2 with h2; injection h3 with h3
  injection h4 with h4; injection h5 with h5
  rw [icc_one_five] at hsum
  rw [Finset.sum_insert (by decide), Finset.sum_insert (by decide), Finset.sum_insert (by decide),
    Finset.sum_insert (by decide), Finset.sum_singleton, ← h1, ← h2, ← h3, ← h4, ← h5] at hsum
  norm_num at hsum

theorem one_word_pd_values :
    get_prob_plus_delta_rounded (one_word_model 1) ([4] ++ [1])
      = some (6004799503160661 / 2 ^ 55) ∧
    get_prob_plus_delta_rounded (one_word_model 1) ([4] ++ [2])
      = some (6004799503160661 / 2 ^ 54) ∧
    get_prob_plus_delta_rounded (one_word_model 1) ([4] ++ [3])
      = some (6004799503160661 / 2 ^ 55) ∧
    get_prob_plus_delta_rounded (one_word_model 1) ([4] ++ [4])
      = some (6004799503160661 / 2 ^ 55) ∧
    get_prob_plus_delta_rounded (one_word_model 1) ([4] ++ [5])
      = some (6004799503160661 / 2 ^ 55) := by decide!

/-- C25, as stated, fails for the values the code returns.  In the model of
order 2 over `epsilon_vocab` (`V = 5`) trained on the sentence `the`, padded to
`[1, 4, 2]`, with `delta = 1` and the history `(the) = [4]`, the quotients
`1/6`, `2/6`, `1/6`, `1/6`, `1/6` are rounded to `double`s whose sum is
`1 - 2^-54`; added up from left to right as `double`s they give `1 - 2^-53`. -/
theorem C25_as_stated_fails :
    (1 ≤ 2 ∧ 1 ≤ 5 ∧ epsilon_vocab.size = ((5 : Nat) : Int) + 1 ∧ (0 : ℚ) ≤ 1 ∧
      (∀ s ∈ [[(1 : Int), 4, 2]], ∀ x ∈ s, 1 ≤ x ∧ x ≤ ((5 : Nat) : Int)) ∧
      ([4] : List Int).length = 2 - 1 ∧
      (∀ x ∈ ([4] : List Int), 1 ≤ x ∧ x ≤ ((5 : Nat) : Int)) ∧
      0 < ((one_word_model 1).m_histCounts.get_count (history_key [4]) : ℚ)
        + 1 * ((5 : Nat) : ℚ)) ∧
    (get_prob_plus_delta_rounded (one_word_model 1) ([4] ++ [1])
        = some (6004799503160661 / 2 ^ 55) ∧
      get_prob_plus_delta_rounded (one_word_model 1) ([4] ++ [2])
        = some (6004799503160661 / 2 ^ 54) ∧
      get_prob_plus_delta_rounded (one_word_model 1) ([4] ++ [3])
        = some (6004799503160661 / 2 ^ 55) ∧
      get_prob_plus_delta_rounded (one_word_model 1) ([4] ++ [4])
        = some (6004799503160661 / 2 ^ 55) ∧
      get_prob_plus_delta_rounded (one_word_model 1) ([4] ++ [5])
        = some (6004799503160661 / 2 ^ 55)) ∧
    ((6004799503160661 / 2 ^ 55 : ℚ) + 6004799503160661 / 2 ^ 54 + 6004799503160661 / 2 ^ 55
      + 6004799503160661 / 2 ^ 55 + 6004799503160661 / 2 ^ 55 = 1 - 1 / 2 ^ 54) ∧
    (double_add (double_add (double_add (double_add (some (6004799503160661 / 2 ^ 55))
        (some (6004799503160661 / 2 ^ 54))) (some (6004799503160661 / 2 ^ 55)))
        (some (6004799503160661 / 2 ^ 55))) (some (6004799503160661 / 2 ^ 55))
      = some (1 - 1 / 2 ^ 53)) ∧
    ¬ ∃ f : Int → ℚ,
      (∀ w ∈ Finset.Icc (1 : Int) ((5 : Nat) : Int),
        get_prob_plus_delta_rounded (one_word_model 1) ([4] ++ [w]) = some (f w)) ∧
      ∑ w in Finset.Icc (1 : Int) ((5 : Nat) : Int), f w = 1 := by
  obtain ⟨v1, v2, v3, v4, v5⟩ := one_word_pd_values
  have hh : (one_word_model 1).m_histCounts.get_count (history_key [4]) = 1 := by decide
  refine ⟨⟨by decide, by decide, by decide, by norm_num, by decide, by decide, by decide,
      by rw [hh]; norm_num⟩,
    ⟨v1, v2, v3, v4, v5⟩, by norm_num, by decide!, ?_⟩
  rintro ⟨f, hf, hsum⟩
  have h1 := hf 1 (by decide)
  have h2 := hf 2 (by decide)
  have h3 := hf 3 (by decide)
  have h4 := hf 4 (by decide)
  have h5 := hf 5 (by decide)
  rw [v1] at h1; rw [v2] at h2; rw [v3] at h3; rw [v4] at h4; rw [v5] at h5
  injection h1 with h1; injection h2 with h2; injection h3 with h3
  injection h4 with h4; injection h5 with h5
  rw [icc_one_five] at hsum
  rw [Finset.sum_insert (by decide), Finset.sum_insert (by decide), Finset.sum_insert (by decide),
    Finset.sum_insert (by decide), Finset.sum_singleton, ← h1, ← h2, ← h3, ← h4, ← h5] at hsum
  norm_num at hsum

/-! ## The counts of a sentence of equal words -/

theorem padded_sentence_length (a b : Nat) : (padded_sentence a b).length = a + b + 1 := by
  simp only [padded_sentence, List.length_append, List.length_replicate, List.length_singleton]

theorem padded_getD (a b p : Nat) :
    (padded_sentence a b).getD p 0
      = if p < a then 1 else if p < a + b then 4 else if p = a + b then 2 else 0 := by
  unfold padded_sentence
  rw [List.getD_eq_getElem?_getD]
  by_cases h1 : p < a
  · rw [if_pos h1, List.append_assoc, List.getElem?_append_left (by simp only [List.length_replicate]; omega)]
    simp only [List.getElem?_replicate, h1, if_true, Option.getD_some]
  · rw [if_neg h1]
    by_cases h2 : p < a + b
    · rw [if_pos h2,
        List.getElem?_append_left
          (by simp only [List.length_append, List.length_replicate]; omega),
        List.getElem?_append_right (by simp only [List.length_replicate]; omega)]
      simp only [List.getElem?_replicate, List.length_replicate]
      rw [if_pos (by omega)]
      rfl
    · rw [if_neg h2, List.getElem?_append_right
        (by simp only [List.length_append, List.length_replicate]; omega)]
      simp only [List.length_append, List.length_replicate]
      by_cases h3 : p = a + b
      · subst h3; simp
      · rw [if_neg h3]
        obtain ⟨q, hq⟩ := Nat.exists_eq_succ_of_ne_zero (show p - (a + b) ≠ 0 by omega)
        rw [hq]; rfl

theorem padded_events (a b : Nat) :
    corpus_ngrams (a + 1) [padded_sentence a b]
      = (List.range' 1 (a + 1)).flatMap
          fun k => (List.range' a (b + 1)).map (count_temp (padded_sentence a b) k) := by
  have e : a + b + 1 - a = b + 1 := by omega
  simp only [corpus_ngrams, sentence_ngrams, padded_sentence_length, List.flatMap_cons,
    List.flatMap_nil, List.append_nil, Nat.add_sub_cancel, e]

theorem mem_padded_events (a b : Nat) (g : List Int) :
    g ∈ corpus_ngrams (a + 1) [padded_sentence a b]
      ↔ ∃ k i, (1 ≤ k ∧ k ≤ a + 1) ∧ (a ≤ i ∧ i ≤ a + b)
          ∧ g = count_temp (padded_sentence a b) k i := by
  rw [padded_events]
  simp only [List.mem_flatMap, List.mem_map, List.mem_range'_1]
  constructor
  · rintro ⟨k, hk, i, hi, rfl⟩
    exact ⟨k, i, by omega, by omega, rfl⟩
  · rintro ⟨k, i, hk, hi, rfl⟩
    exact ⟨k, by omega, i, by omega, rfl⟩

theorem hist_key_window (s : List Int) (k i : Nat) :
    hist_key (count_temp s k i)
      = if k > 1 then (List.range (k - 1)).map (fun t => s.getD (i - (k - 1) + t) 0)
        else temp_eps := by
  unfold hist_key
  rw [count_temp_length]
  split_ifs with h
  · rw [← count_temp_hist_eq]; rfl
  · rfl

theorem countP_ge_range' (a n c : Nat) (h1 : a ≤ c) (h2 : c ≤ a + n) :
    (List.range' a n).countP (fun i => decide (c ≤ i)) = a + n - c := by
  induction n with
  | zero =>
    simp only [List.range'_zero, List.countP_nil]; omega
  | succ n ih =>
    rw [List.range'_concat, List.countP_append, List.countP_cons, List.countP_nil]
    simp only [Nat.one_mul, decide_eq_true_eq, Nat.zero_add]
    by_cases h : c ≤ a + n
    · rw [ih h, if_pos h]
      omega
    · have hz : (List.range' a n).countP (fun i => decide (c ≤ i)) = 0 := by
        rw [List.countP_eq_zero]
        intro x hx
        rw [List.mem_range'_1] at hx
        simp only [decide_eq_true_eq]; omega
      rw [hz, if_neg h]
      omega

theorem countP_flatMap_single {β : Type} (p : β → Bool) (F : Nat → List β) (n k0 : Nat)
    (h1 : 1 ≤ k0) (h2 : k0 ≤ n)
    (hz : ∀ k, 1 ≤ k → k ≤ n → k ≠ k0 → ∀ g ∈ F k, p g = false) :
    ((List.range' 1 n).flatMap F).countP p = (F k0).countP p := by
  induction n with
  | zero => omega
  | succ n ih =>
    rw [List.range'_concat, List.flatMap_append, List.countP_append]
    simp only [Nat.one_mul, List.flatMap_cons, List.flatMap_nil, List.append_nil]
    by_cases h : k0 = 1 + n
    · subst h
      have hz0 : ((List.range' 1 n).flatMap F).countP p = 0 := by
        rw [List.countP_eq_zero]
        intro g hg
        rw [List.mem_flatMap] at hg
        obtain ⟨k, hk, hgk⟩ := hg
        rw [List.mem_range'_1] at hk
        rw [hz k (by omega) (by omega) (by omega) g hgk]
        simp
      rw [hz0, Nat.zero_add]
    · rw [ih (by omega) (fun k hk1 hk2 hne g hg => hz k hk1 (by omega) hne g hg)]
      have hz1 : (F (1 + n)).countP p = 0 := by
        rw [List.countP_eq_zero]
        intro g hg
        rw [hz (1 + n) (by omega) (by omega) (fun e => h e.symm) g hg]
        simp
      rw [hz1, Nat.add_zero]

theorem hist_key_snoc (K : List Int) (x : Int) (hK : K ≠ []) : hist_key (K ++ [x]) = K := by
  unfold hist_key
  have hl : (K ++ [x]).length > 1 := by
    have := List.length_pos.mpr hK
    simp only [List.length_append, List.length_singleton]; omega
  rw [if_pos hl, List.dropLast_concat]

theorem window_succ (s : List Int) (j i : Nat) :
    count_temp s (j + 1) i
      = (List.range j).map (fun t => s.getD (i - j + t) 0) ++ [s.getD (i - j + j) 0] := by
  unfold count_temp
  rw [List.range_succ, List.map_append]
  rfl

theorem padded_window_eq (a b j i : Nat) (hi : a + j ≤ i) (hi2 : i ≤ a + b) :
    count_temp (padded_sentence a b) (j + 1) i
      = List.replicate j 4 ++ [(padded_sentence a b).getD i 0] := by
  rw [window_succ]
  have e : i - j + j = i := by omega
  rw [e]
  congr 1
  rw [List.eq_replicate_iff]
  refine ⟨by simp only [List.length_map, List.length_range], ?_⟩
  intro x hx
  rw [List.mem_map] at hx
  obtain ⟨t, ht, rfl⟩ := hx
  rw [List.mem_range] at ht
  rw [padded_getD, if_neg (by omega), if_pos (by omega)]

theorem padded_hist_key_iff (a b j k i : Nat) (hj : 1 ≤ j) (hk : 1 ≤ k) (hk2 : k ≤ a + 1)
    (hi : a ≤ i) (hi2 : i ≤ a + b) :
    hist_key (count_temp (padded_sentence a b) k i) = List.replicate j 4
      ↔ k = j + 1 ∧ a + j ≤ i := by
  constructor
  · intro h
    rw [hist_key_window] at h
    split_ifs at h with hk1
    · rw [List.eq_replicate_iff] at h
      obtain ⟨hl, hall⟩ := h
      simp only [List.length_map, List.length_range] at hl
      have h0 := hall ((padded_sentence a b).getD (i - (k - 1) + 0) 0)
        (List.mem_map.mpr ⟨0, List.mem_range.mpr (by omega), rfl⟩)
      rw [padded_getD] at h0
      split_ifs at h0 <;> omega
    · rw [List.eq_replicate_iff] at h
      have h0 := h.2 0 (by simp [temp_eps])
      omega
  · rintro ⟨rfl, h⟩
    rw [padded_window_eq a b j i h hi2]
    apply hist_key_snoc
    intro h0
    have := congrArg List.length h0
    simp only [List.length_replicate, List.length_nil] at this
    omega

theorem padded_hist_key_eps_iff (a b k i : Nat) (hk : 1 ≤ k) (hk2 : k ≤ a + 1)
    (hi2 : i ≤ a + b) :
    hist_key (count_temp (padded_sentence a b) k i) = temp_eps ↔ k = 1 := by
  rw [hist_key_window]
  constructor
  · intro h
    split_ifs at h with hk1
    · have hl := congrArg List.length h
      simp only [List.length_map, List.length_range, temp_eps, List.length_singleton] at hl
      have hk3 : k - 1 = 1 := hl
      rw [hk3] at h
      have h0 : (padded_sentence a b).getD (i - 1 + 0) 0 = 0 := by
        have := congrArg (fun l => l.getD 0 7) h
        simpa [temp_eps] using this
      rw [padded_getD] at h0
      split_ifs at h0 <;> omega
    · omega
  · rintro rfl
    rfl

theorem padded_pred_zero (a b : Nat) (lm : LangModel)
    (hc : counts_of lm (corpus_ngrams (a + 1) [padded_sentence a b])) (g : List Int)
    (h5 : (5 : Int) ∈ g) : lm.m_predCounts.get_count g = 0 := by
  rw [(hc g).1, List.count_eq_zero]
  intro hg
  rw [mem_padded_events] at hg
  obtain ⟨k, i, _, _, rfl⟩ := hg
  unfold count_temp at h5
  rw [List.mem_map] at h5
  obtain ⟨t, _, ht⟩ := h5
  rw [padded_getD] at ht
  split_ifs at ht <;> omega

theorem padded_hist (a b j : Nat) (lm : LangModel)
    (hc : counts_of lm (corpus_ngrams (a + 1) [padded_sentence a b]))
    (hj : 1 ≤ j) (hja : j ≤ a) (hjb : j ≤ b + 1) :
    lm.m_histCounts.get_count (List.replicate j 4) = b + 1 - j := by
  rw [(hc _).2.1, padded_events]
  rw [countP_flatMap_single _ _ (a + 1) (j + 1) (by omega) (by omega)]
  · rw [List.countP_map]
    have hcg : (List.range' a (b + 1)).countP
          ((fun g => decide (hist_key g = List.replicate j 4))
            ∘ count_temp (padded_sentence a b) (j + 1))
        = (List.range' a (b + 1)).countP (fun i => decide (a + j ≤ i)) := by
      apply List.countP_congr
      intro i hi
      rw [List.mem_range'_1] at hi
      simp only [Function.comp, decide_eq_true_eq]
      rw [padded_hist_key_iff a b j (j + 1) i hj (by omega) (by omega) hi.1 (by omega)]
      constructor
      · exact fun h => h.2
      · exact fun h => ⟨rfl, h⟩
    rw [hcg, countP_ge_range' a (b + 1) (a + j) (by omega) (by omega)]
    omega
  · intro k hk1 hk2 hne g hg
    rw [List.mem_map] at hg
    obtain ⟨i, hi, rfl⟩ := hg
    rw [List.mem_range'_1] at hi
    rw [decide_eq_false_iff_not, padded_hist_key_iff a b j k i hj hk1 hk2 hi.1 (by omega)]
    intro h
    exact hne h.1

theorem padded_hist_eps (a b : Nat) (lm : LangModel)
    (hc : counts_of lm (corpus_ngrams (a + 1) [padded_sentence a b])) :
    lm.m_histCounts.get_count temp_eps = b + 1 := by
  rw [(hc _).2.1, padded_events]
  rw [countP_flatMap_single _ _ (a + 1) 1 (by omega) (by omega)]
  · rw [List.countP_map]
    have hcg : (List.range' a (b + 1)).countP
          ((fun g => decide (hist_key g = temp_eps)) ∘ count_temp (padded_sentence a b) 1)
        = (List.range' a (b + 1)).countP (fun i => decide (a ≤ i)) := by
      apply List.countP_congr
      intro i hi
      rw [List.mem_range'_1] at hi
      simp only [Function.comp, decide_eq_true_eq]
      rw [padded_hist_key_eps_iff a b 1 i (by omega) (by omega) (by omega)]
      constructor
      · exact fun _ => hi.1
      · exact fun _ => rfl
    rw [hcg, countP_ge_range' a (b + 1) a (by omega) (by omega)]
    omega
  · intro k hk1 hk2 hne g hg
    rw [List.mem_map] at hg
    obtain ⟨i, hi, rfl⟩ := hg
    rw [List.mem_range'_1] at hi
    rw [decide_eq_false_iff_not, padded_hist_key_eps_iff a b k i hk1 hk2 (by omega)]
    exact hne

theorem padded_plus (a b j : Nat) (lm : LangModel)
    (hc : counts_of lm (corpus_ngrams (a + 1) [padded_sentence a b]))
    (hj : 1 ≤ j) (hja : j ≤ a) (hjb : j + 1 ≤ b) :
    lm.m_histOnePlusCounts.get_count (List.replicate j 4) = 2 := by
  rw [(hc _).2.2]
  have hset : (corpus_ngrams (a + 1) [padded_sentence a b]).toFinset.filter
        (fun g => hist_key g = List.replicate j 4)
      = {List.replicate j 4 ++ [4], List.replicate j 4 ++ [2]} := by
    ext g
    simp only [Finset.mem_filter, List.mem_toFinset, Finset.mem_insert, Finset.mem_singleton,
      mem_padded_events]
    constructor
    · rintro ⟨⟨k, i, hk, hi, rfl⟩, hkey⟩
      rw [padded_hist_key_iff a b j k i hj hk.1 hk.2 hi.1 hi.2] at hkey
      obtain ⟨rfl, hij⟩ := hkey
      rw [padded_window_eq a b j i hij hi.2, padded_getD, if_neg (by omega)]
      by_cases h : i < a + b
      · left; rw [if_pos h]
      · right; rw [if_neg h, if_pos (by omega)]
    · have hK : List.replicate j (4 : Int) ≠ [] := by
        intro h0
        have := congrArg List.length h0
        simp only [List.length_replicate, List.length_nil] at this
        omega
      rintro (rfl | rfl)
      · refine ⟨⟨j + 1, a + j, by omega, by omega, ?_⟩, hist_key_snoc _ _ hK⟩
        rw [padded_window_eq a b j (a + j) (by omega) (by omega), padded_getD,
          if_neg (by omega), if_pos (by omega)]
      · refine ⟨⟨j + 1, a + b, by omega, by omega, ?_⟩, hist_key_snoc _ _ hK⟩
        rw [padded_window_eq a b j (a + b) (by omega) (by omega), padded_getD,
          if_neg (by omega), if_neg (by omega), if_pos rfl]
  rw [hset, Finset.card_pair]
  intro h
  have := List.append_cancel_left h
  simp at this

theorem padded_plus_eps (a b : Nat) (lm : LangModel)
    (hc : counts_of lm (corpus_ngrams (a + 1) [padded_sentence a b])) (hb : 1 ≤ b) :
    lm.m_histOnePlusCounts.get_count temp_eps = 2 := by
  rw [(hc _).2.2]
  have hset : (corpus_ngrams (a + 1) [padded_sentence a b]).toFinset.filter
        (fun g => hist_key g = temp_eps)
      = {[4], [2]} := by
    ext g
    simp only [Finset.mem_filter, List.mem_toFinset, Finset.mem_insert, Finset.mem_singleton,
      mem_padded_events]
    constructor
    · rintro ⟨⟨k, i, hk, hi, rfl⟩, hkey⟩
      rw [padded_hist_key_eps_iff a b k i hk.1 hk.2 hi.2] at hkey
      subst hkey
      have hw := padded_window_eq a b 0 i (by omega) hi.2
      simp only [Nat.zero_add, List.replicate_zero, List.nil_append] at hw
      rw [hw, padded_getD, if_neg (by omega)]
      by_cases h : i < a + b
      · left; rw [if_pos h]
      · right; rw [if_neg h, if_pos (by omega)]
    · rintro (rfl | rfl)
      · refine ⟨⟨1, a, by omega, by omega, ?_⟩, rfl⟩
        have hw := padded_window_eq a b 0 a (by omega) (by omega)
        simp only [Nat.zero_add, List.replicate_zero, List.nil_append] at hw
        rw [hw, padded_getD, if_neg (by omega), if_pos (by omega)]
      · refine ⟨⟨1, a + b, by omega, by omega, ?_⟩, rfl⟩
        have hw := padded_window_eq a b 0 (a + b) (by omega) (by omega)
        simp only [Nat.zero_add, List.replicate_zero, List.nil_append] at hw
        rw [hw, padded_getD, if_neg (by omega), if_neg (by omega), if_pos rfl]
  rw [hset, Finset.card_pair]
  intro h
  simp at h

/-! ## The underflow of the rounded Witten-Bell value (C26) -/

theorem wb_rounded_body_succ (lm : LangModel) (ngram : List Int) (p : List (Option ℚ)) (i : Nat)
    (hlen : ngram.length = lm.m_n) (hi : i + 2 ≤ lm.m_n) :
    witten_bell_body_rounded lm ngram p (i + 2)
      = p.set (i + 1)
          (witten_bell_level_value
            (lm.m_histCounts.get_count (last_words (i + 1) ngram.dropLast))
            (lm.m_histOnePlusCounts.get_count (last_words (i + 1) ngram.dropLast))
            (lm.m_predCounts.get_count (last_words (i + 2) ngram)) (p.getD i none)) := by
  have ht := wb_temp_eq ngram lm.m_n (i + 2) hlen hi
  have hl := wb_last_temp_eq ngram lm.m_n (i + 2) hlen (by omega) hi
  unfold witten_bell_body_rounded witten_bell_level_value
  have hne : ¬ (i + 2 = 1) := by omega
  simp only [hne, if_false, ht, hl, Nat.add_sub_cancel]
  have e : i + 2 - 1 = i + 1 := by omega
  rw [e]
  split_ifs <;> rfl

theorem wb_rounded_loop (lm : LangModel) (ngram : List Int) (hlen : ngram.length = lm.m_n)
    (k : Nat) (hk : k ≤ lm.m_n) :
    ((List.range' 1 k).foldl (witten_bell_body_rounded lm ngram)
        (List.replicate lm.m_n (some 0))).length = lm.m_n ∧
    ∀ j, j < k →
      ((List.range' 1 k).foldl (witten_bell_body_rounded lm ngram)
        (List.replicate lm.m_n (some 0))).getD j none
        = (List.range j).foldl
            (fun q t => witten_bell_level_value
              (lm.m_histCounts.get_count (last_words (t + 1) ngram.dropLast))
              (lm.m_histOnePlusCounts.get_count (last_words (t + 1) ngram.dropLast))
              (lm.m_predCounts.get_count (last_words (t + 2) ngram)) q)
            (witten_bell_first_rounded lm ngram) := by
  induction k with
  | zero => simp
  | succ k ih =>
    obtain ⟨ihl, ihv⟩ := ih (by omega)
    rw [List.range'_concat, List.foldl_append]
    simp only [Nat.one_mul, List.foldl_cons, List.foldl_nil]
    generalize (List.range' 1 k).foldl (witten_bell_body_rounded lm ngram)
      (List.replicate lm.m_n (some 0)) = p at ihl ihv
    have hbody : witten_bell_body_rounded lm ngram p (1 + k)
        = p.set k ((List.range k).foldl
            (fun q t => witten_bell_level_value
              (lm.m_histCounts.get_count (last_words (t + 1) ngram.dropLast))
              (lm.m_histOnePlusCounts.get_count (last_words (t + 1) ngram.dropLast))
              (lm.m_predCounts.get_count (last_words (t + 2) ngram)) q)
            (witten_bell_first_rounded lm ngram)) := by
      cases k with
      | zero =>
        unfold witten_bell_body_rounded
        simp only [Nat.add_zero, if_true, Nat.sub_self, List.range_zero, List.foldl_nil]
      | succ i =>
        have e : 1 + (i + 1) = i + 2 := by omega
        rw [e, wb_rounded_body_succ lm ngram p i hlen (by omega), ihv i (by omega),
          List.range_succ, List.foldl_append]
        rfl
    rw [hbody]
    refine ⟨by rw [List.length_set]; exact ihl, ?_⟩
    intro j hj
    rw [getD_set_eq p k j _ (by omega)]
    by_cases hjk : j = k
    · rw [if_pos hjk, hjk]
    · rw [if_neg hjk]
      exact ihv j (by omega)

theorem last_words_replicate (a j : Nat) (x : Int) (hj : j ≤ a) :
    last_words j (List.replicate a x) = List.replicate j x := by
  unfold last_words
  rw [List.length_replicate, List.drop_replicate]
  congr 1
  omega

/-- The value that the rounded Witten-Bell routine returns, in a model of order
`a + 1` trained on `padded_sentence a b`, for the n-gram made of `a` times `the`
and then `cat`: the levels are computed from the history counts `b + 1`, `b`,
`b - 1`, ..., the diversity count 2 and the predictive count 0. -/
theorem padded_witten_bell_rounded (a b : Nat) (V : Int) (lm : LangModel)
    (hc : counts_of lm (corpus_ngrams (a + 1) [padded_sentence a b]))
    (hn : lm.m_n = a + 1) (hV : lm.m_symTable.size - 1 = V) (hab : a + 1 ≤ b) :
    get_prob_witten_bell_rounded lm (List.replicate a 4 ++ [5])
      = (List.range a).foldl (fun q t => witten_bell_level_value (b - t) 2 0 q)
          (witten_bell_first_value (b + 1) 2 0 V) := by
  have hlen : (List.replicate a (4 : Int) ++ [5]).length = lm.m_n := by
    rw [hn, List.length_append, List.length_replicate, List.length_singleton]
  unfold get_prob_witten_bell_rounded
  have h := (wb_rounded_loop lm _ hlen lm.m_n (le_refl _)).2 (lm.m_n - 1) (by omega)
  rw [h]
  have e : lm.m_n - 1 = a := by omega
  rw [e]
  have hfirst : witten_bell_first_rounded lm (List.replicate a 4 ++ [5])
      = witten_bell_first_value (b + 1) 2 0 V := by
    unfold witten_bell_first_rounded witten_bell_first_value
    have hg : (List.replicate a (4 : Int) ++ [5]).getD (lm.m_n - 1) 0 = 5 := by
      rw [e, List.getD_eq_getElem?_getD,
        List.getElem?_append_right (by rw [List.length_replicate])]
      simp only [List.length_replicate, Nat.sub_self, List.getElem?_cons_zero,
        Option.getD_some]
    simp only [hg, padded_hist_eps a b lm hc, padded_plus_eps a b lm hc (by omega),
      padded_pred_zero a b lm hc [5] (by simp), hV]
  rw [hfirst]
  apply List.foldl_ext
  intro q t ht
  rw [List.mem_range] at ht
  rw [List.dropLast_concat, last_words_replicate a (t + 1) 4 (by omega),
    padded_hist a b (t + 1) lm hc (by omega) (by omega) (by omega),
    padded_plus a b (t + 1) lm hc (by omega) (by omega) (by omega),
    padded_pred_zero a b lm hc _ (by
      rw [last_words_snoc (t + 1) _ 5 (by rw [List.length_replicate]; omega)]
      simp)]
  have e2 : b + 1 - (t + 1) = b - t := by omega
  rw [e2]

theorem deep_chain_value :
    (List.range 199).foldl (fun q t => witten_bell_level_value (250 - t) 2 0 q)
      (witten_bell_first_value (250 + 1) 2 0 5) = some 0 := by decide!

theorem deep_witten_bell_rounded : get_prob_witten_bell_rounded deep_model deep_ngram = some 0 := by
  have hc := counts_of_trained deep_params epsilon_vocab 1 2 3 200 (-1) [deep_sentence]
  obtain ⟨hn, _, hst⟩ :=
    count_sentences_fields (LangModel.fresh deep_params epsilon_vocab 1 2 3 200 (-1))
      [deep_sentence]
  have hV : deep_model.m_symTable.size - 1 = 5 := by
    unfold deep_model
    rw [hst]
    decide
  exact (padded_witten_bell_rounded 199 250 5 deep_model hc hn hV (by omega)).trans
    deep_chain_value

/-- The value that the Witten-Bell routine with exact operations returns, in a
model of order `a + 1` trained on `padded_sentence a b`, for the n-gram made of
`a` times `the` and then `cat`. -/
theorem padded_witten_bell_exact (a b : Nat) (V : Int) (lm : LangModel)
    (hc : counts_of lm (corpus_ngrams (a + 1) [padded_sentence a b]))
    (hn : lm.m_n = a + 1) (hV : lm.m_symTable.size - 1 = V) (hab : a + 1 ≤ b) :
    get_prob_witten_bell lm (List.replicate a 4 ++ [5])
      = (List.range a).foldl
          (fun q t =>
            fadd
              (fmul (fdiv (some ((b - t : Nat) : ℚ)) (some (((b - t : Nat) : ℚ) + ((2 : Nat) : ℚ))))
                (fdiv (some ((0 : Nat) : ℚ)) (some ((b - t : Nat) : ℚ))))
              (fmul (fdiv (some ((2 : Nat) : ℚ)) (some (((b - t : Nat) : ℚ) + ((2 : Nat) : ℚ))))
                q))
          (fadd
            (fmul (fdiv (some ((b + 1 : Nat) : ℚ)) (some (((b + 1 : Nat) : ℚ) + ((2 : Nat) : ℚ))))
              (fdiv (some ((0 : Nat) : ℚ)) (some ((b + 1 : Nat) : ℚ))))
            (fmul (fdiv (some ((2 : Nat) : ℚ)) (some (((b + 1 : Nat) : ℚ) + ((2 : Nat) : ℚ))))
              (fdiv (some 1) (some (V : ℚ))))) := by
  have hlen : (List.replicate a (4 : Int) ++ [5]).length = lm.m_n := by
    rw [hn, List.length_append, List.length_replicate, List.length_singleton]
  rw [get_prob_witten_bell_eq_P lm _ (by omega) hlen]
  have key : ∀ j, j ≤ a →
      witten_bell_P lm (List.replicate a 4 ++ [5]) (j + 1)
        = (List.range j).foldl
          (fun q t =>
            fadd
              (fmul (fdiv (some ((b - t : Nat) : ℚ)) (some (((b - t : Nat) : ℚ) + ((2 : Nat) : ℚ))))
                (fdiv (some ((0 : Nat) : ℚ)) (some ((b - t : Nat) : ℚ))))
              (fmul (fdiv (some ((2 : Nat) : ℚ)) (some (((b - t : Nat) : ℚ) + ((2 : Nat) : ℚ))))
                q))
          (fadd
            (fmul (fdiv (some ((b + 1 : Nat) : ℚ)) (some (((b + 1 : Nat) : ℚ) + ((2 : Nat) : ℚ))))
              (fdiv (some ((0 : Nat) : ℚ)) (some ((b + 1 : Nat) : ℚ))))
            (fmul (fdiv (some ((2 : Nat) : ℚ)) (some (((b + 1 : Nat) : ℚ) + ((2 : Nat) : ℚ))))
              (fdiv (some 1) (some (V : ℚ))))) := by
    intro j
    induction j with
    | zero =>
      intro _
      have hl1 : last_words 1 (List.replicate a (4 : Int) ++ [5]) = [5] := by
        have := last_words_snoc 0 (List.replicate a (4 : Int)) 5 (Nat.zero_le _)
        rw [this, last_words_replicate a 0 4 (Nat.zero_le _)]
        rfl
      simp only [witten_bell_P, List.range_zero, List.foldl_nil, hl1,
        padded_hist_eps a b lm hc, padded_plus_eps a b lm hc (by omega),
        padded_pred_zero a b lm hc [5] (by simp), hV]
    | succ j ih =>
      intro hj
      have hC : lm.m_histCounts.get_count (last_words (j + 1)
          (List.replicate a (4 : Int) ++ [5]).dropLast) = b - j := by
        rw [List.dropLast_concat, last_words_replicate a (j + 1) 4 (by omega),
          padded_hist a b (j + 1) lm hc (by omega) (by omega) (by omega)]
        omega
      have hD : lm.m_histOnePlusCounts.get_count (last_words (j + 1)
          (List.replicate a (4 : Int) ++ [5]).dropLast) = 2 := by
        rw [List.dropLast_concat, last_words_replicate a (j + 1) 4 (by omega),
          padded_plus a b (j + 1) lm hc (by omega) (by omega) (by omega)]
      have hp : lm.m_predCounts.get_count (last_words (j + 2)
          (List.replicate a (4 : Int) ++ [5])) = 0 := by
        apply padded_pred_zero a b lm hc
        rw [last_words_snoc (j + 1) _ 5 (by rw [List.length_replicate]; omega)]
        simp
      have hne : ¬ (((b - j : Nat) : ℚ) = 0) := by
        have : b - j ≠ 0 := by omega
        exact_mod_cast this
      rw [List.range_succ, List.foldl_append, ← ih (by omega)]
      conv_lhs => unfold witten_bell_P
      simp only [hC, hD, hp, hne, if_false, List.foldl_cons, List.foldl_nil]
  have e : lm.m_n = a + 1 := hn
  rw [e]
  exact key a (le_refl _)

theorem deep_chain_exact :
    ((List.range 199).foldl
          (fun q t =>
            fadd
              (fmul (fdiv (some ((250 - t : Nat) : ℚ))
                  (some (((250 - t : Nat) : ℚ) + ((2 : Nat) : ℚ))))
                (fdiv (some ((0 : Nat) : ℚ)) (some ((250 - t : Nat) : ℚ))))
              (fmul (fdiv (some ((2 : Nat) : ℚ)) (some (((250 - t : Nat) : ℚ) + ((2 : Nat) : ℚ))))
                q))
          (fadd
            (fmul (fdiv (some ((250 + 1 : Nat) : ℚ))
                (some (((250 + 1 : Nat) : ℚ) + ((2 : Nat) : ℚ))))
              (fdiv (some ((0 : Nat) : ℚ)) (some ((250 + 1 : Nat) : ℚ))))
            (fmul (fdiv (some ((2 : Nat) : ℚ)) (some (((250 + 1 : Nat) : ℚ) + ((2 : Nat) : ℚ))))
              (fdiv (some 1) (some ((5 : Int) : ℚ)))))).map
        (fun p => decide (0 < p ∧ p < 1 / 2 ^ 1075)) = some true := by decide!

theorem deep_witten_bell_exact :
    ∃ p : ℚ, get_prob_witten_bell deep_model deep_ngram = some p ∧ 0 < p ∧ p < 1 / 2 ^ 1075 := by
  have hc := counts_of_trained deep_params epsilon_vocab 1 2 3 200 (-1) [deep_sentence]
  obtain ⟨hn, _, hst⟩ :=
    count_sentences_fields (LangModel.fresh deep_params epsilon_vocab 1 2 3 200 (-1))
      [deep_sentence]
  have hV : deep_model.m_symTable.size - 1 = 5 := by
    unfold deep_model
    rw [hst]
    decide
  have h := padded_witten_bell_exact 199 250 5 deep_model hc hn hV (by omega)
  have hd := deep_chain_exact
  have h2 : get_prob_witten_bell deep_model deep_ngram
      = get_prob_witten_bell deep_model (List.replicate 199 4 ++ [5]) := rfl
  rw [h2, h]
  generalize (List.range 199).foldl _ _ = o at hd ⊢
  cases o with
  | none => simp at hd
  | some p =>
    simp only [Option.map_some', Option.some.injEq, decide_eq_true_eq] at hd
    exact ⟨p, rfl, hd⟩

/-- C26, as stated, fails for the values the code returns: a product of many
factors below 1 underflows.  In the model of order 200 over `epsilon_vocab`
(`V = 5`) trained on one sentence of 250 words `the` (padded: 199 times `<s>`,
250 times `the`, `</s>`), the n-gram made of 199 times `the` and then `cat`,
which was not seen, gets the value 0 from the routine with each operation
rounded as the machine rounds it; the exact value is positive and lies below
`2^-1075`, half of the least positive `double`. -/
theorem C26_as_stated_fails :
    (1 ≤ deep_model.m_histCounts.get_count temp_eps ∧ 1 ≤ epsilon_vocab.size - 1 ∧ 1 ≤ 200
      ∧ deep_ngram.length = 200) ∧
    deep_model
      = count_sentences (LangModel.fresh deep_params epsilon_vocab 1 2 3 200 (-1))
          [List.replicate 199 1 ++ List.replicate 250 4 ++ [2]] ∧
    deep_ngram = List.replicate 199 4 ++ [5] ∧
    get_prob_witten_bell_rounded deep_model deep_ngram = some 0 ∧
    (¬ ∃ p : ℚ, get_prob_witten_bell_rounded deep_model deep_ngram = some p ∧ 0 < p) ∧
    ∃ p : ℚ, get_prob_witten_bell deep_model deep_ngram = some p ∧ 0 < p ∧ p < 1 / 2 ^ 1075 := by
  have hc := counts_of_trained deep_params epsilon_vocab 1 2 3 200 (-1) [deep_sentence]
  have he : deep_model.m_histCounts.get_count temp_eps = 250 + 1 :=
    padded_hist_eps 199 250 deep_model hc
  have hl : deep_ngram.length = 200 := by
    simp only [deep_ngram, List.length_append, List.length_replicate, List.length_singleton]
  refine ⟨⟨by rw [he]; omega, by decide, by omega, hl⟩, rfl, rfl, deep_witten_bell_rounded, ?_,
    deep_witten_bell_exact⟩
  rintro ⟨p, hp, hpos⟩
  rw [deep_witten_bell_rounded] at hp
  injection hp with hp
  rw [← hp] at hpos
  exact lt_irrefl _ hpos

/-- C26 (amended), on the model of order 200 trained on a sentence of 250 words
`the` and the unseen n-gram made of 199 times `the` and then `cat`: the exact
value is positive (rounded, it is 0). -/
theorem C26_witten_bell_positive_witness :
    ∃ p : ℚ, get_prob_witten_bell deep_model deep_ngram = some p ∧ 0 < p :=
  C26_witten_bell_positive deep_params epsilon_vocab 1 2 3 200 (-1) [deep_sentence] deep_ngram
    (by
      rw [padded_hist_eps 199 250 _
        (counts_of_trained deep_params epsilon_vocab 1 2 3 200 (-1) [deep_sentence])]
      omega)
    (by decide) (by omega)
    (by simp only [deep_ngram, List.length_append, List.length_replicate,
      List.length_singleton])

end LM
